import Mathlib

/-!
Verification of the propositional-logic core of the Hunt-The-Wumpus project:
the CNF normalizer, the three-valued evaluator `pl_true`, the truth-table
entailment checker `tt_entails`, and the two knowledge-base variants
(`PropKB` backed by enumeration, `PropKB_SAT` backed by a SAT oracle).

The expression data type of the source (`utils.Expr`) is an operator string
together with an ordered list of argument expressions; Python booleans
(`True`/`False`) can also stand in expression position (the evaluator tests
`exp in (True, False)` and the associator returns them as identity elements).
Modelled from the spec: the repository file `utils.py` defining the
`Expr` class is not available, so `Expr` is modelled per the spec's data
model (section 3): an expression with zero arguments is either a boolean
constant or an atomic symbol, and the rewrite stages treat boolean constants
as atoms that pass through unchanged.
-/

/-- An expression: a boolean constant, or an operator with argument list. -/
inductive Expr where
  | const (b : Bool)
  | node (op : String) (args : List Expr)
deriving Repr

mutual
def exprDecEq : (a b : Expr) → Decidable (a = b)
  | .const x, .const y =>
    match Bool.decEq x y with
    | isTrue h => isTrue (by rw [h])
    | isFalse h => isFalse (by intro hc; injection hc; contradiction)
  | .const _, .node _ _ => isFalse (by intro hc; exact Expr.noConfusion hc)
  | .node _ _, .const _ => isFalse (by intro hc; exact Expr.noConfusion hc)
  | .node o1 l1, .node o2 l2 =>
    match String.decEq o1 o2 with
    | isFalse h => isFalse (by intro hc; injection hc; contradiction)
    | isTrue h =>
      match exprListDecEq l1 l2 with
      | isTrue h2 => isTrue (by rw [h, h2])
      | isFalse h2 => isFalse (by intro hc; injection hc; contradiction)

def exprListDecEq : (a b : List Expr) → Decidable (a = b)
  | [], [] => isTrue rfl
  | [], _ :: _ => isFalse (by intro hc; exact List.noConfusion hc)
  | _ :: _, [] => isFalse (by intro hc; exact List.noConfusion hc)
  | a :: as, b :: bs =>
    match exprDecEq a b with
    | isFalse h => isFalse (by intro hc; injection hc; contradiction)
    | isTrue h =>
      match exprListDecEq as bs with
      | isTrue h2 => isTrue (by rw [h, h2])
      | isFalse h2 => isFalse (by intro hc; injection hc; contradiction)
end

instance : DecidableEq Expr := exprDecEq
instance : DecidableEq (List Expr) := exprListDecEq

/-- The fault kinds the Python code can raise while evaluating or rewriting:
the explicit `ValueError('Illegal operator ...')`, the `ValueError` from
unpacking `p, q = args` at the wrong arity, the `IndexError` from `args[0]`
on an empty argument list, the `AssertionError` from failed asserts, and
the `AttributeError` from touching `self.clauses` before it is assigned. -/
inductive PErr where
  | illegal
  | unpack
  | index
  | assertFail
  | attribute
deriving DecidableEq, Repr

/-- A partial assignment: the Python `model` dict from `Expr` keys to booleans,
`none` meaning the key is absent. -/
def Model : Type := Expr → Option Bool

/-- The empty model `{}`. -/
def emptyModel : Model := fun _ => none

/-- Modelled from the spec: `utils.extend(model, var, val)` (the file
`utils.py` is not in the sources) returns a copy of the assignment with one
more binding; each recursive branch owns its own extended copy. -/
def extend (m : Model) (p : Expr) (v : Bool) : Model :=
  fun x => if x = p then some v else m x

/-- `is_symbol(s)`: the string starts with an alphabetic character
(`s[:1].isalpha()`, false for the empty string). -/
def is_symbol (s : String) : Bool :=
  match s.data with
  | [] => false
  | c :: _ => c.isAlpha

/-- `is_prop_symbol(s)`: an initial-uppercase symbol string. -/
def is_prop_symbol (s : String) : Bool :=
  is_symbol s && (match s.data with
    | [] => false
    | c :: _ => c.isUpper)

mutual
/-- Termination measure for `pl_true`: node count, where implication nodes
weigh 3 because the evaluator rewrites `p >> q` into the larger tree
`~p | q` before recursing. -/
def pweight : Expr → Nat
  | .const _ => 1
  | .node op args =>
      (if op = ">>" ∨ op = "==>" ∨ op = "<<" ∨ op = "<==" then 3 else 1) +
        pweightList args

def pweightList : List Expr → Nat
  | [] => 0
  | a :: rest => pweight a + pweightList rest
end

theorem pweight_pos (e : Expr) : 1 ≤ pweight e := by
  cases e with
  | const b => simp [pweight]
  | node op args => simp only [pweight]; split <;> omega

theorem pweightList_mem_le {a : Expr} {l : List Expr} (h : a ∈ l) :
    pweight a ≤ pweightList l := by
  induction l with
  | nil => cases h
  | cons x rest ih =>
    rcases List.mem_cons.mp h with h1 | h2
    · subst h1; simp [pweightList]
    · have := ih h2; simp only [pweightList]; omega

theorem pweight_node_ge (op : String) (args : List Expr) :
    1 + pweightList args ≤ pweight (.node op args) := by
  simp only [pweight]; split <;> omega

/-- Propagate the `None`/exception short-circuit of `pl_true`: an exception
or an unknown result passes through, a known boolean feeds the continuation.
-/
def propagate (r : Except PErr (Option Bool))
    (f : Bool → Except PErr (Option Bool)) : Except PErr (Option Bool) :=
  match r with
  | .error e => .error e
  | .ok none => .ok none
  | .ok (some b) => f b

/-- `propagate` lifted over the fuel-exhaustion marker (`none` = the fuel
counter ran out; it never does for the fuel chosen by `pl_true`). -/
def propagateO (r : Option (Except PErr (Option Bool)))
    (f : Bool → Option (Except PErr (Option Bool))) :
    Option (Except PErr (Option Bool)) :=
  match r with
  | none => none
  | some (.error e) => some (.error e)
  | some (.ok none) => some (.ok none)
  | some (.ok (some b)) => f b

/-- One iteration of the `op == '|'` loop of `pl_true`: a `True` argument
returns immediately, a `None` argument downgrades the accumulator. -/
def orStep (r : Option (Except PErr (Option Bool))) (acc : Option Bool)
    (k : Option Bool → Option (Except PErr (Option Bool))) :
    Option (Except PErr (Option Bool)) :=
  match r with
  | none => none
  | some (.error e) => some (.error e)
  | some (.ok (some true)) => some (.ok (some true))
  | some (.ok none) => k none
  | some (.ok (some false)) => k acc

/-- One iteration of the `op == '&'` loop of `pl_true`, symmetric. -/
def andStep (r : Option (Except PErr (Option Bool))) (acc : Option Bool)
    (k : Option Bool → Option (Except PErr (Option Bool))) :
    Option (Except PErr (Option Bool)) :=
  match r with
  | none => none
  | some (.error e) => some (.error e)
  | some (.ok (some false)) => some (.ok (some false))
  | some (.ok none) => k none
  | some (.ok (some true)) => k acc

mutual
/-- Fuel-indexed engine of `pl_true(exp, model)` from `logic.py` (the
recursion of the source is not structural — the implication cases recurse
on a freshly built disjunction — so recursion is driven by a fuel counter;
`pl_true` below instantiates the fuel large enough that it never runs out,
which the adequacy lemmas prove).  `none` marks fuel exhaustion;
`some (.ok (some b))` is Python `True`/`False`, `some (.ok none)` is
Python `None` (unknown), and `some (.error _)` an uncaught exception. -/
def pltF : Nat → Expr → Model → Option (Except PErr (Option Bool))
  | 0, _, _ => none
  | fuel + 1, exp, model =>
    match exp with
    | .const b => some (.ok (some b))
    | .node op args =>
      if is_prop_symbol op then some (.ok (model (.node op args)))
      else if op = "~" then pltNotF fuel args model
      else if op = "|" then pltOrF fuel args model (some false)
      else if op = "&" then pltAndF fuel args model (some true)
      else pltElseF fuel op args model

/-- The `op == '~'` branch: `p = pl_true(args[0], model)` (an empty
argument list raises `IndexError`), complemented unless unknown. -/
def pltNotF : Nat → List Expr → Model → Option (Except PErr (Option Bool))
  | 0, _, _ => none
  | _ + 1, [], _ => some (.error .index)
  | fuel + 1, a :: _, model =>
    propagateO (pltF fuel a model) (fun p => some (.ok (some (!p))))

/-- The `p, q = args` unpacking: exactly two arguments reach the binary
dispatch, any other arity raises the unpacking `ValueError`. -/
def pltElseF : Nat → String → List Expr → Model →
    Option (Except PErr (Option Bool))
  | 0, _, _, _ => none
  | fuel + 1, op, [p, q], model => pltBinF fuel op p q model
  | _ + 1, _, _, _ => some (.error .unpack)

/-- The binary dispatch of `pl_true`: the implication rewrites
(`pl_true(~p | q, model)` on the freshly built tree) and the
`<=>`/`^`/illegal-operator tail, which evaluates both operands first (so
an unknown operand yields `None` even under an undefined operator). -/
def pltBinF : Nat → String → Expr → Expr → Model →
    Option (Except PErr (Option Bool))
  | 0, _, _, _, _ => none
  | fuel + 1, op, p, q, model =>
    if op = ">>" ∨ op = "==>" then
      pltF fuel (.node "|" [.node "~" [p], q]) model
    else if op = "<<" ∨ op = "<==" then
      pltF fuel (.node "|" [p, .node "~" [q]]) model
    else
      propagateO (pltF fuel p model) (fun pt =>
        propagateO (pltF fuel q model) (fun qt =>
          if op = "<=>" then some (.ok (some (pt == qt)))
          else if op = "^" then some (.ok (some (pt != qt)))
          else some (.error .illegal)))

/-- Fuel-indexed `op == '|'` loop (`result` starts at `False`). -/
def pltOrF : Nat → List Expr → Model → Option Bool →
    Option (Except PErr (Option Bool))
  | 0, _, _, _ => none
  | _ + 1, [], _, acc => some (.ok acc)
  | fuel + 1, a :: rest, model, acc =>
    orStep (pltF fuel a model) acc (fun acc2 => pltOrF fuel rest model acc2)

/-- Fuel-indexed `op == '&'` loop (`result` starts at `True`). -/
def pltAndF : Nat → List Expr → Model → Option Bool →
    Option (Except PErr (Option Bool))
  | 0, _, _, _ => none
  | _ + 1, [], _, acc => some (.ok acc)
  | fuel + 1, a :: rest, model, acc =>
    andStep (pltF fuel a model) acc (fun acc2 => pltAndF fuel rest model acc2)
end

theorem propagateO_mono {r r2 : Option (Except PErr (Option Bool))}
    {f g : Bool → Option (Except PErr (Option Bool))}
    (hr : ∀ v, r = some v → r2 = some v)
    (hfg : ∀ b v, f b = some v → g b = some v) :
    ∀ v, propagateO r f = some v → propagateO r2 g = some v := by
  intro v h
  cases hrr : r with
  | none => rw [hrr] at h; simp [propagateO] at h
  | some x =>
    rw [hrr] at h
    rw [hr x hrr]
    rcases x with e | ob
    · simpa [propagateO] using h
    · rcases ob with _ | b
      · simpa [propagateO] using h
      · simp only [propagateO] at h ⊢
        exact hfg b v h

theorem orStep_mono {r r2 : Option (Except PErr (Option Bool))}
    {acc : Option Bool} {k k2 : Option Bool → Option (Except PErr (Option Bool))}
    (hr : ∀ v, r = some v → r2 = some v)
    (hk : ∀ a v, k a = some v → k2 a = some v) :
    ∀ v, orStep r acc k = some v → orStep r2 acc k2 = some v := by
  intro v h
  cases hrr : r with
  | none => rw [hrr] at h; simp [orStep] at h
  | some x =>
    rw [hrr] at h
    rw [hr x hrr]
    rcases x with e | ob
    · simpa [orStep] using h
    · rcases ob with _ | b
      · simp only [orStep] at h ⊢; exact hk _ _ h
      · cases b
        · simp only [orStep] at h ⊢; exact hk _ _ h
        · simpa [orStep] using h

theorem andStep_mono {r r2 : Option (Except PErr (Option Bool))}
    {acc : Option Bool} {k k2 : Option Bool → Option (Except PErr (Option Bool))}
    (hr : ∀ v, r = some v → r2 = some v)
    (hk : ∀ a v, k a = some v → k2 a = some v) :
    ∀ v, andStep r acc k = some v → andStep r2 acc k2 = some v := by
  intro v h
  cases hrr : r with
  | none => rw [hrr] at h; simp [andStep] at h
  | some x =>
    rw [hrr] at h
    rw [hr x hrr]
    rcases x with e | ob
    · simpa [andStep] using h
    · rcases ob with _ | b
      · simp only [andStep] at h ⊢; exact hk _ _ h
      · cases b
        · simpa [andStep] using h
        · simp only [andStep] at h ⊢; exact hk _ _ h

theorem plt_mono : ∀ fuel,
    (∀ e m r, pltF fuel e m = some r → pltF (fuel + 1) e m = some r) ∧
    (∀ l m r, pltNotF fuel l m = some r → pltNotF (fuel + 1) l m = some r) ∧
    (∀ op l m r, pltElseF fuel op l m = some r →
       pltElseF (fuel + 1) op l m = some r) ∧
    (∀ op p q m r, pltBinF fuel op p q m = some r →
       pltBinF (fuel + 1) op p q m = some r) ∧
    (∀ l m acc r, pltOrF fuel l m acc = some r →
       pltOrF (fuel + 1) l m acc = some r) ∧
    (∀ l m acc r, pltAndF fuel l m acc = some r →
       pltAndF (fuel + 1) l m acc = some r) := by
  intro fuel
  induction fuel with
  | zero =>
    refine ⟨?_, ?_, ?_, ?_, ?_, ?_⟩
    · intro e m r h; rw [pltF] at h; cases h
    · intro l m r h; rw [pltNotF] at h; cases h
    · intro op l m r h; rw [pltElseF] at h; cases h
    · intro op p q m r h; rw [pltBinF] at h; cases h
    · intro l m acc r h
      rw [pltOrF] at h; cases h
    · intro l m acc r h
      rw [pltAndF] at h; cases h
  | succ f ih =>
    obtain ⟨ihF, ihN, ihE, ihB, ihO, ihA⟩ := ih
    refine ⟨?_, ?_, ?_, ?_, ?_, ?_⟩
    · intro e m r h
      cases e with
      | const b => rw [pltF] at h ⊢; exact h
      | node op args =>
        rw [pltF] at h ⊢
        by_cases hps : is_prop_symbol op = true
        · rw [if_pos hps] at h ⊢; exact h
        · rw [if_neg hps] at h ⊢
          by_cases hnot : op = "~"
          · rw [if_pos hnot] at h ⊢; exact ihN _ _ _ h
          · rw [if_neg hnot] at h ⊢
            by_cases hor : op = "|"
            · rw [if_pos hor] at h ⊢; exact ihO _ _ _ _ h
            · rw [if_neg hor] at h ⊢
              by_cases hand : op = "&"
              · rw [if_pos hand] at h ⊢; exact ihA _ _ _ _ h
              · rw [if_neg hand] at h ⊢; exact ihE _ _ _ _ h
    · intro l m r h
      cases l with
      | nil => rw [pltNotF] at h ⊢; exact h
      | cons a rest =>
        rw [pltNotF] at h ⊢
        exact propagateO_mono (fun v hv => ihF _ _ _ hv) (fun b v hv => hv) r h
    · intro op l m r h
      rcases l with _ | ⟨p, _ | ⟨q, _ | ⟨x, t⟩⟩⟩
      · simp only [pltElseF] at h ⊢; exact h
      · simp only [pltElseF] at h ⊢; exact h
      · simp only [pltElseF] at h ⊢; exact ihB _ _ _ _ _ h
      · simp only [pltElseF] at h ⊢; exact h
    · intro op p q m r h
      rw [pltBinF] at h ⊢
      by_cases himp : op = ">>" ∨ op = "==>"
      · rw [if_pos himp] at h ⊢; exact ihF _ _ _ h
      · rw [if_neg himp] at h ⊢
        by_cases hrev : op = "<<" ∨ op = "<=="
        · rw [if_pos hrev] at h ⊢; exact ihF _ _ _ h
        · rw [if_neg hrev] at h ⊢
          exact propagateO_mono (fun v hv => ihF _ _ _ hv)
            (fun pt v hv =>
              propagateO_mono (fun v2 hv2 => ihF _ _ _ hv2)
                (fun qt v2 hv2 => hv2) v hv) r h
    · intro l m acc r h
      cases l with
      | nil => rw [pltOrF] at h ⊢; exact h
      | cons a rest =>
        rw [pltOrF] at h ⊢
        exact orStep_mono (fun v hv => ihF _ _ _ hv)
          (fun a2 v hv => ihO _ _ _ _ hv) r h
    · intro l m acc r h
      cases l with
      | nil => rw [pltAndF] at h ⊢; exact h
      | cons a rest =>
        rw [pltAndF] at h ⊢
        exact andStep_mono (fun v hv => ihF _ _ _ hv)
          (fun a2 v hv => ihA _ _ _ _ hv) r h

theorem pltF_mono {f f2 : Nat} {e m r} (hle : f ≤ f2)
    (h : pltF f e m = some r) : pltF f2 e m = some r := by
  induction f2, hle using Nat.le_induction with
  | base => exact h
  | succ n hn ihn => exact (plt_mono n).1 _ _ _ ihn

theorem pltOrF_mono {f f2 : Nat} {l m acc r} (hle : f ≤ f2)
    (h : pltOrF f l m acc = some r) : pltOrF f2 l m acc = some r := by
  induction f2, hle using Nat.le_induction with
  | base => exact h
  | succ n hn ihn => exact (plt_mono n).2.2.2.2.1 _ _ _ _ ihn

theorem pltAndF_mono {f f2 : Nat} {l m acc r} (hle : f ≤ f2)
    (h : pltAndF f l m acc = some r) : pltAndF f2 l m acc = some r := by
  induction f2, hle using Nat.le_induction with
  | base => exact h
  | succ n hn ihn => exact (plt_mono n).2.2.2.2.2 _ _ _ _ ihn

theorem plt_adequate : ∀ fuel,
    (∀ e m, 12 * pweight e ≤ fuel → ∃ r, pltF fuel e m = some r) ∧
    (∀ l m, 12 * pweightList l + 2 ≤ fuel → ∃ r, pltNotF fuel l m = some r) ∧
    (∀ op l m, 12 * pweight (.node op l) - 9 ≤ fuel ∧ 3 ≤ fuel →
       ∃ r, pltElseF fuel op l m = some r) ∧
    (∀ op p q m, 12 * pweight (.node op [p, q]) - 10 ≤ fuel ∧ 2 ≤ fuel →
       ∃ r, pltBinF fuel op p q m = some r) ∧
    (∀ l m acc, 12 * pweightList l + 2 ≤ fuel → ∃ r, pltOrF fuel l m acc = some r) ∧
    (∀ l m acc, 12 * pweightList l + 2 ≤ fuel → ∃ r, pltAndF fuel l m acc = some r) := by
  intro fuel
  induction fuel with
  | zero =>
    refine ⟨?_, ?_, ?_, ?_, ?_, ?_⟩
    · intro e m hb; have := pweight_pos e; omega
    · intro l m hb; omega
    · intro op l m hb; omega
    · intro op p q m hb; omega
    · intro l m acc hb; omega
    · intro l m acc hb; omega
  | succ f ih =>
    obtain ⟨ihF, ihN, ihE, ihB, ihO, ihA⟩ := ih
    refine ⟨?_, ?_, ?_, ?_, ?_, ?_⟩
    · intro e m hb
      cases e with
      | const b => exact ⟨_, by rw [pltF]⟩
      | node op args =>
        have hge := pweight_node_ge op args
        rw [pltF]
        by_cases hps : is_prop_symbol op = true
        · rw [if_pos hps]; exact ⟨_, rfl⟩
        · rw [if_neg hps]
          by_cases hnot : op = "~"
          · rw [if_pos hnot]
            exact ihN args m (by omega)
          · rw [if_neg hnot]
            by_cases hor : op = "|"
            · rw [if_pos hor]
              exact ihO args m (some false) (by omega)
            · rw [if_neg hor]
              by_cases hand : op = "&"
              · rw [if_pos hand]
                exact ihA args m (some true) (by omega)
              · rw [if_neg hand]
                refine ihE op args m ⟨by omega, by
                  have := pweight_pos (Expr.node op args); omega⟩
    · intro l m hb
      cases l with
      | nil => exact ⟨_, by rw [pltNotF]⟩
      | cons a rest =>
        rw [pltNotF]
        have ha : 12 * pweight a ≤ f := by
          simp only [pweightList] at hb
          have := pweight_pos a
          omega
        obtain ⟨ra, hra⟩ := ihF a m ha
        rw [hra]
        rcases ra with e2 | ob
        · exact ⟨_, rfl⟩
        · rcases ob with _ | b
          · exact ⟨_, rfl⟩
          · exact ⟨_, rfl⟩
    · intro op l m hb
      rcases l with _ | ⟨p, _ | ⟨q, _ | ⟨x, t⟩⟩⟩
      · simp only [pltElseF]; exact ⟨_, rfl⟩
      · simp only [pltElseF]; exact ⟨_, rfl⟩
      · simp only [pltElseF]
        refine ihB op p q m ⟨by omega, by omega⟩
      · simp only [pltElseF]; exact ⟨_, rfl⟩
    · intro op p q m hb
      have hgepq := pweight_node_ge op [p, q]
      have hp := pweight_pos p
      have hq := pweight_pos q
      simp only [pweightList] at hgepq
      rw [pltBinF]
      by_cases himp : op = ">>" ∨ op = "==>"
      · rw [if_pos himp]
        refine ihF _ m ?_
        have hw : pweight (Expr.node op [p, q]) = 3 + (pweight p + pweight q) := by
          rcases himp with h | h <;> subst h <;>
            simp [pweight, pweightList]
        have hw2 : pweight (Expr.node "|" [Expr.node "~" [p], q]) =
            2 + (pweight p + pweight q) := by
          simp [pweight, pweightList]
          omega
        rw [hw2]
        rw [hw] at hb
        omega
      · rw [if_neg himp]
        by_cases hrev : op = "<<" ∨ op = "<=="
        · rw [if_pos hrev]
          refine ihF _ m ?_
          have hw : pweight (Expr.node op [p, q]) = 3 + (pweight p + pweight q) := by
            rcases hrev with h | h <;> subst h <;>
              simp [pweight, pweightList]
          have hw2 : pweight (Expr.node "|" [p, Expr.node "~" [q]]) =
              2 + (pweight p + pweight q) := by
            simp [pweight, pweightList]
            omega
          rw [hw2]
          rw [hw] at hb
          omega
        · rw [if_neg hrev]
          obtain ⟨rp, hrp⟩ := ihF p m (by omega)
          rw [hrp]
          rcases rp with e2 | ob
          · exact ⟨_, rfl⟩
          · rcases ob with _ | pt
            · exact ⟨_, rfl⟩
            · simp only [propagateO]
              obtain ⟨rq, hrq⟩ := ihF q m (by omega)
              rw [hrq]
              rcases rq with e3 | ob2
              · exact ⟨_, rfl⟩
              · rcases ob2 with _ | qt
                · exact ⟨_, rfl⟩
                · simp only [propagateO]
                  by_cases hiff : op = "<=>"
                  · rw [if_pos hiff]; exact ⟨_, rfl⟩
                  · rw [if_neg hiff]
                    by_cases hx : op = "^"
                    · rw [if_pos hx]; exact ⟨_, rfl⟩
                    · rw [if_neg hx]; exact ⟨_, rfl⟩
    · intro l m acc hb
      cases l with
      | nil => exact ⟨_, by rw [pltOrF]⟩
      | cons a rest =>
        rw [pltOrF]
        simp only [pweightList] at hb
        have hp := pweight_pos a
        obtain ⟨ra, hra⟩ := ihF a m (by omega)
        rw [hra]
        rcases ra with e2 | ob
        · exact ⟨_, rfl⟩
        · rcases ob with _ | b
          · simp only [orStep]
            exact ihO rest m none (by omega)
          · cases b
            · simp only [orStep]
              exact ihO rest m acc (by omega)
            · exact ⟨_, rfl⟩
    · intro l m acc hb
      cases l with
      | nil => exact ⟨_, by rw [pltAndF]⟩
      | cons a rest =>
        rw [pltAndF]
        simp only [pweightList] at hb
        have hp := pweight_pos a
        obtain ⟨ra, hra⟩ := ihF a m (by omega)
        rw [hra]
        rcases ra with e2 | ob
        · exact ⟨_, rfl⟩
        · rcases ob with _ | b
          · simp only [andStep]
            exact ihA rest m none (by omega)
          · cases b
            · exact ⟨_, rfl⟩
            · simp only [andStep]
              exact ihA rest m acc (by omega)

/-- `pl_true(exp, model)` from `logic.py`: the fuel-indexed engine run
with enough fuel that it cannot run out. -/
def pl_true (exp : Expr) (model : Model) : Except PErr (Option Bool) :=
  (pltF (12 * pweight exp) exp model).get (by
    obtain ⟨r, hr⟩ := (plt_adequate (12 * pweight exp)).1 exp model le_rfl
    rw [hr]; rfl)

/-- The disjunction loop of `pl_true`, fuel-free. -/
def pl_true_or (l : List Expr) (model : Model) (acc : Option Bool) :
    Except PErr (Option Bool) :=
  (pltOrF (12 * pweightList l + 2) l model acc).get (by
    obtain ⟨r, hr⟩ :=
      (plt_adequate (12 * pweightList l + 2)).2.2.2.2.1 l model acc le_rfl
    rw [hr]; rfl)

/-- The conjunction loop of `pl_true`, fuel-free. -/
def pl_true_and (l : List Expr) (model : Model) (acc : Option Bool) :
    Except PErr (Option Bool) :=
  (pltAndF (12 * pweightList l + 2) l model acc).get (by
    obtain ⟨r, hr⟩ :=
      (plt_adequate (12 * pweightList l + 2)).2.2.2.2.2 l model acc le_rfl
    rw [hr]; rfl)

theorem pltF_char {f : Nat} (e : Expr) (m : Model) (hf : 12 * pweight e ≤ f) :
    pltF f e m = some (pl_true e m) := by
  obtain ⟨r, hr⟩ := (plt_adequate (12 * pweight e)).1 e m le_rfl
  have h2 : pl_true e m = r := by simp [pl_true, hr]
  rw [h2]
  exact pltF_mono hf hr

theorem pl_true_of_pltF {f : Nat} {e m r} (h : pltF f e m = some r) :
    pl_true e m = r := by
  have h1 := pltF_mono (le_max_left f (12 * pweight e)) h
  have h2 := pltF_mono (le_max_right f (12 * pweight e)) (pltF_char e m le_rfl)
  rw [h1] at h2
  injection h2 with h3
  exact h3.symm

theorem pltOrF_char {f : Nat} (l : List Expr) (m : Model) (acc : Option Bool)
    (hf : 12 * pweightList l + 2 ≤ f) :
    pltOrF f l m acc = some (pl_true_or l m acc) := by
  obtain ⟨r, hr⟩ :=
    (plt_adequate (12 * pweightList l + 2)).2.2.2.2.1 l m acc le_rfl
  have h2 : pl_true_or l m acc = r := by simp [pl_true_or, hr]
  rw [h2]
  exact pltOrF_mono hf hr

theorem pl_true_or_of_pltOrF {f : Nat} {l m acc r}
    (h : pltOrF f l m acc = some r) : pl_true_or l m acc = r := by
  have h1 := pltOrF_mono (le_max_left f (12 * pweightList l + 2)) h
  have h2 := pltOrF_mono (le_max_right f (12 * pweightList l + 2))
    (pltOrF_char l m acc le_rfl)
  rw [h1] at h2
  injection h2 with h3
  exact h3.symm

theorem pltAndF_char {f : Nat} (l : List Expr) (m : Model) (acc : Option Bool)
    (hf : 12 * pweightList l + 2 ≤ f) :
    pltAndF f l m acc = some (pl_true_and l m acc) := by
  obtain ⟨r, hr⟩ :=
    (plt_adequate (12 * pweightList l + 2)).2.2.2.2.2 l m acc le_rfl
  have h2 : pl_true_and l m acc = r := by simp [pl_true_and, hr]
  rw [h2]
  exact pltAndF_mono hf hr

theorem pl_true_and_of_pltAndF {f : Nat} {l m acc r}
    (h : pltAndF f l m acc = some r) : pl_true_and l m acc = r := by
  have h1 := pltAndF_mono (le_max_left f (12 * pweightList l + 2)) h
  have h2 := pltAndF_mono (le_max_right f (12 * pweightList l + 2))
    (pltAndF_char l m acc le_rfl)
  rw [h1] at h2
  injection h2 with h3
  exact h3.symm

theorem propagateO_some {x : Except PErr (Option Bool)}
    {g : Bool → Except PErr (Option Bool)} :
    propagateO (some x) (fun b => some (g b)) = some (propagate x g) := by
  rcases x with e | ob
  · rfl
  · rcases ob with _ | b <;> rfl

/-- The Python-level case equations of `pl_true`, recovered from the fuel
engine.  A boolean constant evaluates to itself. -/
theorem pl_true_const (b : Bool) (m : Model) :
    pl_true (.const b) m = .ok (some b) :=
  pl_true_of_pltF (f := 1) (by rw [pltF])

/-- A proposition-symbol operator looks the whole expression up in the model. -/
theorem pl_true_sym {op : String} (hps : is_prop_symbol op = true)
    (args : List Expr) (m : Model) :
    pl_true (.node op args) m = .ok (m (.node op args)) :=
  pl_true_of_pltF (f := 1) (by rw [pltF, if_pos hps])

/-- `~` with no arguments raises `IndexError` from `args[0]`. -/
theorem pl_true_not_nil (m : Model) :
    pl_true (.node "~" []) m = .error .index :=
  pl_true_of_pltF (f := 2)
    (by rw [pltF, if_neg (by decide), if_pos rfl, pltNotF])

/-- `~` evaluates its first argument (ignoring any extra ones) and
complements it unless unknown. -/
theorem pl_true_not_cons (a : Expr) (rest : List Expr) (m : Model) :
    pl_true (.node "~" (a :: rest)) m =
      propagate (pl_true a m) (fun p => .ok (some (!p))) := by
  apply pl_true_of_pltF (f := 12 * pweight a + 2)
  rw [pltF, if_neg (by decide), if_pos rfl, pltNotF]
  rw [pltF_char a m (by omega)]
  exact propagateO_some

/-- A disjunction runs the accumulator loop started at `False`. -/
theorem pl_true_or_node (args : List Expr) (m : Model) :
    pl_true (.node "|" args) m = pl_true_or args m (some false) := by
  apply pl_true_of_pltF (f := 12 * pweightList args + 3)
  rw [pltF, if_neg (by decide), if_neg (by decide), if_pos rfl]
  exact pltOrF_char args m (some false) (by omega)

/-- A conjunction runs the accumulator loop started at `True`. -/
theorem pl_true_and_node (args : List Expr) (m : Model) :
    pl_true (.node "&" args) m = pl_true_and args m (some true) := by
  apply pl_true_of_pltF (f := 12 * pweightList args + 3)
  rw [pltF, if_neg (by decide), if_neg (by decide), if_neg (by decide),
    if_pos rfl]
  exact pltAndF_char args m (some true) (by omega)

theorem pl_true_or_nil (m : Model) (acc : Option Bool) :
    pl_true_or [] m acc = .ok acc :=
  pl_true_or_of_pltOrF (f := 1) (by rw [pltOrF])

/-- The Except-level rendering of one iteration of the disjunction loop. -/
def orStepE (r : Except PErr (Option Bool)) (acc : Option Bool)
    (k : Option Bool → Except PErr (Option Bool)) : Except PErr (Option Bool) :=
  match r with
  | .error e => .error e
  | .ok (some true) => .ok (some true)
  | .ok none => k none
  | .ok (some false) => k acc

/-- The Except-level rendering of one iteration of the conjunction loop. -/
def andStepE (r : Except PErr (Option Bool)) (acc : Option Bool)
    (k : Option Bool → Except PErr (Option Bool)) : Except PErr (Option Bool) :=
  match r with
  | .error e => .error e
  | .ok (some false) => .ok (some false)
  | .ok none => k none
  | .ok (some true) => k acc

theorem orStep_some {x : Except PErr (Option Bool)} {acc : Option Bool}
    {g : Option Bool → Except PErr (Option Bool)} :
    orStep (some x) acc (fun a2 => some (g a2)) = some (orStepE x acc g) := by
  rcases x with e | ob
  · rfl
  · rcases ob with _ | b
    · rfl
    · cases b <;> rfl

theorem andStep_some {x : Except PErr (Option Bool)} {acc : Option Bool}
    {g : Option Bool → Except PErr (Option Bool)} :
    andStep (some x) acc (fun a2 => some (g a2)) = some (andStepE x acc g) := by
  rcases x with e | ob
  · rfl
  · rcases ob with _ | b
    · rfl
    · cases b <;> rfl

theorem pl_true_or_cons (a : Expr) (rest : List Expr) (m : Model)
    (acc : Option Bool) :
    pl_true_or (a :: rest) m acc =
      orStepE (pl_true a m) acc (fun a2 => pl_true_or rest m a2) := by
  apply pl_true_or_of_pltOrF (f := 12 * pweightList (a :: rest) + 3)
  rw [pltOrF]
  have h1 : pltF (12 * pweightList (a :: rest) + 2) a m = some (pl_true a m) := by
    apply pltF_char
    simp only [pweightList]
    omega
  rw [h1]
  have h2 : (fun a2 => pltOrF (12 * pweightList (a :: rest) + 2) rest m a2) =
      (fun a2 => some (pl_true_or rest m a2)) := by
    funext a2
    apply pltOrF_char
    simp only [pweightList]
    have := pweight_pos a
    omega
  rw [h2]
  exact orStep_some

theorem pl_true_and_nil (m : Model) (acc : Option Bool) :
    pl_true_and [] m acc = .ok acc :=
  pl_true_and_of_pltAndF (f := 1) (by rw [pltAndF])

theorem pl_true_and_cons (a : Expr) (rest : List Expr) (m : Model)
    (acc : Option Bool) :
    pl_true_and (a :: rest) m acc =
      andStepE (pl_true a m) acc (fun a2 => pl_true_and rest m a2) := by
  apply pl_true_and_of_pltAndF (f := 12 * pweightList (a :: rest) + 3)
  rw [pltAndF]
  have h1 : pltF (12 * pweightList (a :: rest) + 2) a m = some (pl_true a m) := by
    apply pltF_char
    simp only [pweightList]
    omega
  rw [h1]
  have h2 : (fun a2 => pltAndF (12 * pweightList (a :: rest) + 2) rest m a2) =
      (fun a2 => some (pl_true_and rest m a2)) := by
    funext a2
    apply pltAndF_char
    simp only [pweightList]
    have := pweight_pos a
    omega
  rw [h2]
  exact andStep_some

/-- A forward implication evaluates `pl_true(~p | q, model)` on the freshly
built tree. -/
theorem pl_true_imp {op : String} (himp : op = ">>" ∨ op = "==>")
    (p q : Expr) (m : Model) :
    pl_true (.node op [p, q]) m = pl_true (.node "|" [.node "~" [p], q]) m := by
  apply pl_true_of_pltF
    (f := 12 * pweight (Expr.node "|" [Expr.node "~" [p], q]) + 3)
  have hps : ¬is_prop_symbol op = true := by
    rcases himp with h | h <;> subst h <;> decide
  have hnot : ¬op = "~" := by rcases himp with h | h <;> subst h <;> decide
  have hor : ¬op = "|" := by rcases himp with h | h <;> subst h <;> decide
  have hand : ¬op = "&" := by rcases himp with h | h <;> subst h <;> decide
  rw [pltF, if_neg hps, if_neg hnot, if_neg hor, if_neg hand]
  simp only [pltElseF]
  rw [pltBinF, if_pos himp]
  exact pltF_char _ m (by omega)

/-- A backward implication evaluates `pl_true(p | ~q, model)`. -/
theorem pl_true_revimp {op : String} (hrev : op = "<<" ∨ op = "<==")
    (p q : Expr) (m : Model) :
    pl_true (.node op [p, q]) m = pl_true (.node "|" [p, .node "~" [q]]) m := by
  apply pl_true_of_pltF
    (f := 12 * pweight (Expr.node "|" [p, Expr.node "~" [q]]) + 3)
  have hps : ¬is_prop_symbol op = true := by
    rcases hrev with h | h <;> subst h <;> decide
  have hnot : ¬op = "~" := by rcases hrev with h | h <;> subst h <;> decide
  have hor : ¬op = "|" := by rcases hrev with h | h <;> subst h <;> decide
  have hand : ¬op = "&" := by rcases hrev with h | h <;> subst h <;> decide
  have himp : ¬(op = ">>" ∨ op = "==>") := by
    rcases hrev with h | h <;> subst h <;> decide
  rw [pltF, if_neg hps, if_neg hnot, if_neg hor, if_neg hand]
  simp only [pltElseF]
  rw [pltBinF, if_neg himp, if_pos hrev]
  exact pltF_char _ m (by omega)

/-- The final binary dispatch: both operands are evaluated first (so an
unknown operand gives `None` even for an undefined operator), then `<=>`
compares, `^` distinguishes, and anything else raises the
`Illegal operator` `ValueError`. -/
theorem pl_true_bin_other {op : String} (hps : ¬is_prop_symbol op = true)
    (hnot : ¬op = "~") (hor : ¬op = "|") (hand : ¬op = "&")
    (himp : ¬(op = ">>" ∨ op = "==>")) (hrev : ¬(op = "<<" ∨ op = "<=="))
    (p q : Expr) (m : Model) :
    pl_true (.node op [p, q]) m =
      propagate (pl_true p m) (fun pt =>
        propagate (pl_true q m) (fun qt =>
          if op = "<=>" then .ok (some (pt == qt))
          else if op = "^" then .ok (some (pt != qt))
          else .error .illegal)) := by
  apply pl_true_of_pltF (f := 12 * pweight p + 12 * pweight q + 3)
  rw [pltF, if_neg hps, if_neg hnot, if_neg hor, if_neg hand]
  simp only [pltElseF]
  rw [pltBinF, if_neg himp, if_neg hrev]
  rw [pltF_char p m (by omega)]
  have h2 : (fun pt => propagateO
      (pltF (12 * pweight p + 12 * pweight q) q m)
      (fun qt =>
        if op = "<=>" then some (Except.ok (some (pt == qt)))
        else if op = "^" then some (Except.ok (some (pt != qt)))
        else some (Except.error PErr.illegal))) =
      (fun pt => some (propagate (pl_true q m) (fun qt =>
        if op = "<=>" then .ok (some (pt == qt))
        else if op = "^" then .ok (some (pt != qt))
        else .error .illegal))) := by
    funext pt
    rw [pltF_char q m (by omega)]
    have h3 : (fun qt =>
        if op = "<=>" then some (Except.ok (some (pt == qt)))
        else if op = "^" then some (Except.ok (some (pt != qt)))
        else some (Except.error PErr.illegal)) =
        (fun qt => some (
          if op = "<=>" then Except.ok (some (pt == qt))
          else if op = "^" then Except.ok (some (pt != qt))
          else Except.error PErr.illegal)) := by
      funext qt
      by_cases hiff : op = "<=>"
      · rw [if_pos hiff, if_pos hiff]
      · rw [if_neg hiff, if_neg hiff]
        by_cases hx : op = "^"
        · rw [if_pos hx, if_pos hx]
        · rw [if_neg hx, if_neg hx]
    rw [h3]
    exact propagateO_some
  rw [h2]
  exact propagateO_some

/-- Any other arity reaching the unpacking `p, q = args` raises the
unpacking `ValueError`. -/
theorem pl_true_unpack {op : String} (hps : ¬is_prop_symbol op = true)
    (hnot : ¬op = "~") (hor : ¬op = "|") (hand : ¬op = "&")
    {args : List Expr} (hlen : args.length ≠ 2) (m : Model) :
    pl_true (.node op args) m = .error .unpack := by
  apply pl_true_of_pltF (f := 3)
  rw [pltF, if_neg hps, if_neg hnot, if_neg hor, if_neg hand]
  rcases args with _ | ⟨p, _ | ⟨q, _ | ⟨x, t⟩⟩⟩
  · simp only [pltElseF]
  · simp only [pltElseF]
  · simp at hlen
  · simp only [pltElseF]

/-- Strong-induction principle for `Expr` through the nested argument lists. -/
theorem Expr.my_induction {P : Expr → Prop} (hconst : ∀ b, P (.const b))
    (hnode : ∀ op args, (∀ a ∈ args, P a) → P (.node op args)) : ∀ e, P e := by
  have key : ∀ n e, pweight e ≤ n → P e := by
    intro n
    induction n with
    | zero => intro e h; have := pweight_pos e; omega
    | succ n ih =>
      intro e h
      cases e with
      | const b => exact hconst b
      | node op args =>
        apply hnode
        intro a ha
        apply ih
        have h1 := pweightList_mem_le ha
        have h2 := pweight_node_ge op args
        omega
  exact fun e => key (pweight e) e le_rfl

mutual
/-- One element of the `collect` walk inside `dissociate`: if the argument's
operator matches, recurse into its arguments, else keep the argument. -/
def dissoc1 (op : String) (a : Expr) : List Expr :=
  match a with
  | .const b => [.const b]
  | .node op2 args2 => if op2 = op then dissociate op args2 else [.node op2 args2]
termination_by 2 * pweight a
decreasing_by
  simp only [pweight, pweightList]; split <;> omega

/-- `dissociate(op, args)` from `logic.py`: flatten nested instances of the
same associative operator to one level. The source's inner `collect` loop is
rendered per element by `dissoc1`. -/
def dissociate (op : String) (args : List Expr) : List Expr :=
  match args with
  | [] => []
  | a :: rest => dissoc1 op a ++ dissociate op rest
termination_by 2 * pweightList args + 1
decreasing_by
  · simp only [pweightList]; omega
  · simp only [pweightList]; have := pweight_pos a; omega
end

/-- `_op_identity` of the source, restricted to the boolean operators: `&`
maps to `True` and `|` to `False`.  (The source dict also maps the
arithmetic operators `+` and `*` to the numbers 0 and 1; those lie outside
the boolean expression space and are never requested by this pipeline.) -/
def op_identity : String → Expr
  | "&" => .const true
  | _ => .const false

/-- `associate(op, args)`: flatten via `dissociate`, then return the identity
element for zero arguments, the bare argument for one, else the n-ary node. -/
def associate (op : String) (args : List Expr) : Expr :=
  match dissociate op args with
  | [] => op_identity op
  | [a] => a
  | l => .node op l

/-- `conjuncts(s)`: the top-level conjuncts of `s`. -/
def conjuncts (s : Expr) : List Expr := dissociate "&" [s]

mutual
/-- `eliminate_implications(s)` from `logic.py`: rewrite `>>`/`==>`, `<<`/`<==`,
`<=>` and `^` in terms of `&`, `|`, `~`.  Atoms (no arguments, or a symbol
operator) pass through unchanged; `p` is the first and `q` the last of the
recursively rewritten arguments; the two `assert` statements become
`.error .assertFail`. -/
def eliminate_implications (s : Expr) : Except PErr Expr :=
  match s with
  | .const b => .ok (.const b)
  | .node op args =>
    if args.isEmpty ∨ is_symbol op then .ok (.node op args)
    else
      match elim_list args with
      | .error e => .error e
      | .ok args2 =>
        match args2 with
        | [] => .error .index
        | p0 :: rest2 =>
          let p := p0
          let q := (p0 :: rest2).getLast (by simp)
          if op = ">>" ∨ op = "==>" then .ok (.node "|" [q, .node "~" [p]])
          else if op = "<<" ∨ op = "<==" then .ok (.node "|" [p, .node "~" [q]])
          else if op = "<=>" then
            .ok (.node "&" [.node "|" [p, .node "~" [q]],
                            .node "|" [q, .node "~" [p]]])
          else if op = "^" then
            if (p0 :: rest2).length = 2 then
              .ok (.node "|" [.node "&" [p, .node "~" [q]],
                              .node "&" [.node "~" [p], q]])
            else .error .assertFail
          else if op = "&" ∨ op = "|" ∨ op = "~" then .ok (.node op (p0 :: rest2))
          else .error .assertFail
termination_by 2 * pweight s
decreasing_by
  simp only [pweight, pweightList]; split <;> omega

/-- `list(map(eliminate_implications, s.args))`, with exception propagation. -/
def elim_list (l : List Expr) : Except PErr (List Expr) :=
  match l with
  | [] => .ok []
  | a :: rest =>
    match eliminate_implications a with
    | .error e => .error e
    | .ok a2 =>
      match elim_list rest with
      | .error e => .error e
      | .ok rest2 => .ok (a2 :: rest2)
termination_by 2 * pweightList l + 1
decreasing_by
  · simp only [pweightList]; omega
  · simp only [pweightList]; have := pweight_pos a; omega
end

mutual
/-- Termination measure for `move_not_inwards`: negation nodes double the
weight of their contents, because pushing `~` through `&`/`|` re-wraps every
argument in a fresh negation before recursing. -/
def nnf_measure : Expr → Nat
  | .const _ => 1
  | .node op args =>
      if op = "~" then 2 * (1 + nnf_measure_list args) else 1 + nnf_measure_list args

def nnf_measure_list : List Expr → Nat
  | [] => 0
  | a :: rest => nnf_measure a + nnf_measure_list rest
end

theorem nnf_measure_pos (e : Expr) : 1 ≤ nnf_measure e := by
  cases e with
  | const b => simp [nnf_measure]
  | node op args => simp only [nnf_measure]; split <;> omega

theorem nnf_measure_list_mem_le {a : Expr} {l : List Expr} (h : a ∈ l) :
    nnf_measure a ≤ nnf_measure_list l := by
  induction l with
  | nil => cases h
  | cons x rest ih =>
    rw [nnf_measure_list]
    rcases List.mem_cons.mp h with h1 | h2
    · subst h1; omega
    · have := ih h2; omega

mutual
/-- `move_not_inwards(s)` from `logic.py`: push negation inward with
De Morgan and double-negation elimination.  On `~` the source looks only at
the first argument `a = s.args[0]` (an empty argument list is an
`IndexError`); `~~a` recurses on `a.args[0]`; `~(&...)`/`~(|...)` map
`NOT` over `a.args` and re-associate; a negated atom returns `s` whole. -/
def move_not_inwards (s : Expr) : Except PErr Expr :=
  match s with
  | .const b => .ok (.const b)
  | .node op args =>
    if op = "~" then mni_neg args
    else if is_symbol op ∨ args.isEmpty then .ok (.node op args)
    else
      match mni_map args with
      | .error e => .error e
      | .ok l => .ok (.node op l)
termination_by 2 * nnf_measure s
decreasing_by
  · subst_vars; simp only [nnf_measure, reduceIte]; omega
  · simp only [nnf_measure]
    split
    · omega
    · omega

/-- The `s.op == '~'` branch of `move_not_inwards`: the source reads
`a = s.args[0]` (an `IndexError` on an empty argument list). -/
def mni_neg (args : List Expr) : Except PErr Expr :=
  match args with
  | [] => .error .index
  | a :: rest => mni_neg1 a rest
termination_by 3 + 4 * nnf_measure_list args
decreasing_by
  simp only [nnf_measure_list]; omega

/-- Dispatch of `move_not_inwards` on the shape of the negated argument
`a`: double negation recurses, `&`/`|` children map `NOT` over the
arguments via De Morgan, anything else returns `s` whole. -/
def mni_neg1 (a : Expr) (rest : List Expr) : Except PErr Expr :=
  match a with
  | .const b => .ok (.node "~" (.const b :: rest))
  | .node op2 aargs =>
    if op2 = "~" then mni_neg2 aargs
    else if op2 = "&" then
      match mni_map_not aargs with
      | .error e => .error e
      | .ok l => .ok (associate "|" l)
    else if op2 = "|" then
      match mni_map_not aargs with
      | .error e => .error e
      | .ok l => .ok (associate "&" l)
    else .ok (.node "~" (.node op2 aargs :: rest))
termination_by 2 + 4 * nnf_measure a + 4 * nnf_measure_list rest
decreasing_by
  · subst_vars; simp only [nnf_measure, reduceIte]; omega
  · subst_vars; simp only [nnf_measure]
    rw [if_neg (by decide : ¬("&":String) = "~")]; omega
  · subst_vars; simp only [nnf_measure]
    rw [if_neg (by decide : ¬("|":String) = "~")]; omega

/-- The `~~a` branch: the source recurses on `a.args[0]` (an `IndexError`
on an empty argument list). -/
def mni_neg2 (aargs : List Expr) : Except PErr Expr :=
  match aargs with
  | [] => .error .index
  | b :: _ => move_not_inwards b
termination_by 1 + 4 * nnf_measure_list aargs
decreasing_by
  simp only [nnf_measure_list]; omega

/-- `list(map(move_not_inwards, s.args))`, with exception propagation. -/
def mni_map (l : List Expr) : Except PErr (List Expr) :=
  match l with
  | [] => .ok []
  | a :: rest =>
    match move_not_inwards a with
    | .error e => .error e
    | .ok a2 =>
      match mni_map rest with
      | .error e => .error e
      | .ok rest2 => .ok (a2 :: rest2)
termination_by 2 * nnf_measure_list l + 1
decreasing_by
  · simp only [nnf_measure_list]; omega
  · simp only [nnf_measure_list]; have := nnf_measure_pos a; omega

/-- `list(map(NOT, a.args))` where `NOT(b) = move_not_inwards(~b)`. -/
def mni_map_not (l : List Expr) : Except PErr (List Expr) :=
  match l with
  | [] => .ok []
  | a :: rest =>
    match move_not_inwards (.node "~" [a]) with
    | .error e => .error e
    | .ok a2 =>
      match mni_map_not rest with
      | .error e => .error e
      | .ok rest2 => .ok (a2 :: rest2)
termination_by 5 + 4 * nnf_measure_list l
decreasing_by
  · simp [nnf_measure, nnf_measure_list]; omega
  · simp only [nnf_measure_list]; have := nnf_measure_pos a; omega
end

mutual
/-- Termination measure for `distribute_and_over_or`: disjunction nodes
weigh 1 and every other node weighs 2, so that flattening a disjunction
and pulling one conjunct out against the flattened remainder both shrink. -/
def dmu : Expr → Nat
  | .const _ => 0
  | .node op args => (if op = "|" then 1 else 2) + dmu_list args

def dmu_list : List Expr → Nat
  | [] => 0
  | a :: rest => dmu a + dmu_list rest
end

theorem dmu_list_mem_le {a : Expr} {l : List Expr} (h : a ∈ l) :
    dmu a ≤ dmu_list l := by
  induction l with
  | nil => cases h
  | cons x rest ih =>
    rcases List.mem_cons.mp h with h1 | h2
    · subst h1; simp only [dmu_list]; omega
    · have := ih h2; simp only [dmu_list]; omega

theorem dmu_list_append (l1 l2 : List Expr) :
    dmu_list (l1 ++ l2) = dmu_list l1 + dmu_list l2 := by
  induction l1 with
  | nil => simp [dmu_list]
  | cons a rest ih => simp only [List.cons_append, dmu_list, List.append_eq] at *; omega

theorem dmu_dissociate_le_of_mem (op : String) (l : List Expr)
    (h : ∀ x ∈ l, dmu_list (dissoc1 op x) ≤ dmu x) :
    dmu_list (dissociate op l) ≤ dmu_list l := by
  induction l with
  | nil => simp [dissociate, dmu_list]
  | cons a rest ih =>
    rw [dissociate, dmu_list_append]
    have h1 := h a (List.mem_cons_self a rest)
    have h2 := ih (fun x hx => h x (List.mem_cons_of_mem a hx))
    simp only [dmu_list]
    omega

theorem dmu_dissoc1_le (a : Expr) : ∀ op, dmu_list (dissoc1 op a) ≤ dmu a := by
  induction a using Expr.my_induction with
  | hconst b => intro op; simp [dissoc1, dmu_list, dmu]
  | hnode op2 args ih =>
    intro op
    rw [dissoc1]
    split
    · have := dmu_dissociate_le_of_mem op args (fun x hx => ih x hx op)
      simp only [dmu]
      split <;> omega
    · simp only [dmu_list, dmu]
      split <;> omega

theorem dmu_dissociate_le (op : String) (l : List Expr) :
    dmu_list (dissociate op l) ≤ dmu_list l :=
  dmu_dissociate_le_of_mem op l (fun x _ => dmu_dissoc1_le x op)

theorem dissociate_ne_opnode_of_mem (op : String) (l : List Expr)
    (h : ∀ a ∈ l, ∀ x ∈ dissoc1 op a, ∀ l2, x ≠ .node op l2) :
    ∀ x ∈ dissociate op l, ∀ l2, x ≠ .node op l2 := by
  induction l with
  | nil => intro x hx; rw [dissociate] at hx; cases hx
  | cons a rest ih =>
    intro x hx l2
    rw [dissociate] at hx
    rcases List.mem_append.mp hx with hmem | hmem
    · exact h a (List.mem_cons_self a rest) x hmem l2
    · exact ih (fun y hy => h y (List.mem_cons_of_mem a hy)) x hmem l2

theorem dissoc1_ne_opnode_of_mem (a : Expr) :
    ∀ op x, x ∈ dissoc1 op a → ∀ l2, x ≠ .node op l2 := by
  induction a using Expr.my_induction with
  | hconst b =>
    intro op x hx l2
    simp [dissoc1] at hx
    subst hx; intro hc; exact Expr.noConfusion hc
  | hnode op2 args ih =>
    intro op x hx l2
    rw [dissoc1] at hx
    split at hx
    · exact dissociate_ne_opnode_of_mem op args
        (fun y hy => ih y hy op) x hx l2
    · rename_i hop2
      simp at hx
      subst hx
      intro hc
      injection hc with he _
      exact hop2 he

theorem dissociate_ne_opnode (op : String) (l : List Expr) :
    ∀ x ∈ dissociate op l, ∀ l2, x ≠ .node op l2 :=
  dissociate_ne_opnode_of_mem op l (fun a _ => dissoc1_ne_opnode_of_mem a op)

theorem dissoc1_eq_self {op : String} {x : Expr}
    (h : ∀ l2, x ≠ .node op l2) : dissoc1 op x = [x] := by
  cases x with
  | const b => rw [dissoc1]
  | node op2 args =>
    rw [dissoc1]
    split
    · rename_i he; exact absurd (by rw [he]) (h args)
    · rfl

theorem dissociate_eq_self {op : String} {l : List Expr}
    (h : ∀ x ∈ l, ∀ l2, x ≠ .node op l2) : dissociate op l = l := by
  induction l with
  | nil => rw [dissociate]
  | cons a rest ih =>
    rw [dissociate, dissoc1_eq_self (h a (List.mem_cons_self a rest))]
    rw [ih (fun x hx => h x (List.mem_cons_of_mem a hx))]
    rfl

theorem dissociate_idem (op : String) (l : List Expr) :
    dissociate op (dissociate op l) = dissociate op l :=
  dissociate_eq_self (dissociate_ne_opnode op l)

theorem associate_or_cases (l : List Expr) :
    associate "|" l = .const false ∧ dissociate "|" l = [] ∨
    (∃ a, dissociate "|" l = [a] ∧ associate "|" l = a) ∨
    associate "|" l = .node "|" (dissociate "|" l) ∧ 2 ≤ (dissociate "|" l).length := by
  unfold associate
  rcases hd : dissociate "|" l with _ | ⟨a, _ | ⟨b, t⟩⟩
  · left; exact ⟨rfl, rfl⟩
  · right; left; exact ⟨a, rfl, rfl⟩
  · right; right; simp

theorem dmu_associate_or_le (l : List Expr) :
    dmu (associate "|" l) ≤ 1 + dmu_list l := by
  have hdle := dmu_dissociate_le "|" l
  rcases associate_or_cases l with ⟨he, hd⟩ | ⟨a, hd, he⟩ | ⟨he, _⟩
  · rw [he]; simp [dmu]
  · rw [he]
    have : dmu a ≤ dmu_list (dissociate "|" l) := by
      rw [hd]; simp only [dmu_list]; omega
    omega
  · rw [he]; simp [dmu]; omega

theorem associate_or_ne_bar (l : List Expr) (o : String) (a2 : List Expr)
    (he : associate "|" l = .node o a2) (ho : ¬o = "|") :
    dmu (.node o a2) ≤ dmu_list l := by
  have hdle := dmu_dissociate_le "|" l
  rcases associate_or_cases l with ⟨he2, hd⟩ | ⟨a, hd, he2⟩ | ⟨he2, _⟩
  · rw [he2] at he; exact absurd he (by intro hc; exact Expr.noConfusion hc)
  · rw [he2] at he
    subst he
    rw [hd] at hdle
    simp only [dmu_list] at hdle
    omega
  · rw [he2] at he
    injection he with h1 _
    exact absurd h1.symm ho

theorem associate_or_bar (l : List Expr) (a2 : List Expr)
    (he : associate "|" l = .node "|" a2) :
    a2 = dissociate "|" l ∧ 2 ≤ a2.length := by
  rcases associate_or_cases l with ⟨he2, hd⟩ | ⟨a, hd, he2⟩ | ⟨he2, hlen⟩
  · rw [he2] at he; exact absurd he (by intro hc; exact Expr.noConfusion hc)
  · rw [he2] at he
    subst he
    exact absurd hd ((dissociate_ne_opnode "|" l (.node "|" a2)
      (by rw [hd]; exact List.mem_singleton.mpr rfl) a2) rfl).elim
  · rw [he2] at he
    injection he with _ h2
    exact ⟨h2.symm, h2 ▸ hlen⟩

/-- `arg.op == '&'` as a partial projection: the operand list of a
conjunction node, else `none`. -/
def andArgs : Expr → Option (List Expr)
  | .const _ => none
  | .node op args => if op = "&" then some args else none

theorem andArgs_eq_some {a : Expr} {cargs : List Expr} :
    andArgs a = some cargs ↔ a = .node "&" cargs := by
  cases a with
  | const b => simp [andArgs]
  | node op args =>
    simp only [andArgs]
    constructor
    · intro h
      split at h
      · rename_i hop; subst hop; injection h with h; rw [h]
      · cases h
    · intro h
      injection h with h1 h2
      subst h1; subst h2; rfl

theorem andArgs_eq_none {a : Expr} :
    andArgs a = none ↔ ∀ c2, a ≠ .node "&" c2 := by
  cases handA : andArgs a with
  | some cargs =>
    simp only [reduceCtorEq, false_iff, not_forall]
    exact ⟨cargs, by simp [andArgs_eq_some.mp handA]⟩
  | none =>
    simp only [true_iff]
    intro c2 hc
    rw [hc] at handA
    simp [andArgs] at handA

/-- The conjunct search of `distribute_and_over_or`:
`conj = first(arg for arg in s.args if arg.op == '&')` followed by
`others = [a for a in s.args if a is not conj]`.  On tree-structured
sentences (no aliased argument objects) this removes exactly the position
of the first `&`-argument, returning that argument's operand list together
with the remaining arguments in order. -/
def splitFirstConj : List Expr → Option (List Expr × List Expr)
  | [] => none
  | a :: rest =>
    match andArgs a with
    | some cargs => some (cargs, rest)
    | none =>
      match splitFirstConj rest with
      | none => none
      | some (c, o) => some (c, a :: o)

theorem splitFirstConj_decomp {l : List Expr} {cargs others : List Expr}
    (h : splitFirstConj l = some (cargs, others)) :
    ∃ pre suf, l = pre ++ .node "&" cargs :: suf ∧ others = pre ++ suf ∧
      ∀ x ∈ pre, ∀ c2, x ≠ .node "&" c2 := by
  induction l generalizing cargs others with
  | nil => rw [splitFirstConj] at h; cases h
  | cons a rest ih =>
    rw [splitFirstConj] at h
    cases handA : andArgs a with
    | some c2 =>
      rw [handA] at h
      simp only [Option.some.injEq, Prod.mk.injEq] at h
      rcases h with ⟨h1, h2⟩
      subst h1; subst h2
      exact ⟨[], rest, by rw [andArgs_eq_some.mp handA]; rfl, rfl,
        by intro x hx; cases hx⟩
    | none =>
      rw [handA] at h
      cases hr : splitFirstConj rest with
      | none => rw [hr] at h; cases h
      | some co =>
        rcases co with ⟨c, o⟩
        rw [hr] at h
        simp only [Option.some.injEq, Prod.mk.injEq] at h
        rcases h with ⟨h1, h2⟩
        subst h1
        rcases ih hr with ⟨pre, suf, hl, ho, hpre⟩
        refine ⟨a :: pre, suf, by rw [hl]; rfl, by rw [← h2, ho]; rfl, ?_⟩
        intro x hx c2
        rcases List.mem_cons.mp hx with h3 | h3
        · subst h3; exact andArgs_eq_none.mp handA c2
        · exact hpre x h3 c2

theorem splitFirstConj_dmu {l : List Expr} {cargs others : List Expr}
    (h : splitFirstConj l = some (cargs, others)) :
    dmu_list l = (2 + dmu_list cargs) + dmu_list others := by
  rcases splitFirstConj_decomp h with ⟨pre, suf, hl, ho, _⟩
  subst hl; subst ho
  rw [dmu_list_append, dmu_list_append]
  simp only [dmu_list, dmu]
  have : (if ("&" : String) = "|" then 1 else 2) = 2 := by decide
  rw [this]
  omega

/-- `distribute_and_over_or(s)` from `logic.py`.  On a disjunction the
arguments are first re-associated; a non-disjunction result recurses; zero
flattened arguments return `False` and a single one recurses on it; then the
first conjunction argument (if any) is distributed against the re-associated
remainder, conjunct by conjunct.  Conjunction arguments are mapped
recursively; anything else returns unchanged. -/
def distribute_and_over_or (s : Expr) : Expr :=
  match s with
  | .const b => .const b
  | .node op args =>
    if hop : op = "|" then
      match hA : associate "|" args with
      | .const b => distribute_and_over_or (.const b)
      | .node op2 args2 =>
        if h2 : op2 = "|" then
          if hlen0 : args2.length = 0 then .const false
          else if hlen1 : args2.length = 1 then
            distribute_and_over_or (args2.head (by
              intro hc; rw [hc] at hlen1; simp at hlen1))
          else
            match hsp : splitFirstConj args2 with
            | none => .node op2 args2
            | some (cargs, others) =>
              associate "&" (cargs.attach.map (fun c =>
                distribute_and_over_or (.node "|" [c.1, associate "|" others])))
        else distribute_and_over_or (.node op2 args2)
    else if op = "&" then
      associate "&" (args.attach.map (fun a => distribute_and_over_or a.1))
    else .node op args
termination_by dmu s
decreasing_by
  · simp only [dmu]; split <;> omega
  · rename_i op0 args0
    subst hop
    obtain ⟨hd, hlen⟩ := associate_or_bar args0 args2 (h2 ▸ hA)
    have hmem := List.head_mem (l := args2) (by
      intro hc; rw [hc] at hlen1; simp at hlen1)
    have h7 := dmu_list_mem_le hmem
    have h6 := dmu_dissociate_le "|" args0
    rw [← hd] at h6
    simp [dmu]
    omega
  · rename_i op0 args0
    subst hop
    obtain ⟨hd, hlen⟩ := associate_or_bar args0 args2 (h2 ▸ hA)
    have h5 := splitFirstConj_dmu hsp
    have h6 := dmu_dissociate_le "|" args0
    rw [← hd] at h6
    have h7 := dmu_list_mem_le c.2
    have h8 := dmu_associate_or_le others
    simp [dmu, dmu_list]
    omega
  · rename_i op0 args0
    subst hop
    have h9 := associate_or_ne_bar args0 op2 args2 hA h2
    simp [dmu] at h9 ⊢
    omega
  · rename_i hop2 op0 args0
    have h7 := dmu_list_mem_le a.2
    simp only [dmu]
    split <;> omega

/-- `to_cnf(s)` from `logic.py`: the three-stage pipeline. -/
def to_cnf (s : Expr) : Except PErr Expr :=
  match eliminate_implications s with
  | .error e => .error e
  | .ok s1 =>
    match move_not_inwards s1 with
    | .error e => .error e
    | .ok s2 => .ok (distribute_and_over_or s2)

mutual
/-- `prop_symbols(x)` from `logic.py`: the set of subexpressions whose
operator is an initial-uppercase symbol (such a subexpression is returned
whole, without recursing into its arguments).  The Python set is rendered
as a duplicate-free list. -/
def prop_symbols (x : Expr) : List Expr :=
  match x with
  | .const _ => []
  | .node op args =>
    if is_prop_symbol op then [.node op args]
    else (prop_symbols_list args).dedup
termination_by 2 * pweight x
decreasing_by
  simp only [pweight]; split <;> omega

def prop_symbols_list (l : List Expr) : List Expr :=
  match l with
  | [] => []
  | a :: rest => prop_symbols a ++ prop_symbols_list rest
termination_by 2 * pweightList l + 1
decreasing_by
  · simp only [pweightList]; omega
  · simp only [pweightList]; have := pweight_pos a; omega
end

/-- `is_variable(x)`: an `Expr` with no arguments and a lowercase operator.
(On an empty operator string Python would raise `IndexError`; the parser
never produces one, so it is rendered as `false`.) -/
def is_variable : Expr → Bool
  | .const _ => false
  | .node op args =>
    args.isEmpty && (match op.data with
      | [] => false
      | c :: _ => c.isLower)

mutual
/-- Modelled from the spec: `variables(s)` uses `utils.subexpressions`
(not in the sources) to collect every subexpression; only emptiness of the
resulting set is consumed (`assert not variables(alpha)`), rendered here as
"some subexpression is a variable". -/
def has_variable (x : Expr) : Bool :=
  match x with
  | .const b => is_variable (.const b)
  | .node op args => is_variable (.node op args) || has_variable_list args
termination_by 2 * pweight x
decreasing_by
  simp only [pweight]; split <;> omega

def has_variable_list (l : List Expr) : Bool :=
  match l with
  | [] => false
  | a :: rest => has_variable a || has_variable_list rest
termination_by 2 * pweightList l + 1
decreasing_by
  · simp only [pweightList]; omega
  · simp only [pweightList]; have := pweight_pos a; omega
end

/-- `tt_check_all(kb, alpha, symbols, model)` from `logic.py`: depth-first
enumeration, branching each remaining symbol to true then false (Python
`and` short-circuits on a `False` left branch); at a leaf, a model
falsifying (or leaving unknown) `kb` counts vacuously, otherwise `alpha`
must evaluate to a known boolean (`assert result in (True, False)`). -/
def tt_check_all (kb alpha : Expr) (symbols : List Expr) (model : Model) :
    Except PErr Bool :=
  match symbols with
  | [] =>
    match pl_true kb model with
    | .error e => .error e
    | .ok v =>
      if v = some true then
        match pl_true alpha model with
        | .error e => .error e
        | .ok (some b) => .ok b
        | .ok none => .error .assertFail
      else .ok true
  | p :: rest =>
    match tt_check_all kb alpha rest (extend model p true) with
    | .error e => .error e
    | .ok false => .ok false
    | .ok true => tt_check_all kb alpha rest (extend model p false)

/-- `tt_entails(kb, alpha)` from `logic.py`: assert the query is ground,
collect the symbols of `kb & alpha`, and enumerate. -/
def tt_entails (kb alpha : Expr) : Except PErr Bool :=
  if has_variable alpha then .error .assertFail
  else tt_check_all kb alpha (prop_symbols (.node "&" [kb, alpha])) emptyModel

/-- Python truthiness in expression position: `Expr` objects define no
`__bool__`, hence are always truthy; raw booleans are themselves. -/
def truthy : Expr → Bool
  | .const b => b
  | .node _ _ => true

/-- `PropKB.tell(sentence)`: extend the clause list with the conjuncts of
the CNF of the sentence. -/
def PropKB_tell (clauses : List Expr) (sentence : Expr) :
    Except PErr (List Expr) :=
  match to_cnf sentence with
  | .error e => .error e
  | .ok t => .ok (clauses ++ conjuncts t)

/-- `PropKB.retract(sentence)`: for each CNF conjunct present in the list,
remove its first occurrence (`list.remove`); absent conjuncts are ignored. -/
def PropKB_retract (clauses : List Expr) (sentence : Expr) :
    Except PErr (List Expr) :=
  match to_cnf sentence with
  | .error e => .error e
  | .ok t =>
    .ok ((conjuncts t).foldl (fun cs c => if c ∈ cs then cs.erase c else cs) clauses)

/-- `PropKB.ask_generator(query)`: yield the empty substitution (rendered
`Unit`) once if the conjunction of the stored clauses entails the query. -/
def PropKB_ask_generator (clauses : List Expr) (query : Expr) :
    Except PErr (List Unit) :=
  match tt_entails (.node "&" clauses) query with
  | .error e => .error e
  | .ok true => .ok [()]
  | .ok false => .ok []

/-- `KB.ask(query)` = `first(self.ask_generator(query), default=False)`:
the first yielded substitution, or the `False` signal (`none`). -/
def KB_ask (clauses : List Expr) (query : Expr) : Except PErr (Option Unit) :=
  match PropKB_ask_generator clauses query with
  | .error e => .error e
  | .ok l => .ok l.head?

/-- `PropKB.tell` as invoked on an object whose `clauses` attribute may not
exist yet (`none`): Python resolves `self.clauses` before anything else and
raises `AttributeError` when the attribute is missing. -/
def PropKB_tell_attr (clauses0 : Option (List Expr)) (sentence : Expr) :
    Except PErr (List Expr) :=
  match clauses0 with
  | none => .error .attribute
  | some cs => PropKB_tell cs sentence

/-- The body of `KB.__init__(sentence)`: `if sentence: self.tell(sentence)`,
running against the current state of the `clauses` attribute. -/
def KB_init_tell (clauses0 : Option (List Expr)) (sentence : Option Expr) :
    Except PErr (Option (List Expr)) :=
  match sentence with
  | none => .ok clauses0
  | some s =>
    if truthy s then
      match PropKB_tell_attr clauses0 s with
      | .error e => .error e
      | .ok cs => .ok (some cs)
    else .ok clauses0

/-- `PropKB.__init__(sentence)`: run `super().__init__(sentence)` (which may
`tell`) while `self.clauses` is still unset, then assign `self.clauses = []`. -/
def PropKB_init (sentence : Option Expr) : Except PErr (List Expr) :=
  match KB_init_tell none sentence with
  | .error e => .error e
  | .ok _ => .ok []

/-- The argument pair (clause set, optional variable/value pin) that
`minisat(clauses, query, variable, value)` hands to the external solver:
a falsy/absent `query` leaves the clause list untouched, otherwise the
query is appended; the pin is passed through. -/
def minisat_call (clauses : List Expr) (query : Option Expr)
    (pinVar : Option Expr) (pinVal : Bool) :
    List Expr × Option (Expr × Bool) :=
  (match query with
   | none => clauses
   | some q => if truthy q then clauses ++ [q] else clauses,
   match pinVar with
   | none => none
   | some v => some (v, pinVal))

/-- `minisat(...)` from `wumpus_agent.py`, parameterized by the external
oracle `solve` (modelled from the spec: `minisat.py` is not in the sources;
the oracle takes a clause set and an optional forced variable/value and
returns a success flag). -/
def minisat (solve : List Expr → Option (Expr × Bool) → Bool)
    (clauses : List Expr) (query : Option Expr)
    (pinVar : Option Expr) (pinVal : Bool) : Bool :=
  solve (minisat_call clauses query pinVar pinVal).1
        (minisat_call clauses query pinVar pinVal).2

/-- `PropKB_SAT.ask(query)` from `wumpus_agent.py`: two probes (query
pinned true, query pinned false); equal success flags give `None`
(unknown), else the answer is the pinned-true flag.  (The `isinstance(query,
str)` re-parse branch is dropped: queries enter as expressions here.) -/
def PropKB_SAT_ask (solve : List Expr → Option (Expr × Bool) → Bool)
    (clauses : List Expr) (query : Expr) : Option Bool :=
  let s_true := minisat solve clauses none (some query) true
  let s_false := minisat solve clauses none (some query) false
  if s_true = s_false then none else some s_true

/-- The two oracle probes `PropKB_SAT.ask` issues, in order. -/
def PropKB_SAT_ask_probes (clauses : List Expr) (query : Expr) :
    List (List Expr × Option (Expr × Bool)) :=
  [minisat_call clauses none (some query) true,
   minisat_call clauses none (some query) false]

/-- `PropKB_SAT.tell(sentence)`: delegate to `PropKB.tell` when the
sentence is truthy, else do nothing. -/
def PropKB_SAT_tell (clauses : List Expr) (sentence : Expr) :
    Except PErr (List Expr) :=
  if truthy sentence then PropKB_tell clauses sentence else .ok clauses

/-- Strong Kleene negation on `Option Bool` (`None` = unknown). -/
def knot : Option Bool → Option Bool
  | none => none
  | some b => some (!b)

/-- Strong Kleene disjunction: a known-true side dominates, otherwise an
unknown side wins, else false.  This is the value computed by the
disjunction loop of `pl_true`. -/
def kor : Option Bool → Option Bool → Option Bool
  | some true, _ => some true
  | _, some true => some true
  | none, _ => none
  | _, none => none
  | _, _ => some false

/-- Strong Kleene conjunction, dual to `kor`. -/
def kand : Option Bool → Option Bool → Option Bool
  | some false, _ => some false
  | _, some false => some false
  | none, _ => none
  | _, none => none
  | _, _ => some true

/-- The biconditional as `pl_true` computes it: unknown if either side is
unknown, else boolean equality. -/
def kiff : Option Bool → Option Bool → Option Bool
  | some x, some y => some (x == y)
  | _, _ => none

/-- Exclusive or as `pl_true` computes it. -/
def kxor : Option Bool → Option Bool → Option Bool
  | some x, some y => some (x != y)
  | _, _ => none

mutual
/-- Reference denotation: the three-valued value of a proper sentence under
a partial model, defined by structural recursion (implications evaluated
directly as their disjunctive readings). -/
def tv (e : Expr) (m : Model) : Option Bool :=
  match e with
  | .const b => some b
  | .node op args =>
    if is_prop_symbol op then m (.node op args)
    else if op = "~" then tv_not args m
    else if op = "|" then tv_or args m
    else if op = "&" then tv_and args m
    else tv_bin op args m
termination_by 2 * pweight e
decreasing_by
  all_goals simp only [pweight, pweightList]
  all_goals split <;> omega

def tv_not (l : List Expr) (m : Model) : Option Bool :=
  match l with
  | [] => none
  | a :: _ => knot (tv a m)
termination_by 2 * pweightList l + 1
decreasing_by
  simp only [pweightList]; omega

def tv_bin (op : String) (args : List Expr) (m : Model) : Option Bool :=
  match args with
  | [p, q] =>
    if op = ">>" ∨ op = "==>" then kor (knot (tv p m)) (tv q m)
    else if op = "<<" ∨ op = "<==" then kor (tv p m) (knot (tv q m))
    else if op = "<=>" then kiff (tv p m) (tv q m)
    else if op = "^" then kxor (tv p m) (tv q m)
    else none
  | _ => none
termination_by 2 * pweightList args + 1
decreasing_by
  · simp only [pweightList]; omega
  · simp only [pweightList]; omega
  · simp only [pweightList]; omega
  · simp only [pweightList]; omega
  · simp only [pweightList]; omega
  · simp only [pweightList]; omega
  · simp only [pweightList]; omega
  · simp only [pweightList]; omega

def tv_or (l : List Expr) (m : Model) : Option Bool :=
  match l with
  | [] => some false
  | a :: rest => kor (tv a m) (tv_or rest m)
termination_by 2 * pweightList l + 1
decreasing_by
  · simp only [pweightList]; omega
  · simp only [pweightList]; have := pweight_pos a; omega

def tv_and (l : List Expr) (m : Model) : Option Bool :=
  match l with
  | [] => some true
  | a :: rest => kand (tv a m) (tv_and rest m)
termination_by 2 * pweightList l + 1
decreasing_by
  · simp only [pweightList]; omega
  · simp only [pweightList]; have := pweight_pos a; omega
end

mutual
/-- The sentence grammar of the specification: boolean constants, atomic
proposition symbols, unary `~`, n-ary `&`/`|`, and the binary operators
`>>`/`==>`, `<<`/`<==`, `<=>`, `^`. -/
def isProper (e : Expr) : Bool :=
  match e with
  | .const _ => true
  | .node op args =>
    if is_prop_symbol op then args.isEmpty
    else if op = "~" then args.length = 1 && isProperList args
    else if op = "|" ∨ op = "&" then isProperList args
    else if op = ">>" ∨ op = "==>" ∨ op = "<<" ∨ op = "<==" ∨
            op = "<=>" ∨ op = "^" then
      args.length = 2 && isProperList args
    else false
termination_by 2 * pweight e
decreasing_by
  all_goals simp only [pweight]; split <;> omega

def isProperList (l : List Expr) : Bool :=
  match l with
  | [] => true
  | a :: rest => isProper a && isProperList rest
termination_by 2 * pweightList l + 1
decreasing_by
  · simp only [pweightList]; omega
  · simp only [pweightList]; have := pweight_pos a; omega
end

theorem kor_false_right : ∀ a : Option Bool, kor a (some false) = a := by decide

theorem kor_false_left : ∀ a : Option Bool, kor (some false) a = a := by decide

theorem kor_true_right : ∀ a : Option Bool, kor a (some true) = some true := by
  decide

theorem kor_true_left : ∀ a : Option Bool, kor (some true) a = some true := by
  decide

theorem kor_comm : ∀ a b : Option Bool, kor a b = kor b a := by decide

theorem kor_assoc : ∀ a b c : Option Bool,
    kor (kor a b) c = kor a (kor b c) := by decide

theorem kor_none_idem : ∀ a : Option Bool,
    kor none (kor none a) = kor none a := by decide

theorem kand_true_right : ∀ a : Option Bool, kand a (some true) = a := by decide

theorem kand_true_left : ∀ a : Option Bool, kand (some true) a = a := by decide

theorem kand_false_right : ∀ a : Option Bool,
    kand a (some false) = some false := by decide

theorem kand_false_left : ∀ a : Option Bool,
    kand (some false) a = some false := by decide

theorem kand_comm : ∀ a b : Option Bool, kand a b = kand b a := by decide

theorem kand_assoc : ∀ a b c : Option Bool,
    kand (kand a b) c = kand a (kand b c) := by decide

theorem kand_none_idem : ∀ a : Option Bool,
    kand none (kand none a) = kand none a := by decide

theorem knot_knot : ∀ a : Option Bool, knot (knot a) = a := by decide

theorem knot_kand : ∀ a b : Option Bool,
    knot (kand a b) = kor (knot a) (knot b) := by decide

theorem knot_kor : ∀ a b : Option Bool,
    knot (kor a b) = kand (knot a) (knot b) := by decide

theorem kor_kand_distrib : ∀ a b c : Option Bool,
    kor (kand a b) c = kand (kor a c) (kor b c) := by decide

theorem kiff_eq : ∀ a b : Option Bool,
    kand (kor a (knot b)) (kor b (knot a)) = kiff a b := by decide

theorem kxor_eq : ∀ a b : Option Bool,
    kor (kand a (knot b)) (kand (knot a) b) = kxor a b := by decide

theorem tv_const (b : Bool) (m : Model) : tv (.const b) m = some b := by
  rw [tv]

theorem tv_sym {op : String} (hps : is_prop_symbol op = true)
    (args : List Expr) (m : Model) :
    tv (.node op args) m = m (.node op args) := by
  rw [tv, if_pos hps]

theorem tv_not_cons (a : Expr) (rest : List Expr) (m : Model) :
    tv (.node "~" (a :: rest)) m = knot (tv a m) := by
  rw [tv, if_neg (by decide), if_pos rfl, tv_not]

theorem tv_or_node (args : List Expr) (m : Model) :
    tv (.node "|" args) m = tv_or args m := by
  rw [tv, if_neg (by decide), if_neg (by decide), if_pos rfl]

theorem tv_and_node (args : List Expr) (m : Model) :
    tv (.node "&" args) m = tv_and args m := by
  rw [tv, if_neg (by decide), if_neg (by decide), if_neg (by decide),
    if_pos rfl]

theorem tv_or_nil (m : Model) : tv_or [] m = some false := by rw [tv_or]

theorem tv_or_cons (a : Expr) (rest : List Expr) (m : Model) :
    tv_or (a :: rest) m = kor (tv a m) (tv_or rest m) := by rw [tv_or]

theorem tv_and_nil (m : Model) : tv_and [] m = some true := by rw [tv_and]

theorem tv_and_cons (a : Expr) (rest : List Expr) (m : Model) :
    tv_and (a :: rest) m = kand (tv a m) (tv_and rest m) := by rw [tv_and]

theorem tv_imp {op : String} (himp : op = ">>" ∨ op = "==>")
    (p q : Expr) (m : Model) :
    tv (.node op [p, q]) m = kor (knot (tv p m)) (tv q m) := by
  have hps : ¬is_prop_symbol op = true := by
    rcases himp with h | h <;> subst h <;> decide
  have hnot : ¬op = "~" := by rcases himp with h | h <;> subst h <;> decide
  have hor : ¬op = "|" := by rcases himp with h | h <;> subst h <;> decide
  have hand : ¬op = "&" := by rcases himp with h | h <;> subst h <;> decide
  rw [tv, if_neg hps, if_neg hnot, if_neg hor, if_neg hand, tv_bin]
  simp only [if_pos himp]

theorem tv_revimp {op : String} (hrev : op = "<<" ∨ op = "<==")
    (p q : Expr) (m : Model) :
    tv (.node op [p, q]) m = kor (tv p m) (knot (tv q m)) := by
  have hps : ¬is_prop_symbol op = true := by
    rcases hrev with h | h <;> subst h <;> decide
  have hnot : ¬op = "~" := by rcases hrev with h | h <;> subst h <;> decide
  have hor : ¬op = "|" := by rcases hrev with h | h <;> subst h <;> decide
  have hand : ¬op = "&" := by rcases hrev with h | h <;> subst h <;> decide
  have himp : ¬(op = ">>" ∨ op = "==>") := by
    rcases hrev with h | h <;> subst h <;> decide
  rw [tv, if_neg hps, if_neg hnot, if_neg hor, if_neg hand, tv_bin]
  simp only [if_neg himp, if_pos hrev]

theorem tv_iff (p q : Expr) (m : Model) :
    tv (.node "<=>" [p, q]) m = kiff (tv p m) (tv q m) := by
  rw [tv, if_neg (by decide), if_neg (by decide), if_neg (by decide),
    if_neg (by decide), tv_bin]
  simp only [if_neg (by decide : ¬(("<=>" : String) = ">>" ∨ ("<=>" : String) = "==>")),
    if_neg (by decide : ¬(("<=>" : String) = "<<" ∨ ("<=>" : String) = "<==")),
    if_pos rfl, if_true]

theorem tv_xor (p q : Expr) (m : Model) :
    tv (.node "^" [p, q]) m = kxor (tv p m) (tv q m) := by
  rw [tv, if_neg (by decide), if_neg (by decide), if_neg (by decide),
    if_neg (by decide), tv_bin]
  simp only [if_neg (by decide : ¬(("^" : String) = ">>" ∨ ("^" : String) = "==>")),
    if_neg (by decide : ¬(("^" : String) = "<<" ∨ ("^" : String) = "<==")),
    if_neg (by decide : ¬("^" : String) = "<=>"), if_pos rfl, if_true]

theorem isProperList_mem {l : List Expr} (h : isProperList l = true) :
    ∀ a ∈ l, isProper a = true := by
  induction l with
  | nil => intro a ha; cases ha
  | cons x rest ih =>
    rw [isProperList] at h
    simp only [Bool.and_eq_true] at h
    intro a ha
    rcases List.mem_cons.mp ha with h1 | h1
    · subst h1; exact h.1
    · exact ih h.2 a h1

theorem isProperList_iff {l : List Expr} :
    isProperList l = true ↔ ∀ a ∈ l, isProper a = true := by
  constructor
  · exact isProperList_mem
  · intro h
    induction l with
    | nil => rw [isProperList]
    | cons x rest ih =>
      rw [isProperList]
      simp only [Bool.and_eq_true]
      exact ⟨h x (List.mem_cons_self x rest),
        ih (fun a ha => h a (List.mem_cons_of_mem x ha))⟩

theorem isProper_not1 {x : Expr} (h : isProper x = true) :
    isProper (.node "~" [x]) = true := by
  rw [isProper, if_neg (by decide), if_pos rfl]
  simp only [Bool.and_eq_true]
  refine ⟨by simp, ?_⟩
  rw [isProperList, isProperList]
  simp [h]

theorem isProper_or2 {x y : Expr} (hx : isProper x = true)
    (hy : isProper y = true) : isProper (.node "|" [x, y]) = true := by
  rw [isProper, if_neg (by decide), if_neg (by decide),
    if_pos (by decide : ("|" : String) = "|" ∨ ("|" : String) = "&")]
  rw [isProperList, isProperList, isProperList]
  simp [hx, hy]

theorem pl_true_or_tv (l : List Expr) (m : Model)
    (h : ∀ a ∈ l, pl_true a m = .ok (tv a m)) :
    ∀ acc, acc = some false ∨ acc = none →
      pl_true_or l m acc = .ok (kor acc (tv_or l m)) := by
  induction l with
  | nil =>
    intro acc hacc
    rw [pl_true_or_nil, tv_or_nil, kor_false_right]
  | cons a rest ih =>
    intro acc hacc
    rw [pl_true_or_cons, tv_or_cons]
    rw [h a (List.mem_cons_self a rest)]
    have hrest := fun x hx => h x (List.mem_cons_of_mem a hx)
    cases hv : tv a m with
    | none =>
      simp only [orStepE]
      rw [ih hrest none (Or.inr rfl)]
      rcases hacc with h1 | h1 <;> subst h1
      · rw [kor_false_left]
      · rw [kor_none_idem]
    | some b =>
      cases b
      · simp only [orStepE]
        rw [ih hrest acc hacc, kor_false_left]
      · simp only [orStepE]
        rw [kor_true_left, kor_true_right]
    
theorem pl_true_and_tv (l : List Expr) (m : Model)
    (h : ∀ a ∈ l, pl_true a m = .ok (tv a m)) :
    ∀ acc, acc = some true ∨ acc = none →
      pl_true_and l m acc = .ok (kand acc (tv_and l m)) := by
  induction l with
  | nil =>
    intro acc hacc
    rw [pl_true_and_nil, tv_and_nil, kand_true_right]
  | cons a rest ih =>
    intro acc hacc
    rw [pl_true_and_cons, tv_and_cons]
    rw [h a (List.mem_cons_self a rest)]
    have hrest := fun x hx => h x (List.mem_cons_of_mem a hx)
    cases hv : tv a m with
    | none =>
      simp only [andStepE]
      rw [ih hrest none (Or.inr rfl)]
      rcases hacc with h1 | h1 <;> subst h1
      · rw [kand_true_left]
      · rw [kand_none_idem]
    | some b =>
      cases b
      · simp only [andStepE]
        rw [kand_false_left, kand_false_right]
      · simp only [andStepE]
        rw [ih hrest acc hacc, kand_true_left]

theorem pl_true_eq_tv_aux : ∀ n, ∀ e, pweight e ≤ n → isProper e = true →
    ∀ m, pl_true e m = .ok (tv e m) := by
  intro n
  induction n with
  | zero => intro e hw; have := pweight_pos e; omega
  | succ n ih =>
    intro e hw hp m
    cases e with
    | const b => rw [pl_true_const, tv_const]
    | node op args =>
      have hwargs : 1 + pweightList args ≤ pweight (.node op args) :=
        pweight_node_ge op args
      have hmemw : ∀ a ∈ args, pweight a ≤ n := by
        intro a ha
        have := pweightList_mem_le ha
        omega
      rw [isProper] at hp
      by_cases hps : is_prop_symbol op = true
      · rw [pl_true_sym hps, tv_sym hps]
      · rw [if_neg hps] at hp
        by_cases hnot : op = "~"
        · rw [if_pos hnot] at hp
          subst hnot
          simp only [Bool.and_eq_true, decide_eq_true_eq] at hp
          obtain ⟨hlen, hpl⟩ := hp
          rcases args with _ | ⟨a, _ | ⟨b, t⟩⟩
          · simp at hlen
          · rw [pl_true_not_cons, tv_not_cons]
            have ha := isProperList_mem hpl a (List.mem_cons_self a [])
            rw [ih a (hmemw a (List.mem_cons_self a [])) ha m]
            cases tv a m with
            | none => rfl
            | some b => rfl
          · simp at hlen
        · rw [if_neg hnot] at hp
          by_cases horand : op = "|" ∨ op = "&"
          · rw [if_pos horand] at hp
            have hall : ∀ a ∈ args, pl_true a m = .ok (tv a m) := fun a ha =>
              ih a (hmemw a ha) (isProperList_mem hp a ha) m
            rcases horand with h1 | h1 <;> subst h1
            · rw [pl_true_or_node, tv_or_node]
              rw [pl_true_or_tv args m hall (some false) (Or.inl rfl)]
              rw [kor_false_left]
            · rw [pl_true_and_node, tv_and_node]
              rw [pl_true_and_tv args m hall (some true) (Or.inl rfl)]
              rw [kand_true_left]
          · rw [if_neg horand] at hp
            by_cases hbin : op = ">>" ∨ op = "==>" ∨ op = "<<" ∨ op = "<==" ∨
                op = "<=>" ∨ op = "^"
            · rw [if_pos hbin] at hp
              simp only [Bool.and_eq_true, decide_eq_true_eq] at hp
              obtain ⟨hlen, hpl⟩ := hp
              rcases args with _ | ⟨p, _ | ⟨q, _ | ⟨x, t⟩⟩⟩
              · simp at hlen
              · simp at hlen
              · have hpp := isProperList_mem hpl p (by simp)
                have hpq := isProperList_mem hpl q (by simp)
                have hwp := hmemw p (by simp)
                have hwq := hmemw q (by simp)
                simp only [pweightList] at hwargs
                by_cases himp : op = ">>" ∨ op = "==>"
                · rw [pl_true_imp himp p q m, tv_imp himp p q m]
                  have hwnode : pweight (Expr.node "|" [.node "~" [p], q]) ≤ n := by
                    have hwe : 3 + (pweight p + pweight q) ≤ pweight (.node op [p, q]) := by
                      rcases himp with h1 | h1 <;> subst h1 <;>
                        simp [pweight, pweightList] <;> omega
                    simp [pweight, pweightList]
                    omega
                  have hprop : isProper (Expr.node "|" [.node "~" [p], q]) = true :=
                    isProper_or2 (isProper_not1 hpp) hpq
                  rw [ih _ hwnode hprop m]
                  rw [tv_or_node, tv_or_cons, tv_or_cons, tv_or_nil]
                  rw [tv_not_cons, kor_false_right]
                · by_cases hrev : op = "<<" ∨ op = "<=="
                  · rw [pl_true_revimp hrev p q m, tv_revimp hrev p q m]
                    have hwnode : pweight (Expr.node "|" [p, .node "~" [q]]) ≤ n := by
                      have hwe : 3 + (pweight p + pweight q) ≤ pweight (.node op [p, q]) := by
                        rcases hrev with h1 | h1 <;> subst h1 <;>
                          simp [pweight, pweightList] <;> omega
                      simp [pweight, pweightList]
                      omega
                    have hprop : isProper (Expr.node "|" [p, .node "~" [q]]) = true :=
                      isProper_or2 hpp (isProper_not1 hpq)
                    rw [ih _ hwnode hprop m]
                    rw [tv_or_node, tv_or_cons, tv_or_cons, tv_or_nil]
                    rw [tv_not_cons, kor_false_right]
                  · have hno : ¬op = "~" := hnot
                    have h1 : ¬op = "|" := fun hc => horand (Or.inl hc)
                    have h2 : ¬op = "&" := fun hc => horand (Or.inr hc)
                    rw [pl_true_bin_other hps hno h1 h2 himp hrev p q m]
                    rw [ih p hwp hpp m, ih q hwq hpq m]
                    have hio : op = "<=>" ∨ op = "^" := by
                      rcases hbin with h | h | h | h | h | h
                      · exact absurd (Or.inl h) himp
                      · exact absurd (Or.inr h) himp
                      · exact absurd (Or.inl h) hrev
                      · exact absurd (Or.inr h) hrev
                      · exact Or.inl h
                      · exact Or.inr h
                    rcases hio with h3 | h3
                    · subst h3
                      rw [tv_iff]
                      cases tv p m with
                      | none => rfl
                      | some pb =>
                        cases tv q m with
                        | none => rfl
                        | some qb => rfl
                    · subst h3
                      rw [tv_xor]
                      cases tv p m with
                      | none => rfl
                      | some pb =>
                        cases tv q m with
                        | none => rfl
                        | some qb => rfl
              · simp at hlen
            · rw [if_neg hbin] at hp
              cases hp

/-- For every sentence of the specification grammar, the source evaluator
agrees with the structural strong-Kleene denotation `tv`, and in particular
never raises. -/
theorem pl_true_eq_tv {e : Expr} (hp : isProper e = true) (m : Model) :
    pl_true e m = .ok (tv e m) :=
  pl_true_eq_tv_aux (pweight e) e le_rfl hp m

/-- An atomic sentence: a boolean constant or a proposition symbol. -/
def isAtomB : Expr → Bool
  | .const _ => true
  | .node op args => is_prop_symbol op && args.isEmpty

/-- The argument list of a well-formed negated literal: exactly one atom. -/
def isNegAtomArgs : List Expr → Bool
  | [a] => isAtomB a
  | _ => false

mutual
/-- Implication-free proper sentences: the grammar after stage 1. -/
def isPF (e : Expr) : Bool :=
  match e with
  | .const _ => true
  | .node op args =>
    if is_prop_symbol op then args.isEmpty
    else if op = "~" then (args.length = 1 : Bool) && isPFList args
    else if op = "|" ∨ op = "&" then isPFList args
    else false
termination_by 2 * pweight e
decreasing_by
  all_goals simp only [pweight]; split <;> omega

def isPFList (l : List Expr) : Bool :=
  match l with
  | [] => true
  | a :: rest => isPF a && isPFList rest
termination_by 2 * pweightList l + 1
decreasing_by
  · simp only [pweightList]; omega
  · simp only [pweightList]; have := pweight_pos a; omega
end

mutual
/-- Negation-normal form: negation only on atoms, otherwise `&`/`|` over
negation-normal arguments (the shape after stage 2). -/
def isNNF (e : Expr) : Bool :=
  match e with
  | .const _ => true
  | .node op args =>
    if is_prop_symbol op then args.isEmpty
    else if op = "~" then isNegAtomArgs args
    else if op = "|" ∨ op = "&" then isNNFList args
    else false
termination_by 2 * pweight e
decreasing_by
  all_goals simp only [pweight]; split <;> omega

def isNNFList (l : List Expr) : Bool :=
  match l with
  | [] => true
  | a :: rest => isNNF a && isNNFList rest
termination_by 2 * pweightList l + 1
decreasing_by
  · simp only [pweightList]; omega
  · simp only [pweightList]; have := pweight_pos a; omega
end

/-- A literal: an atom or a negated atom. -/
def isLit (e : Expr) : Bool :=
  match e with
  | .const _ => true
  | .node op args =>
    if is_prop_symbol op then args.isEmpty
    else if op = "~" then isNegAtomArgs args
    else false

def isLitList : List Expr → Bool
  | [] => true
  | a :: rest => isLit a && isLitList rest

/-- Clause-shaped: a single literal, or an n-ary (flattened, at least
binary) disjunction of literals. -/
def isClause (e : Expr) : Bool :=
  isLit e || (match e with
    | .node op args => op = "|" && isLitList args && decide (2 ≤ args.length)
    | .const _ => false)

def isClauseList : List Expr → Bool
  | [] => true
  | a :: rest => isClause a && isClauseList rest

/-- CNF-shaped: a single clause, or an n-ary (flattened, at least binary)
conjunction of clauses. -/
def isCNF (e : Expr) : Bool :=
  isClause e || (match e with
    | .node op args => op = "&" && isClauseList args && decide (2 ≤ args.length)
    | .const _ => false)

theorem tv_or_append (l1 l2 : List Expr) (m : Model) :
    tv_or (l1 ++ l2) m = kor (tv_or l1 m) (tv_or l2 m) := by
  induction l1 with
  | nil => rw [List.nil_append, tv_or_nil, kor_false_left]
  | cons a rest ih =>
    rw [List.cons_append, tv_or_cons, tv_or_cons, ih, kor_assoc]

theorem tv_and_append (l1 l2 : List Expr) (m : Model) :
    tv_and (l1 ++ l2) m = kand (tv_and l1 m) (tv_and l2 m) := by
  induction l1 with
  | nil => rw [List.nil_append, tv_and_nil, kand_true_left]
  | cons a rest ih =>
    rw [List.cons_append, tv_and_cons, tv_and_cons, ih, kand_assoc]

theorem tv_or_dissociate_of (l : List Expr) (m : Model)
    (h : ∀ a ∈ l, tv_or (dissoc1 "|" a) m = tv a m) :
    tv_or (dissociate "|" l) m = tv_or l m := by
  induction l with
  | nil => rw [dissociate]
  | cons a rest ih =>
    rw [dissociate, tv_or_append, tv_or_cons,
      h a (List.mem_cons_self a rest),
      ih (fun x hx => h x (List.mem_cons_of_mem a hx))]

theorem tv_or_dissoc1 (a : Expr) : ∀ m, tv_or (dissoc1 "|" a) m = tv a m := by
  induction a using Expr.my_induction with
  | hconst b =>
    intro m
    rw [dissoc1, tv_or_cons, tv_or_nil, kor_false_right]
  | hnode op args ih =>
    intro m
    rw [dissoc1]
    split
    · rename_i hop
      rw [tv_or_dissociate_of args m (fun x hx => ih x hx m)]
      rw [hop, tv_or_node]
    · rw [tv_or_cons, tv_or_nil, kor_false_right]

theorem tv_or_dissociate (l : List Expr) (m : Model) :
    tv_or (dissociate "|" l) m = tv_or l m :=
  tv_or_dissociate_of l m (fun a _ => tv_or_dissoc1 a m)

theorem tv_and_dissociate_of (l : List Expr) (m : Model)
    (h : ∀ a ∈ l, tv_and (dissoc1 "&" a) m = tv a m) :
    tv_and (dissociate "&" l) m = tv_and l m := by
  induction l with
  | nil => rw [dissociate]
  | cons a rest ih =>
    rw [dissociate, tv_and_append, tv_and_cons,
      h a (List.mem_cons_self a rest),
      ih (fun x hx => h x (List.mem_cons_of_mem a hx))]

theorem tv_and_dissoc1 (a : Expr) : ∀ m, tv_and (dissoc1 "&" a) m = tv a m := by
  induction a using Expr.my_induction with
  | hconst b =>
    intro m
    rw [dissoc1, tv_and_cons, tv_and_nil, kand_true_right]
  | hnode op args ih =>
    intro m
    rw [dissoc1]
    split
    · rename_i hop
      rw [tv_and_dissociate_of args m (fun x hx => ih x hx m)]
      rw [hop, tv_and_node]
    · rw [tv_and_cons, tv_and_nil, kand_true_right]

theorem tv_and_dissociate (l : List Expr) (m : Model) :
    tv_and (dissociate "&" l) m = tv_and l m :=
  tv_and_dissociate_of l m (fun a _ => tv_and_dissoc1 a m)

theorem tv_associate_or (l : List Expr) (m : Model) :
    tv (associate "|" l) m = tv_or l m := by
  have hd := tv_or_dissociate l m
  unfold associate
  rcases hflat : dissociate "|" l with _ | ⟨a, _ | ⟨b, t⟩⟩
  · rw [hflat] at hd
    rw [tv_or_nil] at hd
    rw [show op_identity "|" = Expr.const false from rfl, tv_const]
    exact hd
  · rw [hflat] at hd
    rw [tv_or_cons, tv_or_nil, kor_false_right] at hd
    exact hd
  · rw [hflat] at hd
    rw [tv_or_node]
    exact hd

theorem tv_associate_and (l : List Expr) (m : Model) :
    tv (associate "&" l) m = tv_and l m := by
  have hd := tv_and_dissociate l m
  unfold associate
  rcases hflat : dissociate "&" l with _ | ⟨a, _ | ⟨b, t⟩⟩
  · rw [hflat] at hd
    rw [tv_and_nil] at hd
    rw [show op_identity "&" = Expr.const true from rfl, tv_const]
    exact hd
  · rw [hflat] at hd
    rw [tv_and_cons, tv_and_nil, kand_true_right] at hd
    exact hd
  · rw [hflat] at hd
    rw [tv_and_node]
    exact hd

theorem isPFList_mem {l : List Expr} (h : isPFList l = true) :
    ∀ a ∈ l, isPF a = true := by
  induction l with
  | nil => intro a ha; cases ha
  | cons x rest ih =>
    rw [isPFList] at h
    simp only [Bool.and_eq_true] at h
    intro a ha
    rcases List.mem_cons.mp ha with h1 | h1
    · subst h1; exact h.1
    · exact ih h.2 a h1

theorem isPFList_iff {l : List Expr} :
    isPFList l = true ↔ ∀ a ∈ l, isPF a = true := by
  constructor
  · exact isPFList_mem
  · intro h
    induction l with
    | nil => rw [isPFList]
    | cons x rest ih =>
      rw [isPFList]
      simp only [Bool.and_eq_true]
      exact ⟨h x (List.mem_cons_self x rest),
        ih (fun a ha => h a (List.mem_cons_of_mem x ha))⟩

theorem isPF_not1 {x : Expr} (h : isPF x = true) :
    isPF (.node "~" [x]) = true := by
  rw [isPF, if_neg (by decide), if_pos rfl]
  simp only [Bool.and_eq_true]
  refine ⟨by simp, ?_⟩
  rw [isPFList, isPFList]
  simp [h]

theorem isPF_or_of_list {args : List Expr} (h : isPFList args = true) :
    isPF (.node "|" args) = true := by
  rw [isPF, if_neg (by decide), if_neg (by decide),
    if_pos (by decide : ("|" : String) = "|" ∨ ("|" : String) = "&")]
  exact h

theorem isPF_and_of_list {args : List Expr} (h : isPFList args = true) :
    isPF (.node "&" args) = true := by
  rw [isPF, if_neg (by decide), if_neg (by decide),
    if_pos (by decide : ("&" : String) = "|" ∨ ("&" : String) = "&")]
  exact h

theorem forall2_isPFList {l l2 : List Expr}
    (h : List.Forall₂ (fun a t => isPF t = true ∧ ∀ m, tv t m = tv a m) l l2) :
    isPFList l2 = true := by
  induction h with
  | nil => rw [isPFList]
  | cons hab htail ih =>
    rw [isPFList]
    simp only [Bool.and_eq_true]
    exact ⟨hab.1, ih⟩

theorem forall2_tv_or {l l2 : List Expr} (m : Model)
    (h : List.Forall₂ (fun a t => isPF t = true ∧ ∀ m, tv t m = tv a m) l l2) :
    tv_or l2 m = tv_or l m := by
  induction h with
  | nil => rfl
  | cons hab htail ih =>
    rw [tv_or_cons, tv_or_cons, hab.2 m, ih]

theorem forall2_tv_and {l l2 : List Expr} (m : Model)
    (h : List.Forall₂ (fun a t => isPF t = true ∧ ∀ m, tv t m = tv a m) l l2) :
    tv_and l2 m = tv_and l m := by
  induction h with
  | nil => rfl
  | cons hab htail ih =>
    rw [tv_and_cons, tv_and_cons, hab.2 m, ih]

theorem elim_list_forall2 {l : List Expr}
    (h : ∀ a ∈ l, ∃ t, eliminate_implications a = .ok t ∧ isPF t = true ∧
      ∀ m, tv t m = tv a m) :
    ∃ l2, elim_list l = .ok l2 ∧ List.Forall₂
      (fun a t => isPF t = true ∧ ∀ m, tv t m = tv a m) l l2 := by
  induction l with
  | nil => exact ⟨[], by rw [elim_list], List.Forall₂.nil⟩
  | cons a rest ih =>
    obtain ⟨t, ht, hPF, htv⟩ := h a (List.mem_cons_self a rest)
    obtain ⟨l2, hl2, hf⟩ := ih (fun x hx => h x (List.mem_cons_of_mem a hx))
    refine ⟨t :: l2, ?_, List.Forall₂.cons ⟨hPF, htv⟩ hf⟩
    rw [elim_list, ht, hl2]

theorem is_symbol_of_prop {op : String} (h : is_prop_symbol op = true) :
    is_symbol op = true := by
  rw [is_prop_symbol] at h
  exact (Bool.and_eq_true _ _).mp h |>.1

theorem elim_correct : ∀ n s, pweight s ≤ n → isProper s = true →
    ∃ t, eliminate_implications s = .ok t ∧ isPF t = true ∧
      ∀ m, tv t m = tv s m := by
  intro n
  induction n with
  | zero => intro s hw; have := pweight_pos s; omega
  | succ n ih =>
    intro s hw hp
    cases s with
    | const b =>
      exact ⟨.const b, by rw [eliminate_implications], by rw [isPF],
        fun m => rfl⟩
    | node op args =>
      have hwargs : 1 + pweightList args ≤ pweight (.node op args) :=
        pweight_node_ge op args
      have hmemw : ∀ a ∈ args, pweight a ≤ n := by
        intro a ha
        have := pweightList_mem_le ha
        omega
      rw [eliminate_implications]
      by_cases hcond : args.isEmpty = true ∨ is_symbol op = true
      · rw [if_pos hcond]
        refine ⟨_, rfl, ?_, fun m => rfl⟩
        rw [isProper] at hp
        by_cases hps : is_prop_symbol op = true
        · rw [if_pos hps] at hp
          rw [isPF, if_pos hps]; exact hp
        · rw [if_neg hps] at hp
          by_cases hnot : op = "~"
          · rw [if_pos hnot] at hp
            simp only [Bool.and_eq_true, decide_eq_true_eq] at hp
            rcases hcond with he | hsym
            · rcases args with _ | ⟨a, t⟩
              · simp at hp
              · simp at he
            · subst hnot; exact absurd hsym (by decide)
          · rw [if_neg hnot] at hp
            by_cases horand : op = "|" ∨ op = "&"
            · rw [if_pos horand] at hp
              rcases hcond with he | hsym
              · have hargs0 : args = [] := by
                  cases args with
                  | nil => rfl
                  | cons x t => simp at he
                subst hargs0
                rw [isPF, if_neg hps, if_neg hnot, if_pos horand]
                rw [isPFList]
              · rcases horand with h | h <;> subst h <;>
                  exact absurd hsym (by decide)
            · rw [if_neg horand] at hp
              by_cases hbin : op = ">>" ∨ op = "==>" ∨ op = "<<" ∨
                  op = "<==" ∨ op = "<=>" ∨ op = "^"
              · rw [if_pos hbin] at hp
                simp only [Bool.and_eq_true, decide_eq_true_eq] at hp
                rcases hcond with he | hsym
                · rcases args with _ | ⟨a, t⟩
                  · simp at hp
                  · simp at he
                · rcases hbin with h|h|h|h|h|h <;> subst h <;>
                    exact absurd hsym (by decide)
              · rw [if_neg hbin] at hp; cases hp
      · rw [if_neg hcond]
        push_neg at hcond
        obtain ⟨hne, hnsym⟩ := hcond
        rw [isProper] at hp
        have hps : ¬is_prop_symbol op = true := fun h => hnsym (is_symbol_of_prop h)
        rw [if_neg hps] at hp
        by_cases hnot : op = "~"
        · rw [if_pos hnot] at hp
          simp only [Bool.and_eq_true, decide_eq_true_eq] at hp
          obtain ⟨hlen, hpl⟩ := hp
          rcases args with _ | ⟨a0, _ | ⟨b0, t0⟩⟩
          · simp at hlen
          · obtain ⟨l2, hl2, hf⟩ := elim_list_forall2 (fun a ha =>
              ih a (hmemw a ha) (isProperList_mem hpl a ha))
            rw [hl2]
            cases hf with
            | @cons _ a0t _ l2t hab htail =>
              cases htail
              subst hnot
              simp only [if_neg (by decide : ¬(("~":String) = ">>" ∨ ("~":String) = "==>")),
                if_neg (by decide : ¬(("~":String) = "<<" ∨ ("~":String) = "<==")),
                if_neg (by decide : ¬("~":String) = "<=>"),
                if_neg (by decide : ¬("~":String) = "^"),
                if_pos (by decide : ("~":String) = "&" ∨ ("~":String) = "|" ∨ ("~":String) = "~")]
              refine ⟨_, rfl, isPF_not1 hab.1, fun m => ?_⟩
              rw [tv_not_cons, tv_not_cons, hab.2 m]
          · simp at hlen
        · rw [if_neg hnot] at hp
          by_cases horand : op = "|" ∨ op = "&"
          · rw [if_pos horand] at hp
            obtain ⟨l2, hl2, hf⟩ := elim_list_forall2 (fun a ha =>
              ih a (hmemw a ha) (isProperList_mem hp a ha))
            rw [hl2]
            cases hf with
            | nil => simp at hne
            | @cons a0 a0t t0 t0t hab htail =>
              have hfull : List.Forall₂
                  (fun a t => isPF t = true ∧ ∀ m, tv t m = tv a m)
                  (a0 :: t0) (a0t :: t0t) := List.Forall₂.cons hab htail
              rcases horand with h1 | h1 <;> subst h1
              · simp only [if_neg (by decide : ¬(("|":String) = ">>" ∨ ("|":String) = "==>")),
                  if_neg (by decide : ¬(("|":String) = "<<" ∨ ("|":String) = "<==")),
                  if_neg (by decide : ¬("|":String) = "<=>"),
                  if_neg (by decide : ¬("|":String) = "^"),
                  if_pos (by decide : ("|":String) = "&" ∨ ("|":String) = "|" ∨ ("|":String) = "~")]
                refine ⟨_, rfl, isPF_or_of_list (forall2_isPFList hfull), fun m => ?_⟩
                rw [tv_or_node, tv_or_node]
                exact forall2_tv_or m hfull
              · simp only [if_neg (by decide : ¬(("&":String) = ">>" ∨ ("&":String) = "==>")),
                  if_neg (by decide : ¬(("&":String) = "<<" ∨ ("&":String) = "<==")),
                  if_neg (by decide : ¬("&":String) = "<=>"),
                  if_neg (by decide : ¬("&":String) = "^"),
                  if_pos (by decide : ("&":String) = "&" ∨ ("&":String) = "|" ∨ ("&":String) = "~")]
                refine ⟨_, rfl, isPF_and_of_list (forall2_isPFList hfull), fun m => ?_⟩
                rw [tv_and_node, tv_and_node]
                exact forall2_tv_and m hfull
          · rw [if_neg horand] at hp
            by_cases hbin : op = ">>" ∨ op = "==>" ∨ op = "<<" ∨
                op = "<==" ∨ op = "<=>" ∨ op = "^"
            · rw [if_pos hbin] at hp
              simp only [Bool.and_eq_true, decide_eq_true_eq] at hp
              obtain ⟨hlen, hpl⟩ := hp
              rcases args with _ | ⟨p0, _ | ⟨q0, _ | ⟨x0, t0⟩⟩⟩
              · simp at hlen
              · simp at hlen
              · obtain ⟨l2, hl2, hf⟩ := elim_list_forall2 (fun a ha =>
                  ih a (hmemw a ha) (isProperList_mem hpl a ha))
                rw [hl2]
                cases hf with
                | @cons _ p0' _ restA hab htail =>
                  cases htail with
                  | @cons _ q0' _ restB hab2 htail2 =>
                    cases htail2
                    dsimp only
                    have hlast : ∀ hne2, (p0' :: [q0']).getLast hne2 = q0' := by
                      intro hne2; rfl
                    by_cases himp : op = ">>" ∨ op = "==>"
                    · rw [if_pos himp]
                      refine ⟨_, rfl, ?_, fun m => ?_⟩
                      · try simp only [hlast]
                        exact isPF_or_of_list (by
                          simp [isPFList, hab2.1, isPF_not1 hab.1])
                      · try simp only [hlast]
                        rw [tv_imp himp, tv_or_node, tv_or_cons, tv_or_cons,
                          tv_or_nil, tv_not_cons, kor_false_right,
                          hab.2 m, hab2.2 m, kor_comm]
                    · rw [if_neg himp]
                      by_cases hrev : op = "<<" ∨ op = "<=="
                      · rw [if_pos hrev]
                        refine ⟨_, rfl, ?_, fun m => ?_⟩
                        · try simp only [hlast]
                          exact isPF_or_of_list (by
                            simp [isPFList, hab.1, isPF_not1 hab2.1])
                        · try simp only [hlast]
                          rw [tv_revimp hrev, tv_or_node, tv_or_cons, tv_or_cons,
                            tv_or_nil, tv_not_cons, kor_false_right,
                            hab.2 m, hab2.2 m]
                      · by_cases hiff : op = "<=>"
                        · rw [if_neg hrev, if_pos hiff]
                          subst hiff
                          refine ⟨_, rfl, ?_, fun m => ?_⟩
                          · try simp only [hlast]
                            refine isPF_and_of_list ?_
                            have h1 : isPF (Expr.node "|" [p0', .node "~" [q0']]) = true :=
                              isPF_or_of_list (by
                                simp [isPFList, hab.1, isPF_not1 hab2.1])
                            have h2 : isPF (Expr.node "|" [q0', .node "~" [p0']]) = true :=
                              isPF_or_of_list (by
                                simp [isPFList, hab2.1, isPF_not1 hab.1])
                            simp [isPFList, h1, h2]
                          · try simp only [hlast]
                            rw [tv_iff, tv_and_node, tv_and_cons, tv_and_cons,
                              tv_and_nil, kand_true_right, tv_or_node,
                              tv_or_node, tv_or_cons, tv_or_cons, tv_or_nil,
                              tv_or_cons, tv_or_cons, tv_or_nil,
                              tv_not_cons, tv_not_cons, kor_false_right,
                              kor_false_right, hab.2 m, hab2.2 m, kiff_eq]
                        · have hx : op = "^" := by
                            rcases hbin with h|h|h|h|h|h
                            · exact absurd (Or.inl h) himp
                            · exact absurd (Or.inr h) himp
                            · exact absurd (Or.inl h) hrev
                            · exact absurd (Or.inr h) hrev
                            · exact absurd h hiff
                            · exact h
                          rw [if_neg hrev, if_neg hiff, if_pos hx]
                          subst hx
                          rw [if_pos (by simp : ([p0', q0'].length = 2))]
                          refine ⟨_, rfl, ?_, fun m => ?_⟩
                          · try simp only [hlast]
                            refine isPF_or_of_list ?_
                            have h1 : isPF (Expr.node "&" [p0', .node "~" [q0']]) = true :=
                              isPF_and_of_list (by
                                simp [isPFList, hab.1, isPF_not1 hab2.1])
                            have h2 : isPF (Expr.node "&" [.node "~" [p0'], q0']) = true :=
                              isPF_and_of_list (by
                                simp [isPFList, isPF_not1 hab.1, hab2.1])
                            simp [isPFList, h1, h2]
                          · try simp only [hlast]
                            rw [tv_xor, tv_or_node, tv_or_cons, tv_or_cons,
                              tv_or_nil, kor_false_right, tv_and_node,
                              tv_and_node, tv_and_cons, tv_and_cons,
                              tv_and_nil, tv_and_cons, tv_and_cons,
                              tv_and_nil, kand_true_right, kand_true_right,
                              tv_not_cons, tv_not_cons, hab.2 m, hab2.2 m,
                              kxor_eq]
              · simp at hlen
            · rw [if_neg hbin] at hp; cases hp

theorem isNNFList_mem {l : List Expr} (h : isNNFList l = true) :
    ∀ a ∈ l, isNNF a = true := by
  induction l with
  | nil => intro a ha; cases ha
  | cons x rest ih =>
    rw [isNNFList] at h
    simp only [Bool.and_eq_true] at h
    intro a ha
    rcases List.mem_cons.mp ha with h1 | h1
    · subst h1; exact h.1
    · exact ih h.2 a h1

theorem isNNFList_iff {l : List Expr} :
    isNNFList l = true ↔ ∀ a ∈ l, isNNF a = true := by
  constructor
  · exact isNNFList_mem
  · intro h
    induction l with
    | nil => rw [isNNFList]
    | cons x rest ih =>
      rw [isNNFList]
      simp only [Bool.and_eq_true]
      exact ⟨h x (List.mem_cons_self x rest),
        ih (fun a ha => h a (List.mem_cons_of_mem x ha))⟩

theorem isNNF_or_of_list {args : List Expr} (h : isNNFList args = true) :
    isNNF (.node "|" args) = true := by
  rw [isNNF, if_neg (by decide), if_neg (by decide),
    if_pos (by decide : ("|" : String) = "|" ∨ ("|" : String) = "&")]
  exact h

theorem isNNF_and_of_list {args : List Expr} (h : isNNFList args = true) :
    isNNF (.node "&" args) = true := by
  rw [isNNF, if_neg (by decide), if_neg (by decide),
    if_pos (by decide : ("&" : String) = "|" ∨ ("&" : String) = "&")]
  exact h

theorem isNNFList_dissoc1_or {a : Expr} :
    isNNF a = true → isNNFList (dissoc1 "|" a) = true := by
  induction a using Expr.my_induction with
  | hconst b =>
    intro h
    rw [dissoc1, isNNFList, isNNFList]
    simp [isNNF]
  | hnode op args ih =>
    intro h
    rw [dissoc1]
    split
    · rename_i hop
      subst hop
      rw [isNNF, if_neg (by decide), if_neg (by decide),
        if_pos (by decide : ("|" : String) = "|" ∨ ("|" : String) = "&")] at h
      have hmem := isNNFList_mem h
      -- flatten: prove by an inner induction over the list
      clear h
      induction args with
      | nil => rw [dissociate, isNNFList]
      | cons x rest ihl =>
        rw [dissociate]
        rw [show isNNFList (dissoc1 "|" x ++ dissociate "|" rest) = true ↔
            (∀ y ∈ dissoc1 "|" x ++ dissociate "|" rest, isNNF y = true) from
          ⟨fun hh => by
            intro y hy
            exact (isNNFList_iff.mp hh) y hy, fun hh => isNNFList_iff.mpr hh⟩]
        intro y hy
        rcases List.mem_append.mp hy with hm | hm
        · exact isNNFList_mem (ih x (List.mem_cons_self x rest)
            (hmem x (List.mem_cons_self x rest))) y hm
        · exact isNNFList_mem
            (ihl (fun z hz => ih z (List.mem_cons_of_mem x hz))
              (fun z hz => hmem z (List.mem_cons_of_mem x hz))) y hm
    · rw [isNNFList, isNNFList]
      simp [h]

theorem isNNFList_dissociate_or {l : List Expr} (h : isNNFList l = true) :
    isNNFList (dissociate "|" l) = true := by
  induction l with
  | nil => rw [dissociate]; rw [isNNFList]
  | cons a rest ih =>
    rw [isNNFList] at h
    simp only [Bool.and_eq_true] at h
    rw [dissociate]
    rw [isNNFList_iff]
    intro y hy
    rcases List.mem_append.mp hy with hm | hm
    · exact isNNFList_mem (isNNFList_dissoc1_or h.1) y hm
    · exact isNNFList_mem (ih h.2) y hm

theorem isNNFList_dissoc1_and {a : Expr} :
    isNNF a = true → isNNFList (dissoc1 "&" a) = true := by
  induction a using Expr.my_induction with
  | hconst b =>
    intro h
    rw [dissoc1, isNNFList, isNNFList]
    simp [isNNF]
  | hnode op args ih =>
    intro h
    rw [dissoc1]
    split
    · rename_i hop
      subst hop
      rw [isNNF, if_neg (by decide), if_neg (by decide),
        if_pos (by decide : ("&" : String) = "|" ∨ ("&" : String) = "&")] at h
      have hmem := isNNFList_mem h
      clear h
      induction args with
      | nil => rw [dissociate, isNNFList]
      | cons x rest ihl =>
        rw [dissociate]
        rw [isNNFList_iff]
        intro y hy
        rcases List.mem_append.mp hy with hm | hm
        · exact isNNFList_mem (ih x (List.mem_cons_self x rest)
            (hmem x (List.mem_cons_self x rest))) y hm
        · exact isNNFList_mem
            (ihl (fun z hz => ih z (List.mem_cons_of_mem x hz))
              (fun z hz => hmem z (List.mem_cons_of_mem x hz))) y hm
    · rw [isNNFList, isNNFList]
      simp [h]

theorem isNNFList_dissociate_and {l : List Expr} (h : isNNFList l = true) :
    isNNFList (dissociate "&" l) = true := by
  induction l with
  | nil => rw [dissociate]; rw [isNNFList]
  | cons a rest ih =>
    rw [isNNFList] at h
    simp only [Bool.and_eq_true] at h
    rw [dissociate]
    rw [isNNFList_iff]
    intro y hy
    rcases List.mem_append.mp hy with hm | hm
    · exact isNNFList_mem (isNNFList_dissoc1_and h.1) y hm
    · exact isNNFList_mem (ih h.2) y hm

theorem isNNF_associate_or {l : List Expr} (h : isNNFList l = true) :
    isNNF (associate "|" l) = true := by
  have hd := isNNFList_dissociate_or h
  unfold associate
  rcases hflat : dissociate "|" l with _ | ⟨a, _ | ⟨b, t⟩⟩
  · rw [show op_identity "|" = Expr.const false from rfl, isNNF]
  · rw [hflat] at hd
    rw [isNNFList] at hd
    simp only [Bool.and_eq_true] at hd
    exact hd.1
  · rw [hflat] at hd
    exact isNNF_or_of_list hd

theorem isNNF_associate_and {l : List Expr} (h : isNNFList l = true) :
    isNNF (associate "&" l) = true := by
  have hd := isNNFList_dissociate_and h
  unfold associate
  rcases hflat : dissociate "&" l with _ | ⟨a, _ | ⟨b, t⟩⟩
  · rw [show op_identity "&" = Expr.const true from rfl, isNNF]
  · rw [hflat] at hd
    rw [isNNFList] at hd
    simp only [Bool.and_eq_true] at hd
    exact hd.1
  · rw [hflat] at hd
    exact isNNF_and_of_list hd

theorem mni_map_forall2 {l : List Expr}
    (h : ∀ a ∈ l, ∃ t, move_not_inwards a = .ok t ∧ isNNF t = true ∧
      ∀ m, tv t m = tv a m) :
    ∃ l2, mni_map l = .ok l2 ∧ List.Forall₂
      (fun a t => isNNF t = true ∧ ∀ m, tv t m = tv a m) l l2 := by
  induction l with
  | nil => exact ⟨[], by rw [mni_map], List.Forall₂.nil⟩
  | cons a rest ih =>
    obtain ⟨t, ht, hN, htv⟩ := h a (List.mem_cons_self a rest)
    obtain ⟨l2, hl2, hf⟩ := ih (fun x hx => h x (List.mem_cons_of_mem a hx))
    refine ⟨t :: l2, ?_, List.Forall₂.cons ⟨hN, htv⟩ hf⟩
    rw [mni_map, ht, hl2]

theorem mni_map_not_forall2 {l : List Expr}
    (h : ∀ a ∈ l, ∃ t, move_not_inwards (.node "~" [a]) = .ok t ∧
      isNNF t = true ∧ ∀ m, tv t m = knot (tv a m)) :
    ∃ l2, mni_map_not l = .ok l2 ∧ List.Forall₂
      (fun a t => isNNF t = true ∧ ∀ m, tv t m = knot (tv a m)) l l2 := by
  induction l with
  | nil => exact ⟨[], by rw [mni_map_not], List.Forall₂.nil⟩
  | cons a rest ih =>
    obtain ⟨t, ht, hN, htv⟩ := h a (List.mem_cons_self a rest)
    obtain ⟨l2, hl2, hf⟩ := ih (fun x hx => h x (List.mem_cons_of_mem a hx))
    refine ⟨t :: l2, ?_, List.Forall₂.cons ⟨hN, htv⟩ hf⟩
    rw [mni_map_not, ht, hl2]

theorem forall2_not_isNNFList {l l2 : List Expr}
    (h : List.Forall₂ (fun a t => isNNF t = true ∧ ∀ m, tv t m = knot (tv a m)) l l2) :
    isNNFList l2 = true := by
  induction h with
  | nil => rw [isNNFList]
  | cons hab htail ih =>
    rw [isNNFList]
    simp only [Bool.and_eq_true]
    exact ⟨hab.1, ih⟩

theorem forall2_isNNFList {l l2 : List Expr}
    (h : List.Forall₂ (fun a t => isNNF t = true ∧ ∀ m, tv t m = tv a m) l l2) :
    isNNFList l2 = true := by
  induction h with
  | nil => rw [isNNFList]
  | cons hab htail ih =>
    rw [isNNFList]
    simp only [Bool.and_eq_true]
    exact ⟨hab.1, ih⟩

theorem forall2_not_tv_or {l l2 : List Expr} (m : Model)
    (h : List.Forall₂ (fun a t => isNNF t = true ∧ ∀ m, tv t m = knot (tv a m)) l l2) :
    tv_or l2 m = knot (tv_and l m) := by
  induction h with
  | nil => rw [tv_or_nil, tv_and_nil]; rfl
  | cons hab htail ih =>
    rw [tv_or_cons, tv_and_cons, hab.2 m, ih, knot_kand]

theorem forall2_not_tv_and {l l2 : List Expr} (m : Model)
    (h : List.Forall₂ (fun a t => isNNF t = true ∧ ∀ m, tv t m = knot (tv a m)) l l2) :
    tv_and l2 m = knot (tv_or l m) := by
  induction h with
  | nil => rw [tv_and_nil, tv_or_nil]; rfl
  | cons hab htail ih =>
    rw [tv_and_cons, tv_or_cons, hab.2 m, ih, knot_kor]

theorem forall2_nnf_tv_or {l l2 : List Expr} (m : Model)
    (h : List.Forall₂ (fun a t => isNNF t = true ∧ ∀ m, tv t m = tv a m) l l2) :
    tv_or l2 m = tv_or l m := by
  induction h with
  | nil => rfl
  | cons hab htail ih => rw [tv_or_cons, tv_or_cons, hab.2 m, ih]

theorem forall2_nnf_tv_and {l l2 : List Expr} (m : Model)
    (h : List.Forall₂ (fun a t => isNNF t = true ∧ ∀ m, tv t m = tv a m) l l2) :
    tv_and l2 m = tv_and l m := by
  induction h with
  | nil => rfl
  | cons hab htail ih => rw [tv_and_cons, tv_and_cons, hab.2 m, ih]

theorem move_correct : ∀ n s, nnf_measure s ≤ n → isPF s = true →
    ∃ t, move_not_inwards s = .ok t ∧ isNNF t = true ∧
      ∀ m, tv t m = tv s m := by
  intro n
  induction n with
  | zero => intro s hw; have := nnf_measure_pos s; omega
  | succ n ih =>
    intro s hw hp
    cases s with
    | const b =>
      exact ⟨.const b, by rw [move_not_inwards], by rw [isNNF], fun m => rfl⟩
    | node op args =>
      rw [move_not_inwards]
      rw [isPF] at hp
      by_cases hps : is_prop_symbol op = true
      · rw [if_pos hps] at hp
        have hnot : ¬op = "~" := fun hc => by subst hc; exact absurd hps (by decide)
        rw [if_neg hnot, if_pos (Or.inl (is_symbol_of_prop hps))]
        refine ⟨_, rfl, ?_, fun m => rfl⟩
        rw [isNNF, if_pos hps]
        exact hp
      · rw [if_neg hps] at hp
        by_cases hnot : op = "~"
        · rw [if_pos hnot] at hp
          rw [if_pos hnot]
          subst hnot
          simp only [Bool.and_eq_true, decide_eq_true_eq] at hp
          obtain ⟨hlen, hpl⟩ := hp
          rcases args with _ | ⟨a, _ | ⟨b2, t2⟩⟩
          · simp at hlen
          · rw [mni_neg]
            have hpa : isPF a = true := isPFList_mem hpl a (by simp)
            have hμ : 2 * (1 + (nnf_measure a + 0)) ≤ n + 1 := by
              have hq : nnf_measure (Expr.node "~" [a]) =
                  2 * (1 + (nnf_measure a + 0)) := by
                rw [nnf_measure]
                simp [nnf_measure_list]
              omega
            cases a with
            | const b =>
              rw [mni_neg1]
              refine ⟨_, rfl, ?_, fun m => rfl⟩
              rw [isNNF, if_neg (by decide), if_pos rfl]
              rw [isNegAtomArgs]
              rw [isAtomB]
            | node op2 aargs =>
              rw [mni_neg1]
              rw [isPF] at hpa
              by_cases hps2 : is_prop_symbol op2 = true
              · rw [if_pos hps2] at hpa
                have hnot2 : ¬op2 = "~" := fun hc => by
                  subst hc; exact absurd hps2 (by decide)
                have hnot3 : ¬op2 = "&" := fun hc => by
                  subst hc; exact absurd hps2 (by decide)
                have hnot4 : ¬op2 = "|" := fun hc => by
                  subst hc; exact absurd hps2 (by decide)
                rw [if_neg hnot2, if_neg hnot3, if_neg hnot4]
                refine ⟨_, rfl, ?_, fun m => rfl⟩
                rw [isNNF, if_neg (by decide), if_pos rfl, isNegAtomArgs,
                  isAtomB]
                simp [hps2, hpa]
              · rw [if_neg hps2] at hpa
                by_cases hnot2 : op2 = "~"
                · rw [if_pos hnot2] at hpa
                  rw [if_pos hnot2]
                  subst hnot2
                  simp only [Bool.and_eq_true, decide_eq_true_eq] at hpa
                  obtain ⟨hlen2, hpl2⟩ := hpa
                  rcases aargs with _ | ⟨b0, _ | ⟨c0, t0⟩⟩
                  · simp at hlen2
                  · rw [mni_neg2]
                    have hpb : isPF b0 = true := isPFList_mem hpl2 b0 (by simp)
                    have hμb : nnf_measure b0 ≤ n := by
                      rw [nnf_measure] at hμ
                      simp only [reduceIte, nnf_measure_list] at hμ
                      have := nnf_measure_pos b0
                      omega
                    obtain ⟨t, ht, hN, htv⟩ := ih b0 hμb hpb
                    refine ⟨t, ht, hN, fun m => ?_⟩
                    rw [htv m, tv_not_cons, tv_not_cons, knot_knot]
                  · simp at hlen2
                · rw [if_neg hnot2] at hpa
                  by_cases horand2 : op2 = "|" ∨ op2 = "&"
                  · rw [if_pos horand2] at hpa
                    have hμargs : ∀ e ∈ aargs,
                        nnf_measure (Expr.node "~" [e]) ≤ n := by
                      intro e he
                      have h1 : nnf_measure e ≤ nnf_measure_list aargs :=
                        nnf_measure_list_mem_le he
                      have h3 : nnf_measure (Expr.node op2 aargs) =
                          1 + nnf_measure_list aargs := by
                        rw [nnf_measure, if_neg hnot2]
                      have h4 : nnf_measure (Expr.node "~" [e]) =
                          2 * (1 + (nnf_measure e + 0)) := by
                        rw [nnf_measure]
                        simp [nnf_measure_list]
                      rw [h3] at hμ
                      rw [h4]
                      omega
                    have hmni : ∀ e ∈ aargs, ∃ t,
                        move_not_inwards (.node "~" [e]) = .ok t ∧
                        isNNF t = true ∧ ∀ m, tv t m = knot (tv e m) := by
                      intro e he
                      obtain ⟨t, ht, hN, htv⟩ := ih (.node "~" [e])
                        (hμargs e he)
                        (isPF_not1 (isPFList_mem hpa e he))
                      refine ⟨t, ht, hN, fun m => ?_⟩
                      rw [htv m, tv_not_cons]
                    obtain ⟨l2, hl2, hf⟩ := mni_map_not_forall2 hmni
                    rcases horand2 with h5 | h5 <;> subst h5
                    · rw [if_neg (by decide : ¬("|":String) = "&"), if_pos rfl,
                        hl2]
                      refine ⟨_, rfl,
                        isNNF_associate_and (forall2_not_isNNFList hf),
                        fun m => ?_⟩
                      rw [tv_associate_and, forall2_not_tv_and m hf,
                        tv_not_cons, tv_or_node]
                    · rw [if_pos rfl, hl2]
                      refine ⟨_, rfl,
                        isNNF_associate_or (forall2_not_isNNFList hf),
                        fun m => ?_⟩
                      rw [tv_associate_or, forall2_not_tv_or m hf,
                        tv_not_cons, tv_and_node]
                  · rw [if_neg horand2] at hpa
                    cases hpa
          · simp at hlen
        · rw [if_neg hnot] at hp
          rw [if_neg hnot]
          by_cases horand : op = "|" ∨ op = "&"
          · rw [if_pos horand] at hp
            by_cases hempty : args.isEmpty = true
            · rw [if_pos (Or.inr hempty)]
              have hargs0 : args = [] := by
                cases args with
                | nil => rfl
                | cons x t => simp at hempty
              subst hargs0
              refine ⟨_, rfl, ?_, fun m => rfl⟩
              rcases horand with h5 | h5 <;> subst h5
              · exact isNNF_or_of_list (by rw [isNNFList])
              · exact isNNF_and_of_list (by rw [isNNFList])
            · have hsym : ¬is_symbol op = true := by
                rcases horand with h5 | h5 <;> subst h5 <;> decide
              rw [if_neg (by
                intro hc
                rcases hc with hc | hc
                · exact hsym hc
                · exact hempty hc)]
              have hμargs : ∀ e ∈ args, nnf_measure e ≤ n := by
                intro e he
                have h2 : nnf_measure e ≤ nnf_measure_list args :=
                  nnf_measure_list_mem_le he
                have h3 : nnf_measure (Expr.node op args) =
                    1 + nnf_measure_list args := by
                  rw [nnf_measure, if_neg hnot]
                omega
              obtain ⟨l2, hl2, hf⟩ := mni_map_forall2 (fun a ha =>
                ih a (hμargs a ha) (isPFList_mem hp a ha))
              rw [hl2]
              rcases horand with h5 | h5 <;> subst h5
              · refine ⟨_, rfl, isNNF_or_of_list (forall2_isNNFList hf),
                  fun m => ?_⟩
                rw [tv_or_node, tv_or_node]
                exact forall2_nnf_tv_or m hf
              · refine ⟨_, rfl, isNNF_and_of_list (forall2_isNNFList hf),
                  fun m => ?_⟩
                rw [tv_and_node, tv_and_node]
                exact forall2_nnf_tv_and m hf
          · rw [if_neg horand] at hp
            cases hp

theorem kor_left_comm : ∀ a b c : Option Bool,
    kor a (kor b c) = kor b (kor a c) := by decide

theorem attach_map_expr (l : List Expr) (f : Expr → Expr) :
    l.attach.map (fun a => f a.1) = l.map f := by
  simp

theorem attach_map_dist (l : List Expr) (R : Expr) :
    l.attach.map (fun c => distribute_and_over_or (.node "|" [c.1, R])) =
      l.map (fun c => distribute_and_over_or (.node "|" [c, R])) := by
  simp

theorem splitFirstConj_none {l : List Expr} (h : splitFirstConj l = none) :
    ∀ x ∈ l, ∀ c2, x ≠ .node "&" c2 := by
  induction l with
  | nil => intro x hx; cases hx
  | cons a rest ih =>
    rw [splitFirstConj] at h
    cases handA : andArgs a with
    | some c => rw [handA] at h; cases h
    | none =>
      rw [handA] at h
      cases hr : splitFirstConj rest with
      | some co =>
        rcases co with ⟨c, o⟩
        rw [hr] at h
        cases h
      | none =>
        intro x hx c2
        rcases List.mem_cons.mp hx with h1 | h1
        · subst h1; exact andArgs_eq_none.mp handA c2
        · exact ih hr x h1 c2

theorem isLit_const (b : Bool) : isLit (.const b) = true := rfl

theorem isClause_const (b : Bool) : isClause (.const b) = true := rfl

theorem isCNF_const (b : Bool) : isCNF (.const b) = true := rfl

theorem isClause_node (op : String) (args : List Expr) :
    isClause (.node op args) = (isLit (.node op args) ||
      (decide (op = "|") && isLitList args && decide (2 ≤ args.length))) := rfl

theorem isCNF_node (op : String) (args : List Expr) :
    isCNF (.node op args) = (isClause (.node op args) ||
      (decide (op = "&") && isClauseList args && decide (2 ≤ args.length))) := rfl

theorem isClause_of_isLit {x : Expr} (h : isLit x = true) :
    isClause x = true := by
  cases x with
  | const b => exact isClause_const b
  | node op args => rw [isClause_node, h, Bool.true_or]

theorem isCNF_of_isClause {x : Expr} (h : isClause x = true) :
    isCNF x = true := by
  cases x with
  | const b => exact isCNF_const b
  | node op args => rw [isCNF_node, h, Bool.true_or]

theorem isLitList_mem {l : List Expr} (h : isLitList l = true) :
    ∀ a ∈ l, isLit a = true := by
  induction l with
  | nil => intro a ha; cases ha
  | cons x rest ih =>
    rw [isLitList] at h
    simp only [Bool.and_eq_true] at h
    intro a ha
    rcases List.mem_cons.mp ha with h1 | h1
    · subst h1; exact h.1
    · exact ih h.2 a h1

theorem isLitList_of_mem {l : List Expr} (h : ∀ a ∈ l, isLit a = true) :
    isLitList l = true := by
  induction l with
  | nil => rw [isLitList]
  | cons x rest ih =>
    rw [isLitList]
    simp only [Bool.and_eq_true]
    exact ⟨h x (List.mem_cons_self x rest),
      ih (fun a ha => h a (List.mem_cons_of_mem x ha))⟩

theorem isClauseList_mem {l : List Expr} (h : isClauseList l = true) :
    ∀ a ∈ l, isClause a = true := by
  induction l with
  | nil => intro a ha; cases ha
  | cons x rest ih =>
    rw [isClauseList] at h
    simp only [Bool.and_eq_true] at h
    intro a ha
    rcases List.mem_cons.mp ha with h1 | h1
    · subst h1; exact h.1
    · exact ih h.2 a h1

theorem isClauseList_of_mem {l : List Expr} (h : ∀ a ∈ l, isClause a = true) :
    isClauseList l = true := by
  induction l with
  | nil => rw [isClauseList]
  | cons x rest ih =>
    rw [isClauseList]
    simp only [Bool.and_eq_true]
    exact ⟨h x (List.mem_cons_self x rest),
      ih (fun a ha => h a (List.mem_cons_of_mem x ha))⟩

theorem isClause_node_or {args : List Expr} (hl : isLitList args = true)
    (hlen : 2 ≤ args.length) : isClause (.node "|" args) = true := by
  rw [isClause_node]
  simp [hl, hlen]

theorem isCNF_node_and {args : List Expr} (hl : isClauseList args = true)
    (hlen : 2 ≤ args.length) : isCNF (.node "&" args) = true := by
  rw [isCNF_node]
  simp [hl, hlen]

theorem isClause_ne_and {x : Expr} (h : isClause x = true) :
    ∀ c2, x ≠ .node "&" c2 := by
  intro c2 hc
  subst hc
  rw [isClause_node] at h
  rw [isLit, if_neg (by decide), if_neg (by decide)] at h
  simp at h

theorem isLit_of_nnf {x : Expr} (hn : isNNF x = true)
    (hbar : ∀ a2, x ≠ .node "|" a2) (hand : ∀ c2, x ≠ .node "&" c2) :
    isLit x = true := by
  cases x with
  | const b => rw [isLit]
  | node op args =>
    rw [isNNF] at hn
    rw [isLit]
    by_cases hps : is_prop_symbol op = true
    · rw [if_pos hps] at hn ⊢
      exact hn
    · rw [if_neg hps] at hn ⊢
      by_cases hneg : op = "~"
      · rw [if_pos hneg] at hn ⊢
        exact hn
      · rw [if_neg hneg] at hn
        rw [if_neg hneg]
        rcases em (op = "|" ∨ op = "&") with horb | horb
        · rcases horb with h5 | h5 <;> subst h5
          · exact absurd rfl (hbar args)
          · exact absurd rfl (hand args)
        · rw [if_neg horb] at hn
          cases hn

theorem isClause_of_mem_dissoc1_and {x : Expr} (h : isCNF x = true) :
    ∀ y ∈ dissoc1 "&" x, isClause y = true := by
  cases x with
  | const b =>
    intro y hy
    rw [dissoc1] at hy
    simp at hy
    subst hy
    exact isClause_const b
  | node op args =>
    rw [isCNF_node] at h
    simp only [Bool.or_eq_true, Bool.and_eq_true, decide_eq_true_eq] at h
    rcases h with hcl | ⟨⟨hop, hcll⟩, hlen⟩
    · rw [dissoc1_eq_self (isClause_ne_and hcl)]
      intro y hy
      simp at hy
      subst hy
      exact hcl
    · subst hop
      rw [dissoc1, if_pos rfl]
      rw [dissociate_eq_self (fun z hz =>
        isClause_ne_and (isClauseList_mem hcll z hz))]
      exact isClauseList_mem hcll

theorem isClause_dissociate_and {l : List Expr}
    (h : ∀ x ∈ l, isCNF x = true) :
    ∀ y ∈ dissociate "&" l, isClause y = true := by
  induction l with
  | nil => intro y hy; rw [dissociate] at hy; cases hy
  | cons a rest ih =>
    intro y hy
    rw [dissociate] at hy
    rcases List.mem_append.mp hy with hm | hm
    · exact isClause_of_mem_dissoc1_and (h a (List.mem_cons_self a rest)) y hm
    · exact ih (fun x hx => h x (List.mem_cons_of_mem a hx)) y hm

theorem isCNF_associate_and {l : List Expr} (h : ∀ x ∈ l, isCNF x = true) :
    isCNF (associate "&" l) = true := by
  have hcl := isClause_dissociate_and h
  unfold associate
  rcases hd : dissociate "&" l with _ | ⟨a, _ | ⟨b, t⟩⟩
  · exact isCNF_const true
  · exact isCNF_of_isClause (hcl a (by rw [hd]; exact List.mem_singleton.mpr rfl))
  · apply isCNF_node_and
    · exact isClauseList_of_mem (fun y hy => hcl y (by rw [hd]; exact hy))
    · simp

theorem tv_and_map_congr {l : List Expr} {F : Expr → Expr} {m : Model}
    (h : ∀ a ∈ l, tv (F a) m = tv a m) :
    tv_and (l.map F) m = tv_and l m := by
  induction l with
  | nil => rw [List.map_nil]
  | cons a rest ih =>
    rw [List.map_cons, tv_and_cons, tv_and_cons,
      h a (List.mem_cons_self a rest),
      ih (fun x hx => h x (List.mem_cons_of_mem a hx))]

theorem tv_and_map_kor {l : List Expr} {F : Expr → Expr} {m : Model}
    {R : Option Bool} (h : ∀ c ∈ l, tv (F c) m = kor (tv c m) R) :
    tv_and (l.map F) m = kor (tv_and l m) R := by
  induction l with
  | nil =>
    rw [List.map_nil, tv_and_nil, kor_true_left]
  | cons c rest ih =>
    rw [List.map_cons, tv_and_cons, tv_and_cons,
      h c (List.mem_cons_self c rest),
      ih (fun x hx => h x (List.mem_cons_of_mem c hx))]
    exact (kor_kand_distrib _ _ _).symm

theorem dist_correct : ∀ n s, dmu s ≤ n → isNNF s = true →
    isCNF (distribute_and_over_or s) = true ∧
    ∀ m, tv (distribute_and_over_or s) m = tv s m := by
  intro n
  induction n with
  | zero =>
    intro s hw hnn
    cases s with
    | const b =>
      rw [distribute_and_over_or]
      exact ⟨isCNF_const b, fun m => rfl⟩
    | node op args =>
      rw [dmu] at hw
      split at hw <;> omega
  | succ n ih =>
    intro s hw hnn
    cases s with
    | const b =>
      rw [distribute_and_over_or]
      exact ⟨isCNF_const b, fun m => rfl⟩
    | node op args =>
      rw [isNNF] at hnn
      by_cases hps : is_prop_symbol op = true
      · rw [if_pos hps] at hnn
        have h1 : ¬op = "|" := fun hc => by subst hc; exact absurd hps (by decide)
        have h2 : ¬op = "&" := fun hc => by subst hc; exact absurd hps (by decide)
        rw [distribute_and_over_or, dif_neg h1, if_neg h2]
        refine ⟨?_, fun m => rfl⟩
        apply isCNF_of_isClause
        apply isClause_of_isLit
        rw [isLit, if_pos hps]
        exact hnn
      · rw [if_neg hps] at hnn
        by_cases hneg : op = "~"
        · rw [if_pos hneg] at hnn
          subst hneg
          rw [distribute_and_over_or, dif_neg (by decide : ¬("~":String) = "|"),
            if_neg (by decide : ¬("~":String) = "&")]
          refine ⟨?_, fun m => rfl⟩
          apply isCNF_of_isClause
          apply isClause_of_isLit
          rw [isLit, if_neg (by decide), if_pos rfl]
          exact hnn
        · rw [if_neg hneg] at hnn
          by_cases hbar : op = "|"
          · rw [if_pos (Or.inl hbar)] at hnn
            subst hbar
            rw [distribute_and_over_or, dif_pos rfl]
            split
            · rename_i b heq
              rw [distribute_and_over_or]
              refine ⟨isCNF_const b, fun m => ?_⟩
              rcases associate_or_cases args with ⟨he, hd⟩ | ⟨a, hd, he⟩ | ⟨he, _⟩
              · rw [he] at heq
                injection heq with hb
                subst hb
                rw [tv_const, tv_or_node, ← tv_or_dissociate, hd, tv_or_nil]
              · rw [he] at heq
                subst heq
                rw [tv_const, tv_or_node, ← tv_or_dissociate, hd, tv_or_cons,
                  tv_or_nil, tv_const, kor_false_right]
              · rw [he] at heq
                cases heq
            · rename_i op2 args2 heq
              by_cases h2 : op2 = "|"
              · subst h2
                obtain ⟨hd2, hlen2⟩ := associate_or_bar args args2 heq
                rw [dif_pos rfl, dif_neg (by omega : ¬args2.length = 0),
                  dif_neg (by omega : ¬args2.length = 1)]
                split
                · rename_i hnone
                  have hnnl2 : isNNFList args2 = true := by
                    rw [hd2]
                    exact isNNFList_dissociate_or hnn
                  have hlits : isLitList args2 = true := by
                    apply isLitList_of_mem
                    intro x hx
                    apply isLit_of_nnf (isNNFList_mem hnnl2 x hx)
                    · intro a2
                      rw [hd2] at hx
                      exact dissociate_ne_opnode "|" args x hx a2
                    · exact splitFirstConj_none hnone x hx
                  refine ⟨isCNF_of_isClause (isClause_node_or hlits hlen2),
                    fun m => ?_⟩
                  rw [tv_or_node, tv_or_node, hd2, tv_or_dissociate]
                · rename_i cargs others hsp
                  rw [attach_map_dist]
                  have hnnl2 : isNNFList args2 = true := by
                    rw [hd2]
                    exact isNNFList_dissociate_or hnn
                  obtain ⟨pre, suf, hsplit, hoth, hpre⟩ := splitFirstConj_decomp hsp
                  have hmemand : Expr.node "&" cargs ∈ args2 := by
                    rw [hsplit]
                    exact List.mem_append.mpr (Or.inr (List.mem_cons_self _ _))
                  have hnncargs : isNNFList cargs = true := by
                    have h5 := isNNFList_mem hnnl2 _ hmemand
                    rw [isNNF, if_neg (by decide), if_neg (by decide),
                      if_pos (by decide : ("&":String) = "|" ∨ ("&":String) = "&")] at h5
                    exact h5
                  have hnnoth : isNNFList others = true := by
                    apply isNNFList_iff.mpr
                    intro a ha
                    apply isNNFList_mem hnnl2
                    rw [hsplit]
                    rw [hoth] at ha
                    rcases List.mem_append.mp ha with h5 | h5
                    · exact List.mem_append.mpr (Or.inl h5)
                    · exact List.mem_append.mpr
                        (Or.inr (List.mem_cons_of_mem _ h5))
                  have hnnassoc : isNNF (associate "|" others) = true :=
                    isNNF_associate_or hnnoth
                  have hdmu2 : dmu_list args2 ≤ dmu_list args := by
                    rw [hd2]
                    exact dmu_dissociate_le "|" args
                  have hsplitdmu := splitFirstConj_dmu hsp
                  have hwargs : dmu_list args ≤ n := by
                    rw [dmu, if_pos rfl] at hw
                    omega
                  have hdmC : ∀ c ∈ cargs,
                      dmu (Expr.node "|" [c, associate "|" others]) ≤ n := by
                    intro c hc
                    have h5 := dmu_list_mem_le hc
                    have h6 := dmu_associate_or_le others
                    have h7 : dmu (Expr.node "|" [c, associate "|" others]) =
                        1 + (dmu c + (dmu (associate "|" others) + 0)) := by
                      rw [dmu, if_pos rfl, dmu_list, dmu_list, dmu_list]
                    omega
                  have hptC : ∀ c ∈ cargs,
                      isCNF (distribute_and_over_or
                        (.node "|" [c, associate "|" others])) = true ∧
                      ∀ m, tv (distribute_and_over_or
                        (.node "|" [c, associate "|" others])) m =
                          kor (tv c m) (tv_or others m) := by
                    intro c hc
                    have hnnc : isNNF (Expr.node "|" [c, associate "|" others]) = true := by
                      apply isNNF_or_of_list
                      rw [isNNFList, isNNFList, isNNFList]
                      simp [isNNFList_mem hnncargs c hc, hnnassoc]
                    obtain ⟨hC, htv⟩ := ih _ (hdmC c hc) hnnc
                    refine ⟨hC, fun m => ?_⟩
                    rw [htv m, tv_or_node, tv_or_cons, tv_or_cons, tv_or_nil,
                      kor_false_right, tv_associate_or]
                  constructor
                  · apply isCNF_associate_and
                    intro y hy
                    obtain ⟨c, hc, rfl⟩ := List.mem_map.mp hy
                    exact (hptC c hc).1
                  · intro m
                    rw [tv_associate_and,
                      tv_and_map_kor (fun c hc => (hptC c hc).2 m)]
                    rw [tv_or_node, ← tv_or_dissociate args m, ← hd2, hsplit]
                    have hL : tv_or others m = kor (tv_or pre m) (tv_or suf m) := by
                      rw [hoth, tv_or_append]
                    have hR : tv_or (pre ++ Expr.node "&" cargs :: suf) m =
                        kor (tv_or pre m) (kor (tv_and cargs m) (tv_or suf m)) := by
                      rw [tv_or_append, tv_or_cons, tv_and_node]
                    rw [hL, hR, kor_left_comm]
              · rw [dif_neg h2]
                rcases associate_or_cases args with ⟨he, hd⟩ | ⟨a, hd, he⟩ | ⟨he, _⟩
                · rw [he] at heq
                  cases heq
                · rw [he] at heq
                  have hmem : a ∈ dissociate "|" args := by
                    rw [hd]
                    exact List.mem_singleton.mpr rfl
                  have hnna : isNNF (Expr.node op2 args2) = true := by
                    rw [← heq]
                    exact isNNFList_mem (isNNFList_dissociate_or hnn) a hmem
                  have hdm : dmu (Expr.node op2 args2) ≤ n := by
                    have h3 := associate_or_ne_bar args op2 args2 (he.trans heq) h2
                    rw [dmu, if_pos rfl] at hw
                    omega
                  obtain ⟨hC, htv⟩ := ih (Expr.node op2 args2) hdm hnna
                  refine ⟨hC, fun m => ?_⟩
                  rw [htv m, tv_or_node, ← tv_or_dissociate, hd, tv_or_cons,
                    tv_or_nil, kor_false_right, heq]
                · rw [he] at heq
                  injection heq with h3 _
                  exact absurd h3.symm h2
          · by_cases hand : op = "&"
            · rw [if_pos (Or.inr hand)] at hnn
              subst hand
              rw [distribute_and_over_or,
                dif_neg (by decide : ¬("&":String) = "|"), if_pos rfl]
              rw [attach_map_expr]
              have hdm : ∀ a ∈ args, dmu a ≤ n := by
                intro a ha
                have h3 := dmu_list_mem_le ha
                rw [dmu, if_neg (by decide : ¬("&":String) = "|")] at hw
                omega
              have hpt : ∀ a ∈ args,
                  isCNF (distribute_and_over_or a) = true ∧
                  ∀ m, tv (distribute_and_over_or a) m = tv a m :=
                fun a ha => ih a (hdm a ha) (isNNFList_mem hnn a ha)
              constructor
              · apply isCNF_associate_and
                intro y hy
                obtain ⟨a, ha, rfl⟩ := List.mem_map.mp hy
                exact (hpt a ha).1
              · intro m
                rw [tv_associate_and, tv_and_node,
                  tv_and_map_congr (fun a ha => (hpt a ha).2 m)]
            · rw [if_neg (show ¬(op = "|" ∨ op = "&") from
                fun hc => hc.elim hbar hand)] at hnn
              cases hnn

theorem isNegAtomArgs_eq {l : List Expr} (h : isNegAtomArgs l = true) :
    ∃ a, l = [a] ∧ isAtomB a = true := by
  cases l with
  | nil => exact Bool.noConfusion h
  | cons a rest =>
    cases rest with
    | nil => exact ⟨a, rfl, h⟩
    | cons b t => exact Bool.noConfusion h

theorem isProper_of_isAtomB {x : Expr} (h : isAtomB x = true) :
    isProper x = true := by
  cases x with
  | const b => rw [isProper]
  | node op args =>
    rw [isAtomB] at h
    simp only [Bool.and_eq_true] at h
    rw [isProper, if_pos h.1]
    exact h.2

theorem isProper_bar_of_list {args : List Expr}
    (h : isProperList args = true) : isProper (.node "|" args) = true := by
  rw [isProper, if_neg (by decide), if_neg (by decide),
    if_pos (by decide : ("|":String) = "|" ∨ ("|":String) = "&")]
  exact h

theorem isProper_amp_of_list {args : List Expr}
    (h : isProperList args = true) : isProper (.node "&" args) = true := by
  rw [isProper, if_neg (by decide), if_neg (by decide),
    if_pos (by decide : ("&":String) = "|" ∨ ("&":String) = "&")]
  exact h

theorem isProper_of_isLit {x : Expr} (h : isLit x = true) :
    isProper x = true := by
  cases x with
  | const b => rw [isProper]
  | node op args =>
    rw [isLit] at h
    by_cases hps : is_prop_symbol op = true
    · rw [if_pos hps] at h
      rw [isProper, if_pos hps]
      exact h
    · rw [if_neg hps] at h
      by_cases hneg : op = "~"
      · rw [if_pos hneg] at h
        subst hneg
        obtain ⟨a, rfl, hA⟩ := isNegAtomArgs_eq h
        rw [isProper, if_neg hps, if_pos rfl]
        simp only [Bool.and_eq_true]
        refine ⟨by simp, ?_⟩
        rw [isProperList, isProperList]
        simp [isProper_of_isAtomB hA]
      · rw [if_neg hneg] at h
        cases h

theorem isProper_of_isClause {x : Expr} (h : isClause x = true) :
    isProper x = true := by
  cases x with
  | const b => rw [isProper]
  | node op args =>
    rw [isClause_node] at h
    simp only [Bool.or_eq_true, Bool.and_eq_true, decide_eq_true_eq] at h
    rcases h with hlit | ⟨⟨hop, hll⟩, _⟩
    · exact isProper_of_isLit hlit
    · subst hop
      apply isProper_bar_of_list
      exact isProperList_iff.mpr
        (fun a ha => isProper_of_isLit (isLitList_mem hll a ha))

theorem isProper_of_isCNF {x : Expr} (h : isCNF x = true) :
    isProper x = true := by
  cases x with
  | const b => rw [isProper]
  | node op args =>
    rw [isCNF_node] at h
    simp only [Bool.or_eq_true, Bool.and_eq_true, decide_eq_true_eq] at h
    rcases h with hcl | ⟨⟨hop, hcll⟩, _⟩
    · exact isProper_of_isClause hcl
    · subst hop
      apply isProper_amp_of_list
      exact isProperList_iff.mpr
        (fun a ha => isProper_of_isClause (isClauseList_mem hcll a ha))

/-- The three-stage pipeline, assembled: on a proper sentence `to_cnf`
succeeds, the result is CNF-shaped, and the Kleene value is preserved at
every model. -/
theorem to_cnf_correct {s : Expr} (hs : isProper s = true) :
    ∃ t, to_cnf s = .ok t ∧ isCNF t = true ∧ ∀ m, tv t m = tv s m := by
  obtain ⟨t1, ht1, hpf1, htv1⟩ := elim_correct (pweight s) s le_rfl hs
  obtain ⟨t2, ht2, hnn2, htv2⟩ := move_correct (nnf_measure t1) t1 le_rfl hpf1
  obtain ⟨hcnf, htv3⟩ := dist_correct (dmu t2) t2 le_rfl hnn2
  refine ⟨distribute_and_over_or t2, ?_, hcnf, fun m => ?_⟩
  · simp only [to_cnf, ht1, ht2]
  · rw [htv3 m, htv2 m, htv1 m]

/-- C1: for every sentence of the evaluator's grammar (boolean constants,
proposition symbols, `~`, n-ary `&`/`|`, and the binary forms of
`>>`/`==>`, `<<`/`<==`, `<=>`, `^`) and every assignment that binds every
proposition symbol of the sentence, `to_cnf` succeeds and `pl_true` gives
the same result on the input and on its CNF: `to_cnf` preserves the
evaluator's semantics. -/
theorem to_cnf_preserves_semantics (s : Expr) (m : Model)
    (hs : isProper s = true)
    (hm : ∀ p ∈ prop_symbols s, m p ≠ none) :
    ∃ t, to_cnf s = .ok t ∧ pl_true t m = pl_true s m := by
  obtain ⟨t, ht, hcnf, htv⟩ := to_cnf_correct hs
  refine ⟨t, ht, ?_⟩
  rw [pl_true_eq_tv (isProper_of_isCNF hcnf) m, pl_true_eq_tv hs m, htv m]

theorem isProper_impPQ :
    isProper (Expr.node "==>" [Expr.node "P" [], Expr.node "Q" []]) = true := by
  simp [isProper, isProperList,
    show is_prop_symbol "==>" = false from by decide,
    show is_prop_symbol "P" = true from by decide,
    show is_prop_symbol "Q" = true from by decide]

theorem prop_symbols_impPQ :
    prop_symbols (Expr.node "==>" [Expr.node "P" [], Expr.node "Q" []]) =
      [Expr.node "P" [], Expr.node "Q" []] := by
  simp only [prop_symbols, prop_symbols_list,
    show is_prop_symbol "==>" = false from by decide,
    show is_prop_symbol "P" = true from by decide,
    show is_prop_symbol "Q" = true from by decide]
  decide

theorem model_PQ_total :
    ∀ p ∈ prop_symbols (Expr.node "==>" [Expr.node "P" [], Expr.node "Q" []]),
      (fun e => if e = Expr.node "P" [] then some true
        else if e = Expr.node "Q" [] then some false
        else (none : Option Bool)) p ≠ none := by
  intro p hp
  rw [prop_symbols_impPQ] at hp
  rcases List.mem_cons.mp hp with rfl | hp2
  · simp
  · rcases List.mem_cons.mp hp2 with rfl | hp3
    · simp
    · cases hp3

/-- Witness for the C1 theorem: the sentence `P ==> Q` under the
assignment `{P: true, Q: false}`. -/
theorem to_cnf_preserves_semantics_witness :
    (isProper (Expr.node "==>" [Expr.node "P" [], Expr.node "Q" []]) = true) ∧
    (∀ p ∈ prop_symbols (Expr.node "==>" [Expr.node "P" [], Expr.node "Q" []]),
      (fun e => if e = Expr.node "P" [] then some true
        else if e = Expr.node "Q" [] then some false
        else (none : Option Bool)) p ≠ none) ∧
    ∃ t, to_cnf (Expr.node "==>" [Expr.node "P" [], Expr.node "Q" []]) = .ok t ∧
      pl_true t (fun e => if e = Expr.node "P" [] then some true
        else if e = Expr.node "Q" [] then some false
        else (none : Option Bool)) =
      pl_true (Expr.node "==>" [Expr.node "P" [], Expr.node "Q" []])
        (fun e => if e = Expr.node "P" [] then some true
          else if e = Expr.node "Q" [] then some false
          else (none : Option Bool)) :=
  ⟨isProper_impPQ, model_PQ_total,
    to_cnf_preserves_semantics _ _ isProper_impPQ model_PQ_total⟩

theorem isNNF_of_isLit {x : Expr} (h : isLit x = true) : isNNF x = true := by
  cases x with
  | const b => rw [isNNF]
  | node op args =>
    rw [isLit] at h
    rw [isNNF]
    by_cases hps : is_prop_symbol op = true
    · rw [if_pos hps] at h ⊢
      exact h
    · rw [if_neg hps] at h ⊢
      by_cases hneg : op = "~"
      · rw [if_pos hneg] at h ⊢
        exact h
      · rw [if_neg hneg] at h
        cases h

theorem isNNF_of_isClause {x : Expr} (h : isClause x = true) :
    isNNF x = true := by
  cases x with
  | const b => rw [isNNF]
  | node op args =>
    rw [isClause_node] at h
    simp only [Bool.or_eq_true, Bool.and_eq_true, decide_eq_true_eq] at h
    rcases h with hlit | ⟨⟨hop, hll⟩, _⟩
    · exact isNNF_of_isLit hlit
    · subst hop
      exact isNNF_or_of_list (isNNFList_iff.mpr
        (fun a ha => isNNF_of_isLit (isLitList_mem hll a ha)))

theorem isNNF_of_isCNF {x : Expr} (h : isCNF x = true) : isNNF x = true := by
  cases x with
  | const b => rw [isNNF]
  | node op args =>
    rw [isCNF_node] at h
    simp only [Bool.or_eq_true, Bool.and_eq_true, decide_eq_true_eq] at h
    rcases h with hcl | ⟨⟨hop, hcll⟩, _⟩
    · exact isNNF_of_isClause hcl
    · subst hop
      exact isNNF_and_of_list (isNNFList_iff.mpr
        (fun a ha => isNNF_of_isClause (isClauseList_mem hcll a ha)))

theorem isPF_of_isAtomB {x : Expr} (h : isAtomB x = true) : isPF x = true := by
  cases x with
  | const b => rw [isPF]
  | node op args =>
    rw [isAtomB] at h
    simp only [Bool.and_eq_true] at h
    rw [isPF, if_pos h.1]
    exact h.2

theorem isPF_of_isNNF : ∀ x, isNNF x = true → isPF x = true := by
  intro x
  induction x using Expr.my_induction with
  | hconst b => intro h; rw [isPF]
  | hnode op args ih =>
    intro h
    rw [isNNF] at h
    rw [isPF]
    by_cases hps : is_prop_symbol op = true
    · rw [if_pos hps] at h ⊢
      exact h
    · rw [if_neg hps] at h ⊢
      by_cases hneg : op = "~"
      · rw [if_pos hneg] at h ⊢
        obtain ⟨a, rfl, hA⟩ := isNegAtomArgs_eq h
        simp only [Bool.and_eq_true]
        refine ⟨by simp, ?_⟩
        rw [isPFList, isPFList]
        simp [isPF_of_isAtomB hA]
      · rw [if_neg hneg] at h ⊢
        by_cases horb : op = "|" ∨ op = "&"
        · rw [if_pos horb] at h ⊢
          exact isPFList_iff.mpr
            (fun a ha => ih a ha (isNNFList_mem h a ha))
        · rw [if_neg horb] at h
          cases h

theorem map_id_of_mem {l : List Expr} {f : Expr → Expr}
    (h : ∀ a ∈ l, f a = a) : l.map f = l := by
  induction l with
  | nil => rfl
  | cons a rest ih =>
    rw [List.map_cons, h a (List.mem_cons_self a rest),
      ih (fun x hx => h x (List.mem_cons_of_mem a hx))]

theorem elim_list_id {l : List Expr}
    (h : ∀ a ∈ l, eliminate_implications a = .ok a) : elim_list l = .ok l := by
  induction l with
  | nil => rw [elim_list]
  | cons a rest ih =>
    rw [elim_list, h a (List.mem_cons_self a rest),
      ih (fun x hx => h x (List.mem_cons_of_mem a hx))]

theorem elim_id : ∀ x, isPF x = true → eliminate_implications x = .ok x := by
  intro x
  induction x using Expr.my_induction with
  | hconst b => intro h; rw [eliminate_implications]
  | hnode op args ih =>
    intro h
    rw [isPF] at h
    rw [eliminate_implications]
    by_cases hps : is_prop_symbol op = true
    · rw [if_pos (Or.inr (is_symbol_of_prop hps))]
    · rw [if_neg hps] at h
      by_cases hneg : op = "~"
      · rw [if_pos hneg] at h
        subst hneg
        simp only [Bool.and_eq_true, decide_eq_true_eq] at h
        obtain ⟨hlen, hpl⟩ := h
        rcases args with _ | ⟨a, _ | ⟨b, t⟩⟩
        · simp at hlen
        · rw [if_neg (by
            intro hc
            rcases hc with hc | hc
            · simp at hc
            · exact absurd hc (by decide))]
          rw [elim_list_id (fun x hx => ih x hx (isPFList_mem hpl x hx))]
          rfl
        · simp at hlen
      · rw [if_neg hneg] at h
        by_cases horb : op = "|" ∨ op = "&"
        · rw [if_pos horb] at h
          by_cases hemp : args.isEmpty = true
          · rw [if_pos (Or.inl hemp)]
          · have hsym : ¬is_symbol op = true := by
              rcases horb with h5 | h5 <;> subst h5 <;> decide
            rw [if_neg (by
              intro hc
              rcases hc with hc | hc
              · exact hemp hc
              · exact hsym hc)]
            rw [elim_list_id (fun x hx => ih x hx (isPFList_mem h x hx))]
            rcases args with _ | ⟨a, rest⟩
            · simp at hemp
            · rcases horb with h5 | h5 <;> subst h5 <;> rfl
        · rw [if_neg horb] at h
          cases h

theorem mni_map_id {l : List Expr}
    (h : ∀ a ∈ l, move_not_inwards a = .ok a) : mni_map l = .ok l := by
  induction l with
  | nil => rw [mni_map]
  | cons a rest ih =>
    rw [mni_map, h a (List.mem_cons_self a rest),
      ih (fun x hx => h x (List.mem_cons_of_mem a hx))]

theorem move_id : ∀ x, isNNF x = true → move_not_inwards x = .ok x := by
  intro x
  induction x using Expr.my_induction with
  | hconst b => intro h; rw [move_not_inwards]
  | hnode op args ih =>
    intro h
    rw [isNNF] at h
    rw [move_not_inwards]
    by_cases hps : is_prop_symbol op = true
    · rw [if_pos hps] at h
      have hneg : ¬op = "~" := fun hc => by
        subst hc; exact absurd hps (by decide)
      rw [if_neg hneg, if_pos (Or.inl (is_symbol_of_prop hps))]
    · rw [if_neg hps] at h
      by_cases hneg : op = "~"
      · rw [if_pos hneg] at h
        subst hneg
        rw [if_pos rfl]
        obtain ⟨a, rfl, hA⟩ := isNegAtomArgs_eq h
        rw [mni_neg]
        cases a with
        | const b => rw [mni_neg1]
        | node op2 args2 =>
          rw [isAtomB] at hA
          simp only [Bool.and_eq_true] at hA
          have h2 : ¬op2 = "~" := fun hc => by
            subst hc; exact absurd hA.1 (by decide)
          have h3 : ¬op2 = "&" := fun hc => by
            subst hc; exact absurd hA.1 (by decide)
          have h4 : ¬op2 = "|" := fun hc => by
            subst hc; exact absurd hA.1 (by decide)
          rw [mni_neg1, if_neg h2, if_neg h3, if_neg h4]
      · rw [if_neg hneg] at h
        rw [if_neg hneg]
        by_cases horb : op = "|" ∨ op = "&"
        · rw [if_pos horb] at h
          by_cases hemp : args.isEmpty = true
          · rw [if_pos (Or.inr hemp)]
          · have hsym : ¬is_symbol op = true := by
              rcases horb with h5 | h5 <;> subst h5 <;> decide
            rw [if_neg (by
              intro hc
              rcases hc with hc | hc
              · exact hsym hc
              · exact hemp hc)]
            rw [mni_map_id (fun x hx => ih x hx (isNNFList_mem h x hx))]
        · rw [if_neg horb] at h
          cases h

theorem splitFirstConj_eq_none {l : List Expr}
    (h : ∀ x ∈ l, ∀ c2, x ≠ .node "&" c2) : splitFirstConj l = none := by
  induction l with
  | nil => rw [splitFirstConj]
  | cons a rest ih =>
    rw [splitFirstConj,
      andArgs_eq_none.mpr (h a (List.mem_cons_self a rest)),
      ih (fun x hx => h x (List.mem_cons_of_mem a hx))]

theorem isLit_ne_bar {x : Expr} (h : isLit x = true) :
    ∀ a2, x ≠ .node "|" a2 := by
  intro a2 hc
  subst hc
  rw [isLit, if_neg (by decide), if_neg (by decide)] at h
  cases h

theorem associate_eq_node {op : String} {args : List Expr}
    (hd : dissociate op args = args) (hlen : 2 ≤ args.length) :
    associate op args = .node op args := by
  unfold associate
  rw [hd]
  rcases args with _ | ⟨x, _ | ⟨y, r⟩⟩
  · simp at hlen
  · simp at hlen
  · rfl

theorem dist_id_clause {t : Expr} (h : isClause t = true) :
    distribute_and_over_or t = t := by
  cases t with
  | const b => rw [distribute_and_over_or]
  | node op args =>
    rw [isClause_node] at h
    simp only [Bool.or_eq_true, Bool.and_eq_true, decide_eq_true_eq] at h
    rcases h with hlit | ⟨⟨hop, hll⟩, hlen⟩
    · have h1 : ¬op = "|" := fun hc => isLit_ne_bar hlit args (by rw [hc])
      have h2 : ¬op = "&" := fun hc =>
        isClause_ne_and (isClause_of_isLit hlit) args (by rw [hc])
      rw [distribute_and_over_or, dif_neg h1, if_neg h2]
    · subst hop
      rw [distribute_and_over_or, dif_pos rfl]
      have hdis : dissociate "|" args = args :=
        dissociate_eq_self (fun x hx => isLit_ne_bar (isLitList_mem hll x hx))
      have hassoc : associate "|" args = .node "|" args :=
        associate_eq_node hdis hlen
      split
      · rename_i b heq
        rw [hassoc] at heq
        cases heq
      · rename_i op2 args2 heq
        rw [hassoc] at heq
        injection heq with e1 e2
        subst e1
        subst e2
        rw [dif_pos rfl, dif_neg (by omega), dif_neg (by omega)]
        split
        · rfl
        · rename_i cargs others hsp
          rw [splitFirstConj_eq_none (fun x hx =>
            isClause_ne_and (isClause_of_isLit (isLitList_mem hll x hx)))] at hsp
          cases hsp

theorem dist_id {t : Expr} (h : isCNF t = true) :
    distribute_and_over_or t = t := by
  cases t with
  | const b => rw [distribute_and_over_or]
  | node op args =>
    rw [isCNF_node] at h
    simp only [Bool.or_eq_true, Bool.and_eq_true, decide_eq_true_eq] at h
    rcases h with hcl | ⟨⟨hop, hcll⟩, hlen⟩
    · exact dist_id_clause hcl
    · subst hop
      rw [distribute_and_over_or, dif_neg (by decide : ¬("&":String) = "|"),
        if_pos rfl, attach_map_expr,
        map_id_of_mem (fun a ha => dist_id_clause (isClauseList_mem hcll a ha))]
      exact associate_eq_node
        (dissociate_eq_self (fun x hx =>
          isClause_ne_and (isClauseList_mem hcll x hx))) hlen

/-- C8: on every sentence of the evaluator's grammar `to_cnf` succeeds, and
running `to_cnf` again on the result returns it unchanged — `to_cnf` is
idempotent up to structural equality. -/
theorem to_cnf_idempotent (s : Expr) (hs : isProper s = true) :
    ∃ t, to_cnf s = .ok t ∧ to_cnf t = .ok t := by
  obtain ⟨t, ht, hcnf, _⟩ := to_cnf_correct hs
  refine ⟨t, ht, ?_⟩
  simp only [to_cnf,
    elim_id t (isPF_of_isNNF t (isNNF_of_isCNF hcnf)),
    move_id t (isNNF_of_isCNF hcnf),
    dist_id hcnf]

/-- Witness for the C8 theorem at the sentence `P ==> Q`. -/
theorem to_cnf_idempotent_witness :
    (isProper (Expr.node "==>" [Expr.node "P" [], Expr.node "Q" []]) = true) ∧
    ∃ t, to_cnf (Expr.node "==>" [Expr.node "P" [], Expr.node "Q" []]) = .ok t ∧
      to_cnf t = .ok t :=
  ⟨isProper_impPQ, to_cnf_idempotent _ isProper_impPQ⟩

theorem kor_eq_true_iff : ∀ a b : Option Bool,
    kor a b = some true ↔ a = some true ∨ b = some true := by decide

theorem kor_none_left_of_ne_true : ∀ y : Option Bool,
    y ≠ some true → kor none y = none := by decide

theorem kor_none_right_of_ne_true : ∀ x : Option Bool,
    x ≠ some true → kor x none = none := by decide

theorem kand_eq_false_iff : ∀ a b : Option Bool,
    kand a b = some false ↔ a = some false ∨ b = some false := by decide

theorem kand_none_left_of_ne_false : ∀ y : Option Bool,
    y ≠ some false → kand none y = none := by decide

theorem kand_none_right_of_ne_false : ∀ x : Option Bool,
    x ≠ some false → kand x none = none := by decide

theorem tv_or_true_of_mem {args : List Expr} {m : Model} {a : Expr}
    (ha : a ∈ args) (ht : tv a m = some true) : tv_or args m = some true := by
  induction args with
  | nil => cases ha
  | cons x rest ih =>
    rw [tv_or_cons]
    rcases List.mem_cons.mp ha with h1 | h1
    · subst h1; rw [ht, kor_true_left]
    · rw [ih h1, kor_true_right]

theorem tv_or_ne_true {args : List Expr} {m : Model}
    (h : ∀ a ∈ args, tv a m ≠ some true) : tv_or args m ≠ some true := by
  induction args with
  | nil => rw [tv_or_nil]; simp
  | cons x rest ih =>
    rw [tv_or_cons]
    intro hc
    rcases (kor_eq_true_iff _ _).mp hc with h1 | h1
    · exact h x (List.mem_cons_self x rest) h1
    · exact ih (fun a ha => h a (List.mem_cons_of_mem x ha)) h1

theorem tv_or_unknown {args : List Expr} {m : Model}
    (h : ∀ a ∈ args, tv a m ≠ some true)
    (hex : ∃ a ∈ args, tv a m = none) : tv_or args m = none := by
  induction args with
  | nil => obtain ⟨a, ha, _⟩ := hex; cases ha
  | cons x rest ih =>
    rw [tv_or_cons]
    obtain ⟨a, ha, hna⟩ := hex
    rcases List.mem_cons.mp ha with h1 | h1
    · subst h1
      rw [hna]
      exact kor_none_left_of_ne_true _
        (tv_or_ne_true (fun b hb => h b (List.mem_cons_of_mem _ hb)))
    · rw [ih (fun b hb => h b (List.mem_cons_of_mem x hb)) ⟨a, h1, hna⟩]
      exact kor_none_right_of_ne_true _ (h x (List.mem_cons_self x rest))

theorem tv_or_false_of_all {args : List Expr} {m : Model}
    (h : ∀ a ∈ args, tv a m = some false) : tv_or args m = some false := by
  induction args with
  | nil => rw [tv_or_nil]
  | cons x rest ih =>
    rw [tv_or_cons, h x (List.mem_cons_self x rest),
      ih (fun a ha => h a (List.mem_cons_of_mem x ha))]
    rfl

theorem tv_and_false_of_mem {args : List Expr} {m : Model} {a : Expr}
    (ha : a ∈ args) (ht : tv a m = some false) : tv_and args m = some false := by
  induction args with
  | nil => cases ha
  | cons x rest ih =>
    rw [tv_and_cons]
    rcases List.mem_cons.mp ha with h1 | h1
    · subst h1; rw [ht, kand_false_left]
    · rw [ih h1, kand_false_right]

theorem tv_and_ne_false {args : List Expr} {m : Model}
    (h : ∀ a ∈ args, tv a m ≠ some false) : tv_and args m ≠ some false := by
  induction args with
  | nil => rw [tv_and_nil]; simp
  | cons x rest ih =>
    rw [tv_and_cons]
    intro hc
    rcases (kand_eq_false_iff _ _).mp hc with h1 | h1
    · exact h x (List.mem_cons_self x rest) h1
    · exact ih (fun a ha => h a (List.mem_cons_of_mem x ha)) h1

theorem tv_and_unknown {args : List Expr} {m : Model}
    (h : ∀ a ∈ args, tv a m ≠ some false)
    (hex : ∃ a ∈ args, tv a m = none) : tv_and args m = none := by
  induction args with
  | nil => obtain ⟨a, ha, _⟩ := hex; cases ha
  | cons x rest ih =>
    rw [tv_and_cons]
    obtain ⟨a, ha, hna⟩ := hex
    rcases List.mem_cons.mp ha with h1 | h1
    · subst h1
      rw [hna]
      exact kand_none_left_of_ne_false _
        (tv_and_ne_false (fun b hb => h b (List.mem_cons_of_mem _ hb)))
    · rw [ih (fun b hb => h b (List.mem_cons_of_mem x hb)) ⟨a, h1, hna⟩]
      exact kand_none_right_of_ne_false _ (h x (List.mem_cons_self x rest))

theorem tv_and_true_of_all {args : List Expr} {m : Model}
    (h : ∀ a ∈ args, tv a m = some true) : tv_and args m = some true := by
  induction args with
  | nil => rw [tv_and_nil]
  | cons x rest ih =>
    rw [tv_and_cons, h x (List.mem_cons_self x rest),
      ih (fun a ha => h a (List.mem_cons_of_mem x ha))]
    rfl

/-- C6: `pl_true` on an n-ary disjunction returns `True` as soon as any
argument is `True` (even amid unknowns), `None` when no argument is `True`
but one is unknown, and `False` otherwise; dually for conjunction, with
`False` dominating; and concretely `pl_true(P | Q, {P: True})` is `True`
while `pl_true(P, {})` is `None`. -/
theorem pl_true_kleene_dominance (args : List Expr) (m : Model)
    (h : isProperList args = true) :
    ((∃ a ∈ args, pl_true a m = .ok (some true)) →
      pl_true (.node "|" args) m = .ok (some true)) ∧
    ((∀ a ∈ args, pl_true a m ≠ .ok (some true)) →
      (∃ a ∈ args, pl_true a m = .ok none) →
      pl_true (.node "|" args) m = .ok none) ∧
    ((∀ a ∈ args, pl_true a m = .ok (some false)) →
      pl_true (.node "|" args) m = .ok (some false)) ∧
    ((∃ a ∈ args, pl_true a m = .ok (some false)) →
      pl_true (.node "&" args) m = .ok (some false)) ∧
    ((∀ a ∈ args, pl_true a m ≠ .ok (some false)) →
      (∃ a ∈ args, pl_true a m = .ok none) →
      pl_true (.node "&" args) m = .ok none) ∧
    ((∀ a ∈ args, pl_true a m = .ok (some true)) →
      pl_true (.node "&" args) m = .ok (some true)) ∧
    pl_true (.node "|" [Expr.node "P" [], Expr.node "Q" []])
      (extend emptyModel (.node "P" []) true) = .ok (some true) ∧
    pl_true (.node "P" []) emptyModel = .ok none := by
  have hbar := pl_true_eq_tv (isProper_bar_of_list h) m
  have hamp := pl_true_eq_tv (isProper_amp_of_list h) m
  rw [tv_or_node] at hbar
  rw [tv_and_node] at hamp
  have hconv : ∀ a ∈ args, pl_true a m = .ok (tv a m) :=
    fun a ha => pl_true_eq_tv (isProperList_mem h a ha) m
  refine ⟨?_, ?_, ?_, ?_, ?_, ?_, by rfl, by rfl⟩
  · rintro ⟨a, ha, hta⟩
    rw [hconv a ha] at hta
    injection hta with hta
    rw [hbar, tv_or_true_of_mem ha hta]
  · intro hnt hex
    obtain ⟨a, ha, hna⟩ := hex
    rw [hconv a ha] at hna
    injection hna with hna
    rw [hbar, tv_or_unknown
      (fun b hb hc => hnt b hb (by rw [hconv b hb, hc])) ⟨a, ha, hna⟩]
  · intro hall
    have hall2 : ∀ a ∈ args, tv a m = some false := fun a ha =>
      Except.ok.inj (by rw [← hconv a ha]; exact hall a ha)
    rw [hbar, tv_or_false_of_all hall2]
  · rintro ⟨a, ha, hta⟩
    rw [hconv a ha] at hta
    injection hta with hta
    rw [hamp, tv_and_false_of_mem ha hta]
  · intro hnf hex
    obtain ⟨a, ha, hna⟩ := hex
    rw [hconv a ha] at hna
    injection hna with hna
    rw [hamp, tv_and_unknown
      (fun b hb hc => hnf b hb (by rw [hconv b hb, hc])) ⟨a, ha, hna⟩]
  · intro hall
    have hall2 : ∀ a ∈ args, tv a m = some true := fun a ha =>
      Except.ok.inj (by rw [← hconv a ha]; exact hall a ha)
    rw [hamp, tv_and_true_of_all hall2]

/-- Witness for the C6 theorem: the argument list `[P, Q]` under the
assignment `{P: true}`. -/
theorem pl_true_kleene_dominance_witness :
    (isProperList [Expr.node "P" [], Expr.node "Q" []] = true) ∧
    pl_true (.node "|" [Expr.node "P" [], Expr.node "Q" []])
      (extend emptyModel (.node "P" []) true) = .ok (some true) := by
  have hl : isProperList [Expr.node "P" [], Expr.node "Q" []] = true := by
    simp [isProperList, isProper,
      show is_prop_symbol "P" = true from by decide,
      show is_prop_symbol "Q" = true from by decide]
  exact ⟨hl, (pl_true_kleene_dominance [Expr.node "P" [], Expr.node "Q" []]
    (extend emptyModel (.node "P" []) true) hl).1
    ⟨Expr.node "P" [], List.mem_cons_self _ _, rfl⟩⟩

/-- C3: for a single-proposition query, `PropKB_SAT.ask` issues exactly the
two probes `(stored clauses, query pinned true)` and
`(stored clauses, query pinned false)`, and decides by comparing their
success flags: answer the pinned-true flag when the flags differ, and the
unknown signal `None` when they agree. -/
theorem PropKB_SAT_ask_decision
    (solve : List Expr → Option (Expr × Bool) → Bool)
    (clauses : List Expr) (query : Expr) :
    PropKB_SAT_ask_probes clauses query =
      [(clauses, some (query, true)), (clauses, some (query, false))] ∧
    PropKB_SAT_ask solve clauses query =
      (if solve clauses (some (query, true)) =
          solve clauses (some (query, false)) then none
       else some (solve clauses (some (query, true)))) ∧
    (solve clauses (some (query, true)) = true →
      solve clauses (some (query, false)) = false →
      PropKB_SAT_ask solve clauses query = some true) ∧
    (solve clauses (some (query, true)) = false →
      solve clauses (some (query, false)) = true →
      PropKB_SAT_ask solve clauses query = some false) ∧
    (solve clauses (some (query, true)) =
        solve clauses (some (query, false)) →
      PropKB_SAT_ask solve clauses query = none) := by
  have e1 : PropKB_SAT_ask solve clauses query =
      (if solve clauses (some (query, true)) =
          solve clauses (some (query, false)) then none
       else some (solve clauses (some (query, true)))) := rfl
  refine ⟨rfl, e1, ?_, ?_, ?_⟩
  · intro h1 h2
    rw [e1, h1, h2, if_neg (by decide)]
  · intro h1 h2
    rw [e1, h1, h2, if_neg (by decide)]
  · intro h1
    rw [e1, if_pos h1]

/-- C5 counterexample: telling the conjunction `P & Q` to the SAT-backed KB
stores its two CNF conjuncts `P` and `Q`, not the raw sentence itself. -/
theorem PropKB_SAT_tell_not_raw :
    PropKB_SAT_tell [] (Expr.node "&" [Expr.node "P" [], Expr.node "Q" []]) =
      .ok [Expr.node "P" [], Expr.node "Q" []] ∧
    (.ok [Expr.node "P" [], Expr.node "Q" []] :
        Except PErr (List Expr)) ≠
      .ok [Expr.node "&" [Expr.node "P" [], Expr.node "Q" []]] := by
  constructor
  · have hcnf : isCNF (Expr.node "&" [Expr.node "P" [], Expr.node "Q" []]) = true := by
      decide
    have h1 : to_cnf (Expr.node "&" [Expr.node "P" [], Expr.node "Q" []]) =
        .ok (Expr.node "&" [Expr.node "P" [], Expr.node "Q" []]) := by
      simp only [to_cnf,
        elim_id _ (isPF_of_isNNF _ (isNNF_of_isCNF hcnf)),
        move_id _ (isNNF_of_isCNF hcnf), dist_id hcnf]
    have h2 : conjuncts (Expr.node "&" [Expr.node "P" [], Expr.node "Q" []]) =
        [Expr.node "P" [], Expr.node "Q" []] := by
      rw [conjuncts, dissociate, dissoc1, if_pos rfl,
        dissociate_eq_self (fun x hx => isClause_ne_and (isClauseList_mem
          (show isClauseList [Expr.node "P" [], Expr.node "Q" []] = true from
            by decide) x hx)),
        dissociate, List.append_nil]
    rw [PropKB_SAT_tell, if_pos (show truthy
      (Expr.node "&" [Expr.node "P" [], Expr.node "Q" []]) = true from rfl)]
    simp only [PropKB_tell, h1, h2, List.nil_append]
  · intro hc
    injection hc with hc2
    exact absurd hc2 (by decide)

/-- C5 (amended): `PropKB_SAT.tell` does not store raw sentences: on a
truthy sentence it delegates to `PropKB.tell`, which appends the CNF
conjuncts of the sentence; on a falsy sentence it stores nothing. -/
theorem PropKB_SAT_tell_decomposes (clauses : List Expr) (s : Expr) :
    (truthy s = true →
      PropKB_SAT_tell clauses s = PropKB_tell clauses s) ∧
    (truthy s = false → PropKB_SAT_tell clauses s = .ok clauses) ∧
    (∀ t, to_cnf s = .ok t →
      PropKB_tell clauses s = .ok (clauses ++ conjuncts t)) := by
  refine ⟨?_, ?_, ?_⟩
  · intro h
    rw [PropKB_SAT_tell, if_pos h]
  · intro h
    rw [PropKB_SAT_tell, if_neg (by simp [h])]
  · intro t ht
    simp only [PropKB_tell, ht]

/-- C9 (amended): the `Illegal operator` `ValueError` is raised exactly when
the dispatch falls through to the final branch: the operator is no symbol
and none of `~`, `|`, `&`, `>>`/`==>`, `<<`/`<==`, `<=>`, `^`, the argument
list unpacks as a pair, and both operands evaluate to known booleans.  (An
unknown operand returns `None` instead, and a wrong arity raises the
unpacking `ValueError`, not the illegal-operator one.) -/
theorem pl_true_illegal_operator (op : String) (p q : Expr) (m : Model)
    (hps : ¬is_prop_symbol op = true) (hnot : ¬op = "~") (hor : ¬op = "|")
    (hand : ¬op = "&") (himp : ¬(op = ">>" ∨ op = "==>"))
    (hrev : ¬(op = "<<" ∨ op = "<==")) (hiff : ¬op = "<=>") (hx : ¬op = "^")
    {bp bq : Bool} (hp : pl_true p m = .ok (some bp))
    (hq : pl_true q m = .ok (some bq)) :
    pl_true (.node op [p, q]) m = .error .illegal := by
  rw [pl_true_bin_other hps hnot hor hand himp hrev p q m, hp]
  simp only [propagate]
  rw [hq]
  simp only [propagate]
  rw [if_neg hiff, if_neg hx]

/-- Witness for the C9 theorem: the undefined operator `foo` applied to two
boolean constants under the empty model. -/
theorem pl_true_illegal_operator_witness :
    (¬is_prop_symbol "foo" = true) ∧
    pl_true (.const true) emptyModel = .ok (some true) ∧
    pl_true (.const false) emptyModel = .ok (some false) ∧
    pl_true (.node "foo" [.const true, .const false]) emptyModel =
      .error .illegal :=
  ⟨by decide, rfl, rfl,
    pl_true_illegal_operator "foo" (.const true) (.const false) emptyModel
      (by decide) (by decide) (by decide) (by decide) (by decide) (by decide)
      (by decide) (by decide) rfl rfl⟩

/-- C9 counterexample: the operator `foo` lies outside the evaluator's
vocabulary, yet with an unknown operand `pl_true` returns `None` rather than
raising, and with arity 1 it raises the unpacking `ValueError`, not the
`Illegal operator` one — the illegal-operator fault is not raised for every
out-of-vocabulary combination and model. -/
theorem pl_true_foo_counterexample :
    pl_true (.node "foo" [Expr.node "P" [], Expr.node "Q" []]) emptyModel =
      .ok none ∧
    pl_true (.node "foo" [Expr.node "P" []]) emptyModel = .error .unpack ∧
    (.ok (none : Option Bool) : Except PErr (Option Bool)) ≠
      .error .illegal ∧
    (.error .unpack : Except PErr (Option Bool)) ≠ .error .illegal :=
  ⟨rfl, rfl, by simp, by simp⟩

/-- C10: `PropKB.__init__` (inherited by `PropKB_SAT`) first runs
`KB.__init__`, whose `tell(sentence)` touches `self.clauses` before that
attribute exists: a truthy initial sentence raises `AttributeError`, so no
constructed KB ever contains the initial sentence's clauses; construction
without a sentence (or with a falsy one) succeeds with an empty store. -/
theorem PropKB_init_behavior (s : Expr) :
    (truthy s = true → PropKB_init (some s) = .error .attribute) ∧
    (truthy s = false → PropKB_init (some s) = .ok []) ∧
    PropKB_init none = .ok [] := by
  refine ⟨?_, ?_, rfl⟩
  · intro h
    simp [PropKB_init, KB_init_tell, PropKB_tell_attr, h]
  · intro h
    simp [PropKB_init, KB_init_tell, h]

theorem conjuncts_clauses {t : Expr} (h : isCNF t = true) :
    isClauseList (conjuncts t) = true := by
  rw [conjuncts, dissociate, dissociate, List.append_nil]
  apply isClauseList_of_mem
  intro a ha
  exact isClause_of_mem_dissoc1_and h a ha

theorem isClauseList_append {l1 l2 : List Expr} (h1 : isClauseList l1 = true)
    (h2 : isClauseList l2 = true) : isClauseList (l1 ++ l2) = true := by
  apply isClauseList_of_mem
  intro a ha
  rcases List.mem_append.mp ha with h | h
  · exact isClauseList_mem h1 a h
  · exact isClauseList_mem h2 a h

theorem isClauseList_erase {l : List Expr} {c : Expr}
    (h : isClauseList l = true) : isClauseList (l.erase c) = true := by
  apply isClauseList_of_mem
  intro a ha
  exact isClauseList_mem h a (List.mem_of_mem_erase ha)

theorem isClauseList_foldl_erase (cs : List Expr) : ∀ clauses : List Expr,
    isClauseList clauses = true →
    isClauseList (cs.foldl
      (fun cs2 c => if c ∈ cs2 then cs2.erase c else cs2) clauses) = true := by
  induction cs with
  | nil => intro clauses h; exact h
  | cons c rest ih =>
    intro clauses h
    rw [List.foldl_cons]
    apply ih
    by_cases hc : c ∈ clauses
    · rw [if_pos hc]
      exact isClauseList_erase h
    · rw [if_neg hc]
      exact h

/-- C7: on a proper sentence, `to_cnf` returns a CNF-shaped result (only
`~`, `&`, `|`, no conjunction inside a disjunction); `PropKB.tell` appends
exactly its top-level conjuncts, each clause-shaped, so a clause-shaped
store stays clause-shaped; and `PropKB.retract` (which only erases
elements) preserves the invariant as well. -/
theorem PropKB_clause_invariant (clauses : List Expr) (s : Expr)
    (hinv : isClauseList clauses = true) (hs : isProper s = true) :
    ∃ t, to_cnf s = .ok t ∧ isCNF t = true ∧
      PropKB_tell clauses s = .ok (clauses ++ conjuncts t) ∧
      isClauseList (clauses ++ conjuncts t) = true ∧
      ∃ cs2, PropKB_retract clauses s = .ok cs2 ∧ isClauseList cs2 = true := by
  obtain ⟨t, ht, hcnf, _⟩ := to_cnf_correct hs
  refine ⟨t, ht, hcnf, ?_,
    isClauseList_append hinv (conjuncts_clauses hcnf), ?_⟩
  · simp only [PropKB_tell, ht]
  · exact ⟨_, by simp only [PropKB_retract, ht],
      isClauseList_foldl_erase (conjuncts t) clauses hinv⟩

/-- Witness for the C7 theorem: the empty store and the sentence `P ==> Q`. -/
theorem PropKB_clause_invariant_witness :
    (isClauseList ([] : List Expr) = true) ∧
    (isProper (Expr.node "==>" [Expr.node "P" [], Expr.node "Q" []]) = true) ∧
    ∃ t, to_cnf (Expr.node "==>" [Expr.node "P" [], Expr.node "Q" []]) =
        .ok t ∧ isCNF t = true ∧
      PropKB_tell [] (Expr.node "==>" [Expr.node "P" [], Expr.node "Q" []]) =
        .ok ([] ++ conjuncts t) ∧
      isClauseList ([] ++ conjuncts t) = true ∧
      ∃ cs2, PropKB_retract []
          (Expr.node "==>" [Expr.node "P" [], Expr.node "Q" []]) = .ok cs2 ∧
        isClauseList cs2 = true :=
  ⟨rfl, isProper_impPQ,
    PropKB_clause_invariant [] (Expr.node "==>" [Expr.node "P" [], Expr.node "Q" []])
      rfl isProper_impPQ⟩

theorem char_upper_not_lower (c : Char) (h : c.isUpper = true) :
    c.isLower = false := by
  simp only [Char.isUpper, Bool.and_eq_true, decide_eq_true_eq] at h
  obtain ⟨h1, h2⟩ := h
  have h4 : ¬((97 : UInt32) ≤ c.val) := fun hc =>
    absurd (UInt32.le_trans hc h2) (by decide)
  simp [Char.isLower, h4]

theorem is_variable_op_false (op : String) (args : List Expr)
    (h : (match op.data with | [] => false | c :: _ => c.isLower) = false) :
    is_variable (.node op args) = false := by
  rw [is_variable, h, Bool.and_false]

theorem has_variable_list_eq_false {l : List Expr}
    (h : ∀ a ∈ l, has_variable a = false) : has_variable_list l = false := by
  induction l with
  | nil => rw [has_variable_list]
  | cons x rest ih =>
    rw [has_variable_list, h x (List.mem_cons_self x rest),
      ih (fun a ha => h a (List.mem_cons_of_mem x ha))]
    rfl

theorem has_variable_proper : ∀ e, isProper e = true →
    has_variable e = false := by
  intro e
  induction e using Expr.my_induction with
  | hconst b => intro _; rw [has_variable, is_variable]
  | hnode op args ih =>
    intro h
    rw [has_variable]
    rw [isProper] at h
    by_cases hps : is_prop_symbol op = true
    · rw [if_pos hps] at h
      have hargs : args = [] := by
        cases args with
        | nil => rfl
        | cons x t => simp at h
      subst hargs
      rw [has_variable_list, is_variable]
      rw [is_prop_symbol] at hps
      simp only [Bool.and_eq_true] at hps
      obtain ⟨hsym, hupper⟩ := hps
      cases hd : op.data with
      | nil => rw [hd] at hupper; cases hupper
      | cons c rest =>
        rw [hd] at hupper
        have hupper2 : c.isUpper = true := hupper
        simp [char_upper_not_lower c hupper2]
    · rw [if_neg hps] at h
      by_cases hnot : op = "~"
      · rw [if_pos hnot] at h
        simp only [Bool.and_eq_true, decide_eq_true_eq] at h
        subst hnot
        rw [is_variable_op_false _ _ (by decide), Bool.false_or]
        exact has_variable_list_eq_false
          (fun a ha => ih a ha (isProperList_mem h.2 a ha))
      · rw [if_neg hnot] at h
        by_cases horb : op = "|" ∨ op = "&"
        · rw [if_pos horb] at h
          have hvl := has_variable_list_eq_false
            (fun a ha => ih a ha (isProperList_mem h a ha))
          rcases horb with h5 | h5 <;> subst h5 <;>
            (rw [is_variable_op_false _ _ (by decide), Bool.false_or]; exact hvl)
        · rw [if_neg horb] at h
          by_cases hbin : op = ">>" ∨ op = "==>" ∨ op = "<<" ∨ op = "<==" ∨
              op = "<=>" ∨ op = "^"
          · rw [if_pos hbin] at h
            simp only [Bool.and_eq_true, decide_eq_true_eq] at h
            have hvl := has_variable_list_eq_false
              (fun a ha => ih a ha (isProperList_mem h.2 a ha))
            rcases hbin with h5 | h5 | h5 | h5 | h5 | h5 <;> subst h5 <;>
              (rw [is_variable_op_false _ _ (by decide), Bool.false_or]; exact hvl)
          · rw [if_neg hbin] at h
            cases h

theorem prop_symbols_list_mem {l : List Expr} {a : Expr} (ha : a ∈ l)
    {p : Expr} (hp : p ∈ prop_symbols a) : p ∈ prop_symbols_list l := by
  induction l with
  | nil => cases ha
  | cons x rest ih =>
    rw [prop_symbols_list]
    rcases List.mem_cons.mp ha with h1 | h1
    · subst h1; exact List.mem_append.mpr (Or.inl hp)
    · exact List.mem_append.mpr (Or.inr (ih h1))

theorem prop_symbols_sub {op : String} {args : List Expr}
    (hps : ¬is_prop_symbol op = true) {a : Expr} (ha : a ∈ args)
    {p : Expr} (hp : p ∈ prop_symbols a) :
    p ∈ prop_symbols (.node op args) := by
  rw [prop_symbols, if_neg hps]
  rw [List.mem_dedup]
  exact prop_symbols_list_mem ha hp

theorem tv_or_congr {l : List Expr} {m1 m2 : Model}
    (h : ∀ a ∈ l, tv a m1 = tv a m2) : tv_or l m1 = tv_or l m2 := by
  induction l with
  | nil => rw [tv_or_nil, tv_or_nil]
  | cons a rest ih =>
    rw [tv_or_cons, tv_or_cons, h a (List.mem_cons_self a rest),
      ih (fun x hx => h x (List.mem_cons_of_mem a hx))]

theorem tv_and_congr {l : List Expr} {m1 m2 : Model}
    (h : ∀ a ∈ l, tv a m1 = tv a m2) : tv_and l m1 = tv_and l m2 := by
  induction l with
  | nil => rw [tv_and_nil, tv_and_nil]
  | cons a rest ih =>
    rw [tv_and_cons, tv_and_cons, h a (List.mem_cons_self a rest),
      ih (fun x hx => h x (List.mem_cons_of_mem a hx))]

theorem tv_bin_congr {op : String} {args : List Expr} {m1 m2 : Model}
    (h : ∀ a ∈ args, tv a m1 = tv a m2) :
    tv_bin op args m1 = tv_bin op args m2 := by
  rcases args with _ | ⟨p, _ | ⟨q, _ | ⟨r, t⟩⟩⟩
  · rw [tv_bin, tv_bin] <;> (intro a b hc; simp at hc)
  · rw [tv_bin, tv_bin] <;> (intro a b hc; simp at hc)
  · rw [tv_bin, tv_bin, h p (by simp), h q (by simp)]
  · rw [tv_bin, tv_bin] <;> (intro a b hc; simp at hc)

theorem tv_relevance : ∀ e (m1 m2 : Model),
    (∀ p ∈ prop_symbols e, m1 p = m2 p) → tv e m1 = tv e m2 := by
  intro e
  induction e using Expr.my_induction with
  | hconst b => intro m1 m2 _; rw [tv, tv]
  | hnode op args ih =>
    intro m1 m2 hag
    rw [tv, tv]
    by_cases hps : is_prop_symbol op = true
    · rw [if_pos hps, if_pos hps]
      exact hag _ (by
        rw [prop_symbols, if_pos hps]
        exact List.mem_singleton.mpr rfl)
    · rw [if_neg hps, if_neg hps]
      have hsub : ∀ a ∈ args, tv a m1 = tv a m2 := fun a ha =>
        ih a ha m1 m2 (fun p hp => hag p (prop_symbols_sub hps ha hp))
      by_cases hnot : op = "~"
      · rw [if_pos hnot, if_pos hnot]
        cases args with
        | nil => rw [tv_not, tv_not]
        | cons a rest =>
          rw [tv_not, tv_not, hsub a (List.mem_cons_self a rest)]
      · rw [if_neg hnot, if_neg hnot]
        by_cases hor : op = "|"
        · rw [if_pos hor, if_pos hor]
          exact tv_or_congr hsub
        · rw [if_neg hor, if_neg hor]
          by_cases hand : op = "&"
          · rw [if_pos hand, if_pos hand]
            exact tv_and_congr hsub
          · rw [if_neg hand, if_neg hand]
            exact tv_bin_congr hsub

theorem tv_or_some_of_all {l : List Expr} {m : Model}
    (h : ∀ a ∈ l, ∃ b, tv a m = some b) : ∃ b, tv_or l m = some b := by
  induction l with
  | nil => exact ⟨false, tv_or_nil m⟩
  | cons a rest ih =>
    obtain ⟨b1, hb1⟩ := h a (List.mem_cons_self a rest)
    obtain ⟨b2, hb2⟩ := ih (fun x hx => h x (List.mem_cons_of_mem a hx))
    rw [tv_or_cons, hb1, hb2]
    cases b1 <;> cases b2 <;> exact ⟨_, rfl⟩

theorem tv_and_some_of_all {l : List Expr} {m : Model}
    (h : ∀ a ∈ l, ∃ b, tv a m = some b) : ∃ b, tv_and l m = some b := by
  induction l with
  | nil => exact ⟨true, tv_and_nil m⟩
  | cons a rest ih =>
    obtain ⟨b1, hb1⟩ := h a (List.mem_cons_self a rest)
    obtain ⟨b2, hb2⟩ := ih (fun x hx => h x (List.mem_cons_of_mem a hx))
    rw [tv_and_cons, hb1, hb2]
    cases b1 <;> cases b2 <;> exact ⟨_, rfl⟩

theorem tv_total : ∀ e, isProper e = true → ∀ m : Model,
    (∀ p ∈ prop_symbols e, m p ≠ none) → ∃ b, tv e m = some b := by
  intro e
  induction e using Expr.my_induction with
  | hconst b => intro _ m _; exact ⟨b, by rw [tv]⟩
  | hnode op args ih =>
    intro hp m hbind
    rw [isProper] at hp
    by_cases hps : is_prop_symbol op = true
    · have hb := hbind _ (by
        rw [prop_symbols, if_pos hps]
        exact List.mem_singleton.mpr rfl)
      rw [tv, if_pos hps]
      cases hm : m (.node op args) with
      | none => exact absurd hm hb
      | some b => exact ⟨b, rfl⟩
    · rw [if_neg hps] at hp
      have hsub : ∀ a ∈ args, isProper a = true → ∃ b, tv a m = some b :=
        fun a ha hpa =>
          ih a ha hpa m (fun p hp2 => hbind p (prop_symbols_sub hps ha hp2))
      by_cases hnot : op = "~"
      · rw [if_pos hnot] at hp
        simp only [Bool.and_eq_true, decide_eq_true_eq] at hp
        obtain ⟨hlen, hpl⟩ := hp
        rcases args with _ | ⟨a, _ | ⟨b2, t⟩⟩
        · simp at hlen
        · obtain ⟨b, hb⟩ := hsub a (List.mem_cons_self _ _)
            (isProperList_mem hpl a (by simp))
          subst hnot
          rw [tv_not_cons, hb]
          exact ⟨!b, rfl⟩
        · simp at hlen
      · rw [if_neg hnot] at hp
        by_cases horb : op = "|" ∨ op = "&"
        · rw [if_pos horb] at hp
          have hall : ∀ a ∈ args, ∃ b, tv a m = some b :=
            fun a ha => hsub a ha (isProperList_mem hp a ha)
          rcases horb with h5 | h5 <;> subst h5
          · rw [tv_or_node]
            exact tv_or_some_of_all hall
          · rw [tv_and_node]
            exact tv_and_some_of_all hall
        · rw [if_neg horb] at hp
          by_cases hbin : op = ">>" ∨ op = "==>" ∨ op = "<<" ∨ op = "<==" ∨
              op = "<=>" ∨ op = "^"
          · rw [if_pos hbin] at hp
            simp only [Bool.and_eq_true, decide_eq_true_eq] at hp
            obtain ⟨hlen, hpl⟩ := hp
            rcases args with _ | ⟨p, _ | ⟨q, _ | ⟨r, t⟩⟩⟩
            · simp at hlen
            · simp at hlen
            · obtain ⟨bp, hbp⟩ := hsub p (by simp)
                (isProperList_mem hpl p (by simp))
              obtain ⟨bq, hbq⟩ := hsub q (by simp)
                (isProperList_mem hpl q (by simp))
              by_cases himp : op = ">>" ∨ op = "==>"
              · rw [tv_imp himp, hbp, hbq]
                cases bp <;> cases bq <;> exact ⟨_, rfl⟩
              · by_cases hrev : op = "<<" ∨ op = "<=="
                · rw [tv_revimp hrev, hbp, hbq]
                  cases bp <;> cases bq <;> exact ⟨_, rfl⟩
                · rcases hbin with h5 | h5 | h5 | h5 | h5 | h5
                  · exact absurd (Or.inl h5) himp
                  · exact absurd (Or.inr h5) himp
                  · exact absurd (Or.inl h5) hrev
                  · exact absurd (Or.inr h5) hrev
                  · subst h5
                    rw [tv_iff, hbp, hbq]
                    exact ⟨_, rfl⟩
                  · subst h5
                    rw [tv_xor, hbp, hbq]
                    exact ⟨_, rfl⟩
            · simp at hlen
          · rw [if_neg hbin] at hp
            cases hp

theorem tt_check_all_correct {kb alpha : Expr}
    (hkb : isProper kb = true) (ha : isProper alpha = true) :
    ∀ (syms : List Expr) (m0 : Model),
    (∀ p ∈ prop_symbols kb, p ∈ syms ∨ m0 p ≠ none) →
    (∀ p ∈ prop_symbols alpha, p ∈ syms ∨ m0 p ≠ none) →
    ∃ b, tt_check_all kb alpha syms m0 = .ok b ∧
      (b = true ↔ ∀ m : Model,
        (∀ q, ¬q ∈ syms → m q = m0 q) → (∀ q ∈ syms, m q ≠ none) →
        tv kb m = some true → tv alpha m = some true) := by
  intro syms
  induction syms with
  | nil =>
    intro m0 hc1 hc2
    have hb2 : ∀ p ∈ prop_symbols alpha, m0 p ≠ none := fun p hp =>
      Or.resolve_left (hc2 p hp) (List.not_mem_nil p)
    simp only [tt_check_all, pl_true_eq_tv hkb m0, pl_true_eq_tv ha m0]
    by_cases hv : tv kb m0 = some true
    · obtain ⟨bα, hbα⟩ := tv_total alpha ha m0 hb2
      rw [if_pos hv, hbα]
      refine ⟨bα, rfl, ?_⟩
      constructor
      · intro hb m hout _ _
        have heq : ∀ p ∈ prop_symbols alpha, m p = m0 p := fun p _ =>
          hout p (List.not_mem_nil p)
        rw [tv_relevance alpha m m0 heq, hbα, hb]
      · intro hall
        have h5 := hall m0 (fun q _ => rfl)
          (fun q hq => absurd hq (List.not_mem_nil q)) hv
        rw [hbα] at h5
        injection h5
    · rw [if_neg hv]
      refine ⟨true, rfl, ?_⟩
      constructor
      · intro _ m hout _ hkbm
        have heq : ∀ p ∈ prop_symbols kb, m p = m0 p := fun p _ =>
          hout p (List.not_mem_nil p)
        rw [tv_relevance kb m m0 heq] at hkbm
        exact absurd hkbm hv
      · intro _
        rfl
  | cons p rest ih =>
    intro m0 hc1 hc2
    have hbr : ∀ (v : Bool)
        (hc : ∀ q ∈ prop_symbols kb, q ∈ p :: rest ∨ m0 q ≠ none),
        ∀ q ∈ prop_symbols kb, q ∈ rest ∨ extend m0 p v q ≠ none := by
      intro v hc q hq
      rcases hc q hq with h5 | h5
      · rcases List.mem_cons.mp h5 with h6 | h6
        · right
          intro hcon
          rw [show extend m0 p v q = if q = p then some v else m0 q from rfl]
            at hcon
          rw [if_pos h6] at hcon
          cases hcon
        · left
          exact h6
      · right
        intro hcon
        rw [show extend m0 p v q = if q = p then some v else m0 q from rfl]
          at hcon
        split at hcon
        · cases hcon
        · exact h5 hcon
    have hbr2 : ∀ (v : Bool)
        (hc : ∀ q ∈ prop_symbols alpha, q ∈ p :: rest ∨ m0 q ≠ none),
        ∀ q ∈ prop_symbols alpha, q ∈ rest ∨ extend m0 p v q ≠ none := by
      intro v hc q hq
      rcases hc q hq with h5 | h5
      · rcases List.mem_cons.mp h5 with h6 | h6
        · right
          intro hcon
          rw [show extend m0 p v q = if q = p then some v else m0 q from rfl]
            at hcon
          rw [if_pos h6] at hcon
          cases hcon
        · left
          exact h6
      · right
        intro hcon
        rw [show extend m0 p v q = if q = p then some v else m0 q from rfl]
          at hcon
        split at hcon
        · cases hcon
        · exact h5 hcon
    obtain ⟨b1, hb1e, hb1iff⟩ :=
      ih (extend m0 p true) (hbr true hc1) (hbr2 true hc2)
    rw [tt_check_all, hb1e]
    cases b1 with
    | false =>
      refine ⟨false, rfl, ?_⟩
      constructor
      · intro h5
        cases h5
      · intro hall
        exfalso
        have hnr : ¬(∀ m : Model,
            (∀ q, ¬q ∈ rest → m q = extend m0 p true q) →
            (∀ q ∈ rest, m q ≠ none) →
            tv kb m = some true → tv alpha m = some true) :=
          fun hR => Bool.noConfusion (hb1iff.mpr hR)
        apply hnr
        intro m hout hbind hkbm
        apply hall m ?_ ?_ hkbm
        · intro q hq
          have hq1 : ¬q ∈ rest := fun h6 => hq (List.mem_cons_of_mem p h6)
          have hq2 : ¬q = p := fun h6 => hq (h6 ▸ List.mem_cons_self p rest)
          rw [hout q hq1]
          simp [extend, hq2]
        · intro q hq
          rcases List.mem_cons.mp hq with h6 | h6
          · subst h6
            by_cases hpr : q ∈ rest
            · exact hbind q hpr
            · rw [hout q hpr]
              simp [extend]
          · exact hbind q h6
    | true =>
      obtain ⟨b2, hb2e, hb2iff⟩ :=
        ih (extend m0 p false) (hbr false hc1) (hbr2 false hc2)
      rw [hb2e]
      refine ⟨b2, rfl, ?_⟩
      constructor
      · intro hb m hout hbind hkbm
        have hmp := hbind p (List.mem_cons_self p rest)
        cases hv2 : m p with
        | none => exact absurd hv2 hmp
        | some v =>
          have hout2 : ∀ q, ¬q ∈ rest → m q = extend m0 p v q := by
            intro q hq
            by_cases hqp : q = p
            · subst hqp
              rw [hv2]
              simp [extend]
            · rw [hout q (fun h6 => by
                rcases List.mem_cons.mp h6 with h7 | h7
                · exact hqp h7
                · exact hq h7)]
              simp [extend, hqp]
          have hbind2 : ∀ q ∈ rest, m q ≠ none := fun q hq =>
            hbind q (List.mem_cons_of_mem p hq)
          cases v with
          | false => exact (hb2iff.mp hb) m hout2 hbind2 hkbm
          | true => exact (hb1iff.mp rfl) m hout2 hbind2 hkbm
      · intro hall
        apply hb2iff.mpr
        intro m hout hbind hkbm
        apply hall m ?_ ?_ hkbm
        · intro q hq
          have hq1 : ¬q ∈ rest := fun h6 => hq (List.mem_cons_of_mem p h6)
          have hq2 : ¬q = p := fun h6 => hq (h6 ▸ List.mem_cons_self p rest)
          rw [hout q hq1]
          simp [extend, hq2]
        · intro q hq
          rcases List.mem_cons.mp hq with h6 | h6
          · subst h6
            by_cases hpr : q ∈ rest
            · exact hbind q hpr
            · rw [hout q hpr]
              simp [extend]
          · exact hbind q h6

/-- C2: on proper sentences `tt_entails` returns a boolean, and that boolean
is `True` exactly when every assignment binding all proposition symbols of
`kb & alpha` that makes `kb` evaluate `True` under `pl_true` also makes
`alpha` evaluate `True`; the decision is computed by `tt_check_all`'s
depth-first enumeration (true branch, then false branch, skipping
assignments that do not satisfy `kb`). -/
theorem tt_entails_correct (kb alpha : Expr)
    (hkb : isProper kb = true) (ha : isProper alpha = true) :
    ∃ b, tt_entails kb alpha = .ok b ∧
      (b = true ↔ ∀ m : Model,
        (∀ p ∈ prop_symbols (.node "&" [kb, alpha]), m p ≠ none) →
        pl_true kb m = .ok (some true) → pl_true alpha m = .ok (some true)) := by
  have hnv : has_variable alpha = false := has_variable_proper alpha ha
  have hsub1 : ∀ p ∈ prop_symbols kb,
      p ∈ prop_symbols (.node "&" [kb, alpha]) :=
    fun p hp => prop_symbols_sub (by decide) (List.mem_cons_self _ _) hp
  have hsub2 : ∀ p ∈ prop_symbols alpha,
      p ∈ prop_symbols (.node "&" [kb, alpha]) :=
    fun p hp => prop_symbols_sub (by decide) (by simp) hp
  obtain ⟨b, hbe, hbiff⟩ := tt_check_all_correct hkb ha
    (prop_symbols (.node "&" [kb, alpha])) emptyModel
    (fun p hp => Or.inl (hsub1 p hp)) (fun p hp => Or.inl (hsub2 p hp))
  refine ⟨b, ?_, ?_⟩
  · rw [tt_entails, if_neg (by simp [hnv])]
    exact hbe
  · rw [hbiff]
    constructor
    · intro hR m hbind hkbm2
      have hkbm : tv kb m = some true :=
        Except.ok.inj (by rw [← pl_true_eq_tv hkb m]; exact hkbm2)
      have hRa := hR
        (fun q => if q ∈ prop_symbols (.node "&" [kb, alpha]) then m q
          else none)
        (fun q hq => by simp [hq, emptyModel])
        (fun q hq => by
          simp only [if_pos hq]
          exact hbind q hq)
        (by
          rw [tv_relevance kb _ m (fun p hp => by simp [hsub1 p hp])]
          exact hkbm)
      have h6 : tv alpha m = some true := by
        rw [← tv_relevance alpha
          (fun q => if q ∈ prop_symbols (.node "&" [kb, alpha]) then m q
            else none)
          m (fun p hp => by simp [hsub2 p hp])]
        exact hRa
      rw [pl_true_eq_tv ha m, h6]
    · intro hR m _ hbind hkbm
      have h5 := hR m hbind (by rw [pl_true_eq_tv hkb m, hkbm])
      rw [pl_true_eq_tv ha m] at h5
      exact Except.ok.inj h5

theorem isProper_P : isProper (Expr.node "P" []) = true := by
  simp [isProper, show is_prop_symbol "P" = true from by decide]

/-- Witness for the C2 theorem: `kb = P`, `alpha = P`. -/
theorem tt_entails_correct_witness :
    (isProper (Expr.node "P" []) = true) ∧
    ∃ b, tt_entails (Expr.node "P" []) (Expr.node "P" []) = .ok b ∧
      (b = true ↔ ∀ m : Model,
        (∀ p ∈ prop_symbols
          (.node "&" [Expr.node "P" [], Expr.node "P" []]), m p ≠ none) →
        pl_true (Expr.node "P" []) m = .ok (some true) →
        pl_true (Expr.node "P" []) m = .ok (some true)) :=
  ⟨isProper_P,
    tt_entails_correct (Expr.node "P" []) (Expr.node "P" [])
      isProper_P isProper_P⟩

/-- C4 (amended): assuming the oracle decides satisfiability of the stored
clause conjunction under the variable/value pin, and assuming the stored
clauses are satisfiable, the SAT-backed `ask` agrees with `tt_entails`-based
asking on a single positive proposition: `True` exactly when the clauses
entail the query, `False` exactly when they entail its negation, and the
unknown signal `None` exactly when neither entailment holds.  (Without the
satisfiability assumption the two disagree: an unsatisfiable store makes
both probes UNSAT, so `ask` answers `None` while `tt_entails` answers
`True`.) -/
theorem PropKB_SAT_ask_matches_tt_entails
    (solve : List Expr → Option (Expr × Bool) → Bool)
    (clauses : List Expr) (qs : String)
    (hq : is_prop_symbol qs = true)
    (hcl : isProperList clauses = true)
    (hsolveT : solve clauses (some (.node qs [], true)) = true ↔
      ∃ f : Expr → Bool, f (.node qs []) = true ∧
        tv (.node "&" clauses) (fun e => some (f e)) = some true)
    (hsolveF : solve clauses (some (.node qs [], false)) = true ↔
      ∃ f : Expr → Bool, f (.node qs []) = false ∧
        tv (.node "&" clauses) (fun e => some (f e)) = some true)
    (hsat : ∃ f : Expr → Bool,
      tv (.node "&" clauses) (fun e => some (f e)) = some true) :
    ∃ b1 b2,
      tt_entails (.node "&" clauses) (.node qs []) = .ok b1 ∧
      tt_entails (.node "&" clauses) (.node "~" [.node qs []]) = .ok b2 ∧
      (PropKB_SAT_ask solve clauses (.node qs []) = some true ↔ b1 = true) ∧
      (PropKB_SAT_ask solve clauses (.node qs []) = some false ↔ b2 = true) ∧
      (PropKB_SAT_ask solve clauses (.node qs []) = none ↔
        b1 = false ∧ b2 = false) := by
  have hkb : isProper (.node "&" clauses) = true := isProper_amp_of_list hcl
  have hqp : isProper (.node qs []) = true := by
    rw [isProper, if_pos hq]
    rfl
  have hnq : isProper (.node "~" [.node qs []]) = true := isProper_not1 hqp
  obtain ⟨b1, hb1e, hb1iff⟩ := tt_entails_correct _ _ hkb hqp
  obtain ⟨b2, hb2e, hb2iff⟩ := tt_entails_correct _ _ hkb hnq
  have hqself : (Expr.node qs []) ∈ prop_symbols (.node qs []) := by
    rw [prop_symbols, if_pos hq]
    exact List.mem_singleton.mpr rfl
  have hqmem1 : (Expr.node qs []) ∈
      prop_symbols (.node "&" [.node "&" clauses, .node qs []]) :=
    prop_symbols_sub (by decide)
      (List.mem_cons_of_mem _ (List.mem_cons_self _ _)) hqself
  have hqmem2 : (Expr.node qs []) ∈
      prop_symbols (.node "&" [.node "&" clauses, .node "~" [.node qs []]]) :=
    prop_symbols_sub (by decide)
      (List.mem_cons_of_mem _ (List.mem_cons_self _ _))
      (show (Expr.node qs []) ∈ prop_symbols (.node "~" [.node qs []]) from
        prop_symbols_sub (by decide) (List.mem_cons_self _ _) hqself)
  have hsub1 : ∀ p ∈ prop_symbols (.node "&" clauses),
      p ∈ prop_symbols (.node "&" [.node "&" clauses, .node qs []]) :=
    fun p hp => prop_symbols_sub (by decide) (List.mem_cons_self _ _) hp
  have hsub1n : ∀ p ∈ prop_symbols (.node "&" clauses),
      p ∈ prop_symbols (.node "&" [.node "&" clauses, .node "~" [.node qs []]]) :=
    fun p hp => prop_symbols_sub (by decide) (List.mem_cons_self _ _) hp
  have hnqv : ∀ m : Model, pl_true (.node "~" [.node qs []]) m =
      .ok (knot (m (.node qs []))) := by
    intro m
    rw [pl_true_eq_tv hnq m, tv_not_cons, tv_sym hq]
  have hA : b1 = true ↔ solve clauses (some (.node qs [], false)) = false := by
    rw [hb1iff]
    constructor
    · intro hR
      by_contra hsf
      have hsf2 : solve clauses (some (.node qs [], false)) = true := by
        cases hx : solve clauses (some (.node qs [], false)) with
        | true => rfl
        | false => exact absurd hx hsf
      obtain ⟨f, hfq, hfsat⟩ := hsolveF.mp hsf2
      have h5 := hR (fun e => some (f e)) (fun p _ => by simp)
        (by rw [pl_true_eq_tv hkb, hfsat])
      rw [pl_true_sym hq] at h5
      have h6 : f (.node qs []) = true :=
        Option.some.inj (Except.ok.inj h5)
      rw [hfq] at h6
      cases h6
    · intro hsf m hbind hkbm
      rw [pl_true_sym hq]
      have hqb := hbind _ hqmem1
      cases hmq : m (.node qs []) with
      | none => exact absurd hmq hqb
      | some v =>
        cases v with
        | true => rfl
        | false =>
          exfalso
          have hkbtv : tv (.node "&" clauses) m = some true :=
            Except.ok.inj (by rw [← pl_true_eq_tv hkb m]; exact hkbm)
          have hsat2 : solve clauses (some (.node qs [], false)) = true := by
            apply hsolveF.mpr
            refine ⟨fun e => (m e).getD false, ?_, ?_⟩
            · show (m (Expr.node qs [])).getD false = _
              rw [hmq]
              rfl
            · rw [← hkbtv]
              apply tv_relevance
              intro p hp
              have hpb := hbind p (hsub1 p hp)
              show some ((m p).getD false) = m p
              cases hmp : m p with
              | none => exact absurd hmp hpb
              | some b => rfl
          rw [hsat2] at hsf
          cases hsf
  have hB : b2 = true ↔ solve clauses (some (.node qs [], true)) = false := by
    rw [hb2iff]
    constructor
    · intro hR
      by_contra hst
      have hst2 : solve clauses (some (.node qs [], true)) = true := by
        cases hx : solve clauses (some (.node qs [], true)) with
        | true => rfl
        | false => exact absurd hx hst
      obtain ⟨f, hfq, hfsat⟩ := hsolveT.mp hst2
      have h5 := hR (fun e => some (f e)) (fun p _ => by simp)
        (by rw [pl_true_eq_tv hkb, hfsat])
      rw [hnqv] at h5
      have h6 : knot (some (f (.node qs []))) = some true :=
        Except.ok.inj h5
      rw [hfq] at h6
      cases h6
    · intro hst m hbind hkbm
      rw [hnqv]
      have hqb := hbind _ hqmem2
      cases hmq : m (.node qs []) with
      | none => exact absurd hmq hqb
      | some v =>
        cases v with
        | false => rfl
        | true =>
          exfalso
          have hkbtv : tv (.node "&" clauses) m = some true :=
            Except.ok.inj (by rw [← pl_true_eq_tv hkb m]; exact hkbm)
          have hsat2 : solve clauses (some (.node qs [], true)) = true := by
            apply hsolveT.mpr
            refine ⟨fun e => (m e).getD false, ?_, ?_⟩
            · show (m (Expr.node qs [])).getD false = _
              rw [hmq]
              rfl
            · rw [← hkbtv]
              apply tv_relevance
              intro p hp
              have hpb := hbind p (hsub1n p hp)
              show some ((m p).getD false) = m p
              cases hmp : m p with
              | none => exact absurd hmp hpb
              | some b => rfl
          rw [hsat2] at hst
          cases hst
  have hC : solve clauses (some (.node qs [], true)) = true ∨
      solve clauses (some (.node qs [], false)) = true := by
    obtain ⟨f0, hf0⟩ := hsat
    cases hfq0 : f0 (.node qs []) with
    | true => exact Or.inl (hsolveT.mpr ⟨f0, hfq0, hf0⟩)
    | false => exact Or.inr (hsolveF.mpr ⟨f0, hfq0, hf0⟩)
  have e1 : PropKB_SAT_ask solve clauses (.node qs []) =
      (if solve clauses (some (.node qs [], true)) =
          solve clauses (some (.node qs [], false)) then none
       else some (solve clauses (some (.node qs [], true)))) := rfl
  cases hst : solve clauses (some (.node qs [], true)) with
  | false =>
    cases hsf : solve clauses (some (.node qs [], false)) with
    | false =>
      rcases hC with h5 | h5
      · rw [hst] at h5; cases h5
      · rw [hsf] at h5; cases h5
    | true =>
      have hb1v : b1 = false := by
        cases hb1 : b1 with
        | false => rfl
        | true =>
          have h5 := hA.mp hb1
          rw [hsf] at h5
          cases h5
      have hb2v : b2 = true := hB.mpr hst
      refine ⟨b1, b2, hb1e, hb2e, ?_, ?_, ?_⟩
      · rw [e1, hst, hsf, hb1v]
        simp
      · rw [e1, hst, hsf, hb2v]
        simp
      · rw [e1, hst, hsf, hb1v, hb2v]
        simp
  | true =>
    cases hsf : solve clauses (some (.node qs [], false)) with
    | false =>
      have hb1v : b1 = true := hA.mpr hsf
      have hb2v : b2 = false := by
        cases hb2 : b2 with
        | false => rfl
        | true =>
          have h5 := hB.mp hb2
          rw [hst] at h5
          cases h5
      refine ⟨b1, b2, hb1e, hb2e, ?_, ?_, ?_⟩
      · rw [e1, hst, hsf, hb1v]
        simp
      · rw [e1, hst, hsf, hb2v]
        simp
      · rw [e1, hst, hsf, hb1v]
        simp
    | true =>
      have hb1v : b1 = false := by
        cases hb1 : b1 with
        | false => rfl
        | true =>
          have h5 := hA.mp hb1
          rw [hsf] at h5
          cases h5
      have hb2v : b2 = false := by
        cases hb2 : b2 with
        | false => rfl
        | true =>
          have h5 := hB.mp hb2
          rw [hst] at h5
          cases h5
      refine ⟨b1, b2, hb1e, hb2e, ?_, ?_, ?_⟩
      · rw [e1, hst, hsf, hb1v]
        simp
      · rw [e1, hst, hsf, hb2v]
        simp
      · rw [e1, hst, hsf, hb1v, hb2v]
        simp

theorem tv_conjP_total :
    tv (Expr.node "&" [Expr.node "P" []]) (fun _ => some true) = some true := by
  rw [tv_and_node, tv_and_cons, tv_and_nil,
    tv_sym (show is_prop_symbol "P" = true from by decide)]
  rfl

theorem isProperList_P : isProperList [Expr.node "P" []] = true := by
  rw [isProperList, isProperList]
  simp [isProper_P]

/-- Witness for the C4 theorem: the store `[P]`, the query `P`, and the
oracle that answers each pinned probe with its pinned value (which is the
correct answer on this store). -/
theorem PropKB_SAT_ask_matches_tt_entails_witness :
    (is_prop_symbol "P" = true) ∧
    (isProperList [Expr.node "P" []] = true) ∧
    ∃ b1 b2,
      tt_entails (.node "&" [Expr.node "P" []]) (.node "P" []) = .ok b1 ∧
      tt_entails (.node "&" [Expr.node "P" []])
        (.node "~" [.node "P" []]) = .ok b2 ∧
      (PropKB_SAT_ask (fun _ pin => match pin with
          | some pv => pv.2
          | none => true) [Expr.node "P" []] (.node "P" []) = some true ↔
        b1 = true) ∧
      (PropKB_SAT_ask (fun _ pin => match pin with
          | some pv => pv.2
          | none => true) [Expr.node "P" []] (.node "P" []) = some false ↔
        b2 = true) ∧
      (PropKB_SAT_ask (fun _ pin => match pin with
          | some pv => pv.2
          | none => true) [Expr.node "P" []] (.node "P" []) = none ↔
        b1 = false ∧ b2 = false) := by
  have hq : is_prop_symbol "P" = true := by decide
  refine ⟨hq, isProperList_P, ?_⟩
  apply PropKB_SAT_ask_matches_tt_entails _ _ _ hq isProperList_P ?_ ?_ ?_
  · constructor
    · intro _
      exact ⟨fun _ => true, rfl, tv_conjP_total⟩
    · intro _
      rfl
  · constructor
    · intro h
      exact Bool.noConfusion h
    · rintro ⟨f, hf, hsf⟩
      rw [tv_and_node, tv_and_cons, tv_and_nil, tv_sym hq] at hsf
      have hsf2 : kand (some (f (Expr.node "P" []))) (some true) =
          some true := hsf
      rw [hf] at hsf2
      exact absurd hsf2 (by decide)
  · exact ⟨fun _ => true, tv_conjP_total⟩

/-- C4 counterexample: with the unsatisfiable store `[P, ~P]`, a correct
oracle answers UNSAT to both probes (the third conjunct shows no pinned
assignment satisfies the store), so `ask` returns the unknown signal
`None` — yet `tt_entails` answers `True` (entailment holds vacuously).
The answers disagree without a satisfiability assumption on the store. -/
theorem PropKB_SAT_ask_unsat_counterexample :
    tt_entails (.node "&" [Expr.node "P" [], .node "~" [Expr.node "P" []]])
      (.node "P" []) = .ok true ∧
    PropKB_SAT_ask (fun _ _ => false)
      [Expr.node "P" [], .node "~" [Expr.node "P" []]] (.node "P" []) =
      none ∧
    (∀ val : Bool, ¬∃ f : Expr → Bool, f (.node "P" []) = val ∧
      tv (.node "&" [Expr.node "P" [], .node "~" [Expr.node "P" []]])
        (fun e => some (f e)) = some true) := by
  have hq : is_prop_symbol "P" = true := by decide
  have hsy : prop_symbols (.node "&" [.node "&" [Expr.node "P" [],
      .node "~" [Expr.node "P" []]], Expr.node "P" []]) =
      [Expr.node "P" []] := by
    simp only [prop_symbols, prop_symbols_list,
      show is_prop_symbol "&" = false from by decide,
      show is_prop_symbol "~" = false from by decide,
      show is_prop_symbol "P" = true from by decide,
      if_true, if_false]
    decide
  have hnv : has_variable (Expr.node "P" []) = false :=
    has_variable_proper _ isProper_P
  refine ⟨?_, rfl, ?_⟩
  · rw [tt_entails, if_neg (by simp [hnv]), hsy]
    rfl
  · rintro val ⟨f, hf, hsf⟩
    rw [tv_and_node, tv_and_cons, tv_and_cons, tv_and_nil, tv_sym hq,
      tv_not_cons, tv_sym hq] at hsf
    have hsf2 : kand (some (f (Expr.node "P" [])))
        (kand (knot (some (f (Expr.node "P" [])))) (some true)) =
        some true := hsf
    cases hfv : f (Expr.node "P" []) <;> rw [hfv] at hsf2 <;>
      exact absurd hsf2 (by decide)
